import Mathlib

/-!
# Envelope codec of go-templates: `inscription.Decode` and `Inscription.Lock`

A shallow embedding of `src/inscription/inscription.go`, of `bsv21.Decode`
(`src/bsv21/bsv21.go`) and of `CreatePost` and `CreateReply`
(`src/template/bsocial/bsocial.go`).

* Bytes are `Fin 256`; a Go `[]byte` and a Go `string` are both `List Byte`
  (a nil slice and an empty slice are both `[]`). Where it matters which bytes of the memory
  a slice shares, `Decode` and `Lock` are given a second time with slices as windows of
  backing arrays (`View`, `Memory`, `DecodeMem`, `InscriptionMem.Lock`); `DecodeMem_read`
  relates the two.
* Go `int` positions are `Nat` (64-bit `int`, no overflow for positions inside a
  script); the two index expressions `startI-2` and `startI-1` are `Int`, because
  they can be negative.
* A run-time panic of Go (index or slice out of range) is the outcome `Run.panic`.
* Loops are structural recursions on a fuel counter; running out of fuel is the
  separate outcome `outOfFuel`, so that a theorem `Decode … = Run.done …` also says
  that the loop ended.
-/

namespace script

/-- One byte. -/
abbrev Byte := Fin 256

/-- The type `script.Script` of the go-sdk: a byte slice. -/
abbrev Script := List Byte

/-- Go conversion `byte(n)` of a non-negative integer: truncation to 8 bits. -/
def byte (n : Nat) : Byte := ⟨n % 256, Nat.mod_lt n (by decide)⟩

/-- The type `script.ScriptChunk` of the go-sdk: an opcode and the data it pushes. -/
structure ScriptChunk where
  Op : Byte
  Data : List Byte
deriving DecidableEq, Repr

def Op0 : Byte := 0x00
def OpDATA1 : Byte := 0x01
def OpDATA3 : Byte := 0x03
def OpPUSHDATA1 : Byte := 0x4c
def OpPUSHDATA2 : Byte := 0x4d
def OpPUSHDATA4 : Byte := 0x4e
def Op1 : Byte := 0x51
def Op3 : Byte := 0x53
def Op16 : Byte := 0x60
def OpIF : Byte := 0x63
def OpENDIF : Byte := 0x68

/-- Go slice expression `b[lo : lo+l]` for `lo + l ≤ len(b)`. -/
def subslice (b : Script) (lo l : Nat) : List Byte := (b.drop lo).take l

/-- Little-endian value of the `n` bytes of `b` that start at `pos`
(`binary.LittleEndian.Uint16` for `n = 2`, `Uint32` for `n = 4`). -/
def leUint (b : Script) (pos : Nat) : Nat → Nat
  | 0 => 0
  | n + 1 => (b.getD pos 0).val + 256 * leUint b (pos + 1) n

/-- Modelled from the spec: the Instruction Reader (§4.1), which the source calls as
`scr.ReadOp(&pos)`; it is the method `(*Script).ReadOp` of the go-sdk dependency and is not
part of the repository's sources. The result is the chunk read (`none` for an error, the
reader's end-of-stream) and the value of `pos` after the call. A direct push `0x01..0x4b`
carries its length in the opcode, `OP_PUSHDATA1/2/4` carry a 1-, 2- or 4-byte little-endian
length, every other opcode has no data. On a push whose length prefix is complete but whose
data is cut short the extended-length forms have already moved `pos` past the prefix. -/
def ReadOp (b : Script) (pos : Nat) : Option ScriptChunk × Nat :=
  match b[pos]? with
  | none => (none, pos)
  | some c =>
    if c = OpPUSHDATA1 then
      if b.length < pos + 2 then (none, pos)
      else if b.length < pos + 2 + leUint b (pos + 1) 1 then (none, pos + 2)
      else
        (some ⟨OpPUSHDATA1, subslice b (pos + 2) (leUint b (pos + 1) 1)⟩,
          pos + 2 + leUint b (pos + 1) 1)
    else if c = OpPUSHDATA2 then
      if b.length < pos + 3 then (none, pos)
      else if b.length < pos + 3 + leUint b (pos + 1) 2 then (none, pos + 3)
      else
        (some ⟨OpPUSHDATA2, subslice b (pos + 3) (leUint b (pos + 1) 2)⟩,
          pos + 3 + leUint b (pos + 1) 2)
    else if c = OpPUSHDATA4 then
      if b.length < pos + 5 then (none, pos)
      else if b.length < pos + 5 + leUint b (pos + 1) 4 then (none, pos + 5)
      else
        (some ⟨OpPUSHDATA4, subslice b (pos + 5) (leUint b (pos + 1) 4)⟩,
          pos + 5 + leUint b (pos + 1) 4)
    else if 1 ≤ c.val ∧ c.val < OpPUSHDATA1.val then
      if b.length < pos + (1 + c.val) then (none, pos)
      else (some ⟨c, subslice b (pos + 1) c.val⟩, pos + (1 + c.val))
    else (some ⟨c, []⟩, pos + 1)

/-- Modelled from the spec: the length prefix of a data push (§4.1, §4.4), `PushDataPrefix`
of the go-sdk dependency: one length byte up to 75 bytes, then `OP_PUSHDATA1/2/4` with a
1-, 2- or 4-byte little-endian length; `none` (an error) from 2^32 bytes on. -/
def PushDataPrefix (data : List Byte) : Option (List Byte) :=
  let l := data.length
  if l ≤ 75 then some [byte l]
  else if l ≤ 0xFF then some [OpPUSHDATA1, byte l]
  else if l ≤ 0xFFFF then some [OpPUSHDATA2, byte l, byte (l / 256)]
  else if l ≤ 0xFFFFFFFF then
    some [OpPUSHDATA4, byte l, byte (l / 256), byte (l / 65536), byte (l / 16777216)]
  else none

/-- The bytes that `s.AppendPushData(d)` appends to the script: the length prefix and the
data, or nothing when the prefix cannot be built (the source ignores the returned error). -/
def pushData (d : List Byte) : List Byte :=
  match PushDataPrefix d with
  | some p => p ++ d
  | none => []

/-- Modelled from the spec: `s.AppendPushData(d)` of the go-sdk dependency (§4.4). -/
def AppendPushData (s : Script) (d : List Byte) : Script := s ++ pushData d

/-- Modelled from the spec: `s.AppendOpcodes(oo...)` of the go-sdk dependency (§4.4): the
opcodes are appended unless one of them is a push opcode (`OP_DATA_1 .. OP_PUSHDATA4`), in
which case nothing is appended (the source ignores the returned error). -/
def AppendOpcodes (s : Script) (oo : List Byte) : Script :=
  if oo.any (fun o => decide (OpDATA1.val ≤ o.val ∧ o.val ≤ OpPUSHDATA4.val)) then s
  else s ++ oo

end script

namespace utf8

open script

/-- A continuation byte `0x80..0xBF`. -/
def isCont (b : Byte) : Bool := decide (0x80 ≤ b.val ∧ b.val ≤ 0xBF)

/-- The standard library function `utf8.Valid`: the bytes are a sequence of well-formed
UTF-8 encodings (no overlong forms, no surrogates, nothing above U+10FFFF). -/
def Valid : List Byte → Bool
  | [] => true
  | b0 :: rest =>
    if b0.val < 0x80 then Valid rest
    else if b0.val < 0xC2 then false
    else if b0.val ≤ 0xDF then
      match rest with
      | b1 :: rest1 => isCont b1 && Valid rest1
      | _ => false
    else if b0.val ≤ 0xEF then
      match rest with
      | b1 :: b2 :: rest2 =>
        decide ((if b0.val = 0xE0 then 0xA0 else 0x80) ≤ b1.val
          ∧ b1.val ≤ (if b0.val = 0xED then 0x9F else 0xBF)) && isCont b2 && Valid rest2
      | _ => false
    else if b0.val ≤ 0xF4 then
      match rest with
      | b1 :: b2 :: b3 :: rest3 =>
        decide ((if b0.val = 0xF0 then 0x90 else 0x80) ≤ b1.val
          ∧ b1.val ≤ (if b0.val = 0xF4 then 0x8F else 0xBF))
          && isCont b2 && isCont b3 && Valid rest3
      | _ => false
    else false

end utf8

namespace sha256

open script

/-- The round constants of SHA-256: the first 32 bits of the fractional parts of the cube
roots of the first 64 primes, in decimal. -/
def K : List Nat :=
  [1116352408, 1899447441, 3049323471, 3921009573, 961987163, 1508970993,
   2453635748, 2870763221, 3624381080, 310598401, 607225278, 1426881987,
   1925078388, 2162078206, 2614888103, 3248222580, 3835390401, 4022224774,
   264347078, 604807628, 770255983, 1249150122, 1555081692, 1996064986,
   2554220882, 2821834349, 2952996808, 3210313671, 3336571891, 3584528711,
   113926993, 338241895, 666307205, 773529912, 1294757372, 1396182291,
   1695183700, 1986661051, 2177026350, 2456956037, 2730485921, 2820302411,
   3259730800, 3345764771, 3516065817, 3600352804, 4094571909, 275423344,
   430227734, 506948616, 659060556, 883997877, 958139571, 1322822218,
   1537002063, 1747873779, 1955562222, 2024104815, 2227730452, 2361852424,
   2428436474, 2756734187, 3204031479, 3329325298]

/-- The eight 32-bit words of a SHA-256 state. -/
structure State where
  a : Nat
  b : Nat
  c : Nat
  d : Nat
  e : Nat
  f : Nat
  g : Nat
  h : Nat

/-- The initial state. -/
def init : State :=
  ⟨0x6a09e667, 0xbb67ae85, 0x3c6ef372, 0xa54ff53a, 0x510e527f, 0x9b05688c, 0x1f83d9ab, 0x5be0cd19⟩

/-- Rotation of a 32-bit word to the right. -/
def rotr (x n : Nat) : Nat := ((x >>> n) ||| (x <<< (32 - n))) % 2 ^ 32

/-- The big-endian 32-bit word made of the four bytes of `b` from index `i`. -/
def word (b : List Byte) (i : Nat) : Nat :=
  (b.getD i 0).val * 16777216 + (b.getD (i + 1) 0).val * 65536
    + (b.getD (i + 2) 0).val * 256 + (b.getD (i + 3) 0).val

/-- The message schedule, extended by `n` words: the newest word comes first. -/
def extend : Nat → List Nat → List Nat
  | 0, w => w
  | n + 1, w =>
    let w2 := w.getD 1 0
    let w7 := w.getD 6 0
    let w15 := w.getD 14 0
    let w16 := w.getD 15 0
    let s0 := rotr w15 7 ^^^ rotr w15 18 ^^^ (w15 >>> 3)
    let s1 := rotr w2 17 ^^^ rotr w2 19 ^^^ (w2 >>> 10)
    extend n (((w16 + s0 + w7 + s1) % 2 ^ 32) :: w)

/-- The 64 words of the message schedule of a 64-byte block, in order. -/
def schedule (block : List Byte) : List Nat :=
  (extend 48 ((List.range 16).map (fun i => word block (4 * i))).reverse).reverse

/-- One round of the compression function, with round constant `k` and schedule word `w`. -/
def round (s : State) (k w : Nat) : State :=
  let s1 := rotr s.e 6 ^^^ rotr s.e 11 ^^^ rotr s.e 25
  let ch := (s.e &&& s.f) ^^^ ((s.e ^^^ 0xffffffff) &&& s.g)
  let t1 := (s.h + s1 + ch + k + w) % 2 ^ 32
  let s0 := rotr s.a 2 ^^^ rotr s.a 13 ^^^ rotr s.a 22
  let maj := (s.a &&& s.b) ^^^ (s.a &&& s.c) ^^^ (s.b &&& s.c)
  let t2 := (s0 + maj) % 2 ^ 32
  ⟨(t1 + t2) % 2 ^ 32, s.a, s.b, s.c, (s.d + t1) % 2 ^ 32, s.e, s.f, s.g⟩

/-- The compression of one 64-byte block into the state. -/
def compress (s : State) (block : List Byte) : State :=
  let t := (K.zip (schedule block)).foldl (fun st kw => round st kw.1 kw.2) s
  ⟨(s.a + t.a) % 2 ^ 32, (s.b + t.b) % 2 ^ 32, (s.c + t.c) % 2 ^ 32, (s.d + t.d) % 2 ^ 32,
   (s.e + t.e) % 2 ^ 32, (s.f + t.f) % 2 ^ 32, (s.g + t.g) % 2 ^ 32, (s.h + t.h) % 2 ^ 32⟩

/-- The padded message: the byte `80`, zero bytes up to 56 modulo 64, and the bit length as
a big-endian 64-bit number. -/
def pad (m : List Byte) : List Byte :=
  let bits := 8 * m.length
  m ++ [0x80] ++ List.replicate ((119 - m.length % 64) % 64) 0
    ++ (List.range 8).map (fun i => byte (bits / 256 ^ (7 - i)))

/-- The state after the first `n` blocks of 64 bytes of `m`. -/
def blocks : Nat → State → List Byte → State
  | 0, s, _ => s
  | n + 1, s, m => blocks n (compress s (m.take 64)) (m.drop 64)

/-- The four bytes of a 32-bit word, big-endian. -/
def be32 (x : Nat) : List Byte :=
  [byte (x / 16777216), byte (x / 65536), byte (x / 256), byte x]

/-- The standard library function `sha256.Sum256` (FIPS 180-4), as the 32 bytes of the
digest. -/
def Sum256 (m : List Byte) : List Byte :=
  let s := blocks ((pad m).length / 64) init (pad m)
  be32 s.a ++ be32 s.b ++ be32 s.c ++ be32 s.d ++ be32 s.e ++ be32 s.f ++ be32 s.g ++ be32 s.h

end sha256

/-- Outcome of a piece of Go code: a run-time panic, a loop of the model that used up its
fuel, or normal completion with a value. -/
inductive Run (α : Type) where
  | panic : Run α
  | outOfFuel : Run α
  | done : α → Run α
deriving DecidableEq, Repr

namespace overlay

open script

/-- The type `overlay.Outpoint` of the go-sdk: a transaction id and an output index. -/
structure Outpoint where
  Txid : List Byte
  OutputIndex : Nat
deriving DecidableEq, Repr

end overlay

namespace inscription

open script

/-- The collaborators of the codec that are not part of the repository (§6 of the
specification): the SHA-256 digest, the address string codec and the outpoint codec. They are
parameters of the model. `NewAddressFromString` returns the `AddressString` of the parsed
address, or `none` when the string is rejected. -/
structure Collaborators where
  Sum256 : List Byte → List Byte
  NewAddressFromString : List Byte → Option (List Byte)
  NewOutpointFromBytes : List Byte → overlay.Outpoint
  OutpointBytes : overlay.Outpoint → List Byte

/-- The struct `File`. The field `Type` of the source is `Type_` here, `Type` being a
keyword; `Size` is a `uint32`. -/
structure File where
  Hash : List Byte := []
  Size : Nat := 0
  Type_ : List Byte := []
  Content : List Byte := []
deriving DecidableEq, Repr

/-- The struct `Inscription`. `Bitcom` is a Go map: `none` is the nil map, `some m` a map
given as an association list with distinct keys. -/
structure Inscription where
  File : File := {}
  Parent : Option overlay.Outpoint := none
  Bitcom : Option (List (List Byte × List Byte)) := none
  ScriptPrefix : List Byte := []
  ScriptSuffix : List Byte := []
deriving DecidableEq, Repr

/-- Go index expression `s[i]`: panics when `i` is negative or not below `len(s)`. -/
def index (s : List Byte) (i : Int) : Run Byte :=
  if 0 ≤ i then
    match s[i.toNat]? with
    | some b => .done b
    | none => .panic
  else .panic

/-- Go slice expression `s[:hi]`: panics when `hi` is negative or above the length. -/
def sliceTo (s : List Byte) (hi : Int) : Run (List Byte) :=
  if 0 ≤ hi ∧ hi ≤ (s.length : Int) then .done (s.take hi.toNat) else .panic

/-- Go slice expression `s[lo:]`: panics when `lo` is above the length. -/
def sliceFrom (s : List Byte) (lo : Nat) : Run (List Byte) :=
  if lo ≤ s.length then .done (s.drop lo) else .panic

/-- Go conversion `[36]byte(s)`: panics when `s` is shorter than 36 bytes. -/
def toArray36 (s : List Byte) : Run (List Byte) :=
  if 36 ≤ s.length then .done (s.take 36) else .panic

/-- The bytes of the string literal `"ord"`. -/
def ord : List Byte := [0x6f, 0x72, 0x64]

/-- The condition of line 32, evaluated left to right with short-circuit `&&`:
`pos > 2 && op.Op == OpDATA3 && bytes.Equal(op.Data, "ord") && scr[startI-2] == 0 &&
scr[startI-1] == OpIF`. -/
def isMarker (scr : Script) (startI pos : Nat) (op : ScriptChunk) : Run Bool :=
  if pos > 2 ∧ op.Op = OpDATA3 ∧ op.Data = ord then
    match index scr ((startI : Int) - 2) with
    | .panic => .panic
    | .outOfFuel => .outOfFuel
    | .done b0 =>
      if b0.val = 0 then
        match index scr ((startI : Int) - 1) with
        | .panic => .panic
        | .outOfFuel => .outOfFuel
        | .done b1 => .done (decide (b1 = OpIF))
      else .done false
  else .done false

/-- Assignment `m[k] = v` on a Go map given as an association list. -/
def mapSet (m : List (List Byte × List Byte)) (k v : List Byte) :
    List (List Byte × List Byte) :=
  if m.any (fun kv => decide (kv.1 = k)) then
    m.map (fun kv => if kv.1 = k then (k, v) else kv)
  else m ++ [(k, v)]

/-- How one iteration of the loop `ordLoop` ends. -/
inductive StepExit where
  | panic : StepExit
  | ret (insc : Inscription) : StepExit
  | brk (insc : Inscription) (pos : Nat) : StepExit
  | next (insc : Inscription) (pos : Nat) : StepExit
deriving DecidableEq, Repr

/-- The `switch field` of lines 59-74, for the value chunk `op2`; `pos` is the read position
after the pair. -/
def dispatch (d : Collaborators) (insc : Inscription) (field : Int) (op2 : ScriptChunk)
    (pos : Nat) : StepExit :=
  if field = 0 then
    .brk { insc with File := { insc.File with
      Content := op2.Data, Size := op2.Data.length % 2 ^ 32, Hash := d.Sum256 op2.Data } } pos
  else if field = 1 then
    if op2.Data.length < 256 ∧ utf8.Valid op2.Data = true then
      .next { insc with File := { insc.File with Type_ := op2.Data } } pos
    else .next insc pos
  else if field = 3 then
    if op2.Data.length = 36 then
      match toArray36 op2.Data with
      | .done a => .next { insc with Parent := some (d.NewOutpointFromBytes a) } pos
      | _ => .panic
    else .next insc pos
  else .next insc pos

/-- One iteration of the loop `ordLoop` (lines 38-76), started at read position `pos` with
the envelope `insc` accumulated so far. -/
def ordStep (d : Collaborators) (scr : Script) (pos : Nat) (insc : Inscription) : StepExit :=
  match ReadOp scr pos with
  | (none, _) => .ret insc
  | (some op, pos1) =>
    if op.Op.val > Op16.val then .ret insc
    else
      match ReadOp scr pos1 with
      | (none, _) => .ret insc
      | (some op2, pos2) =>
        if op2.Op.val > Op16.val then .ret insc
        else if op.Op.val > OpPUSHDATA4.val ∧ op.Op.val ≤ Op16.val then
          dispatch d insc ((op.Op.val : Int) - 80) op2 pos2
        else if op.Data.length = 1 then
          match index op.Data 0 with
          | .done b => dispatch d insc (b.val : Int) op2 pos2
          | _ => .panic
        else if op.Data.length > 1 then
          match d.NewAddressFromString op.Data with
          | some add =>
            .next { insc with Bitcom := some (mapSet (insc.Bitcom.getD []) add op2.Data) } pos2
          | none => .next insc pos2
        else dispatch d insc 0 op2 pos2

/-- How the loop `ordLoop` ends. -/
inductive LoopExit where
  | panic : LoopExit
  | outOfFuel : LoopExit
  | ret (insc : Inscription) : LoopExit
  | brk (insc : Inscription) (pos : Nat) : LoopExit
deriving DecidableEq, Repr

/-- The loop `ordLoop: for { … }` of lines 37-76. -/
def ordLoop (d : Collaborators) (scr : Script) : Nat → Nat → Inscription → LoopExit
  | 0, _, _ => .outOfFuel
  | fuel + 1, pos, insc =>
    match ordStep d scr pos insc with
    | .panic => .panic
    | .ret i => .ret i
    | .brk i p => .brk i p
    | .next i p => ordLoop d scr fuel p i

/-- The statements after the loop `ordLoop` (lines 77-81): `none` when the instruction read
is `OP_ENDIF` and control leaves the `else if` block, otherwise the returned envelope. The
second component is the read position after the call of `ReadOp`. -/
def closing (scr : Script) (pos : Nat) (insc : Inscription) : Run (Option Inscription) × Nat :=
  match ReadOp scr pos with
  | (none, pos1) =>
    (match sliceFrom scr pos1 with
      | .done suf => .done (some { insc with ScriptSuffix := suf })
      | _ => .panic, pos1)
  | (some op, pos1) =>
    if op.Op ≠ OpENDIF then
      (match sliceFrom scr pos1 with
        | .done suf => .done (some { insc with ScriptSuffix := suf })
        | _ => .panic, pos1)
    else (.done none, pos1)

/-- Lines 33-81, run when the marker condition holds for the instruction that starts at
`startI` and ends at `pos`: the envelope is created with its prefix, the loop `ordLoop` runs,
and after a `break` the closing instruction is read. The first component is what `Decode`
returns from here, `Run.done none` standing for "no return: control leaves the `else if`
block and the outer loop goes on"; the second is the read position at that point. -/
def envelopeAt (d : Collaborators) (scr : Script) (startI pos : Nat) :
    Run (Option Inscription) × Nat :=
  match sliceTo scr ((startI : Int) - 2) with
  | .panic => (.panic, pos)
  | .outOfFuel => (.outOfFuel, pos)
  | .done pre =>
    match ordLoop d scr (scr.length + 1) pos { ScriptPrefix := pre } with
    | .panic => (.panic, pos)
    | .outOfFuel => (.outOfFuel, pos)
    | .ret insc => (.done (some insc), pos)
    | .brk insc pos2 => closing scr pos2 insc

/-- The outer loop `for pos := 0; pos < len(*scr); { … }` of lines 28-83 followed by
`return nil`, started at read position `pos`. -/
def scanLoop (d : Collaborators) (scr : Script) : Nat → Nat → Run (Option Inscription)
  | 0, _ => .outOfFuel
  | fuel + 1, pos =>
    if pos < scr.length then
      match ReadOp scr pos with
      | (none, _) => .done none
      | (some op, pos1) =>
        match isMarker scr pos pos1 op with
        | .panic => .panic
        | .outOfFuel => .outOfFuel
        | .done false => scanLoop d scr fuel pos1
        | .done true =>
          match envelopeAt d scr pos pos1 with
          | (.done none, pos3) => scanLoop d scr fuel pos3
          | (r, _) => r
    else .done none

/-- The scanning part of the outer loop alone: the instruction positions are visited in
reading order from `pos`, and the result is `(startI, pos1)` for the first instruction at
which the marker condition holds (it starts at `startI` and ends at `pos1`), or `none` when
the script ends or an instruction cannot be read before that. -/
def firstMarker (scr : Script) : Nat → Nat → Run (Option (Nat × Nat))
  | 0, _ => .outOfFuel
  | fuel + 1, pos =>
    if pos < scr.length then
      match ReadOp scr pos with
      | (none, _) => .done none
      | (some op, pos1) =>
        match isMarker scr pos pos1 op with
        | .panic => .panic
        | .outOfFuel => .outOfFuel
        | .done false => firstMarker scr fuel pos1
        | .done true => .done (some (pos, pos1))
    else .done none

/-- The function `Decode`: a result `Run.done none` is the Go result `nil`. -/
def Decode (d : Collaborators) (scr : Script) : Run (Option Inscription) :=
  scanLoop d scr (scr.length + 1) 0

/-- The method `(*Inscription).Lock` on an envelope whose slices are independent values: the
bytes it returns when `ScriptPrefix` has no spare capacity (a nil prefix, or one that fills
its array), so that the first append allocates and nothing the envelope reads is written.
For a prefix with spare capacity, as in every envelope that `Decode` returns, the appends
write in place: that is `InscriptionMem.Lock`, and `Lock_fresh` relates the two. The `range`
over the map `Bitcom` has no specified order in Go; the model visits the association list in
its order. -/
def Inscription.Lock (d : Collaborators) (i : Inscription) : Script :=
  let s : Script := i.ScriptPrefix
  let s := AppendOpcodes s [Op0, OpIF]
  let s := AppendPushData s ord
  let s := AppendOpcodes s [Op1]
  let s := AppendPushData s i.File.Content
  let s :=
    match i.Parent with
    | some p => AppendPushData (AppendOpcodes s [Op3]) (d.OutpointBytes p)
    | none => s
  let s :=
    match i.Bitcom with
    | some m => m.foldl (fun s kv => AppendPushData (AppendPushData s kv.1) kv.2) s
    | none => s
  let s := AppendOpcodes s [Op0]
  let s := AppendPushData s i.File.Content
  let s := AppendOpcodes s [OpENDIF]
  s ++ i.ScriptSuffix

/-- The open marker `00 63 03 6F 72 64`. -/
def MARK : List Byte := [0x00, 0x63, 0x03, 0x6f, 0x72, 0x64]

/-- A sample set of collaborators for evaluating the model on concrete scripts. It is not
the real digest or address codec: the digest is empty, every address string is rejected, and
an outpoint is its 32-byte id followed by the little-endian index. -/
def sampleCollaborators : Collaborators where
  Sum256 := fun _ => []
  NewAddressFromString := fun _ => none
  NewOutpointFromBytes := fun b => ⟨b.take 32, leUint b 32 4⟩
  OutpointBytes := fun o => o.Txid ++ [byte o.OutputIndex, byte (o.OutputIndex / 256),
    byte (o.OutputIndex / 65536), byte (o.OutputIndex / 16777216)]

/-- The opcode under which `pushData d` is read back. -/
def pushOp (d : List Byte) : Byte :=
  if d.length ≤ 75 then byte d.length
  else if d.length ≤ 0xFF then OpPUSHDATA1
  else if d.length ≤ 0xFFFF then OpPUSHDATA2
  else OpPUSHDATA4

/-- What an iteration of the field loop leaves untouched when it goes on to the next pair. -/
def SameContent (i i1 : Inscription) : Prop :=
  i1.ScriptPrefix = i.ScriptPrefix ∧ i1.ScriptSuffix = i.ScriptSuffix
    ∧ i1.File.Content = i.File.Content ∧ i1.File.Hash = i.File.Hash
    ∧ i1.File.Size = i.File.Size

/-- The envelope after the content field with value `v` was consumed. -/
def IsContent (d : Collaborators) (v : List Byte) (i i1 : Inscription) : Prop :=
  i1.ScriptPrefix = i.ScriptPrefix ∧ i1.ScriptSuffix = i.ScriptSuffix
    ∧ i1.File.Content = v ∧ i1.File.Hash = d.Sum256 v ∧ i1.File.Size = v.length % 2 ^ 32

/-- The state of the field loop after `n` iterations that each went on to the next pair
(`continue`, or the end of the loop body): the read position and the envelope accumulated.
`none` when one of these iterations returned, broke out of the loop or panicked. -/
def runPairs (d : Collaborators) (scr : Script) : Nat → Nat → Inscription →
    Option (Nat × Inscription)
  | 0, pos, insc => some (pos, insc)
  | n + 1, pos, insc =>
    match ordStep d scr pos insc with
    | .next i p => runPairs d scr n p i
    | _ => none

/-- At read position `pos`, reading the tag instruction or the value instruction fails, or
one of the two has an opcode greater than `OP_16`. -/
def truncatedAt (scr : Script) (pos : Nat) : Bool :=
  match ReadOp scr pos with
  | (none, _) => true
  | (some op, pos1) =>
    decide (op.Op.val > Op16.val) ||
      match ReadOp scr pos1 with
      | (none, _) => true
      | (some op2, _) => decide (op2.Op.val > Op16.val)

/-- The 20-byte script of the specification's scenario: marker, content type `"text"`,
content `"hello"`, `OP_ENDIF`. -/
def scenarioClosed : Script :=
  [0x00, 0x63, 0x03, 0x6F, 0x72, 0x64, 0x51, 0x04, 0x74, 0x65, 0x78, 0x74,
   0x00, 0x05, 0x68, 0x65, 0x6C, 0x6C, 0x6F, 0x68]

/-- The scenario script without its last byte `68`. -/
def scenarioUnclosed : Script :=
  [0x00, 0x63, 0x03, 0x6F, 0x72, 0x64, 0x51, 0x04, 0x74, 0x65, 0x78, 0x74,
   0x00, 0x05, 0x68, 0x65, 0x6C, 0x6C, 0x6F]

/-- The bytes of `"text"`. -/
def textBytes : List Byte := [0x74, 0x65, 0x78, 0x74]

/-- The bytes of `"hello"`. -/
def helloBytes : List Byte := [0x68, 0x65, 0x6C, 0x6C, 0x6F]

/-- The envelope of the scenario: content `"hello"` with its size and digest, type
`"text"`. -/
def helloText (d : Collaborators) : Inscription :=
  { File := { Hash := d.Sum256 helloBytes, Size := 5, Type_ := textBytes, Content := helloBytes } }

/-- Marker, content `"a"`, then `OP_1` and `OP_CHECKSIG` where `OP_ENDIF` was expected:
`MARK ++ 00 01 61 ++ 51 AC`. -/
def mismatchedClose : Script :=
  [0x00, 0x63, 0x03, 0x6F, 0x72, 0x64, 0x00, 0x01, 0x61, 0x51, 0xAC]

/-- The envelope whose only set fields are those of the content `"a"`. -/
def contentA (d : Collaborators) : Inscription :=
  { File := { Content := [0x61], Size := 1, Hash := d.Sum256 [0x61] } }

/-- Marker followed by the content-type pair `51 04 "text"` and nothing else. -/
def typeOnly : Script :=
  [0x00, 0x63, 0x03, 0x6F, 0x72, 0x64, 0x51, 0x04, 0x74, 0x65, 0x78, 0x74]

/-- An envelope with content `"hello"`, type `"text"`, a parent and a prefix and suffix of
one byte each; size and hash are left unset. -/
def lockSample : Inscription :=
  { File := { Type_ := textBytes, Content := helloBytes }
    Parent := some ⟨List.replicate 32 0x11, 1⟩
    ScriptPrefix := [0x76]
    ScriptSuffix := [0xAC] }

/-- The field code that lines 46-58 give to the tag chunk `op` of a pair: the small-integer
value for an opcode in `OP_1NEGATE .. OP_16`, the byte of a one-byte push, `0` (the zero value
of `var field int`) for a tag without data; `none` for a tag of two or more bytes, which is
tried as an extension key instead. -/
def tagField (op : ScriptChunk) : Option Int :=
  if op.Op.val > OpPUSHDATA4.val ∧ op.Op.val ≤ Op16.val then some ((op.Op.val : Int) - 80)
  else if op.Data.length = 1 then some ((op.Data.getD 0 0).val : Int)
  else if op.Data.length > 1 then none
  else some 0

/-- Marker, the pair `51, push(255 × "a")` (field code 1), then the content `"b"`. -/
def type255 : Script :=
  MARK ++ [0x51] ++ pushData (List.replicate 255 0x61) ++ [0x00, 0x01, 0x62]

/-- Marker, the pair `51, push(256 × "a")` (field code 1), then the content `"b"`. -/
def type256 : Script :=
  MARK ++ [0x51] ++ pushData (List.replicate 256 0x61) ++ [0x00, 0x01, 0x62]

/-- Marker, the pair `53, push(36 × 11)` (field code 3), then the content `"b"`. -/
def parent36 : Script :=
  MARK ++ [0x53] ++ pushData (List.replicate 36 0x11) ++ [0x00, 0x01, 0x62]

/-- Marker, the pair `53, push(35 × 11)` (field code 3), then the content `"b"`. -/
def parent35 : Script :=
  MARK ++ [0x53] ++ pushData (List.replicate 35 0x11) ++ [0x00, 0x01, 0x62]

/-- Marker, the pair `53, push(37 × 11)` (field code 3), then the content `"b"`. -/
def parent37 : Script :=
  MARK ++ [0x53] ++ pushData (List.replicate 37 0x11) ++ [0x00, 0x01, 0x62]

/-- Marker, the type pair `51 04 "text"`, then a pair whose tag is the extended-length push
of zero bytes `4C 00` and whose value is `"a"`. -/
def emptyTag : Script :=
  [0x00, 0x63, 0x03, 0x6F, 0x72, 0x64, 0x51, 0x04, 0x74, 0x65, 0x78, 0x74, 0x4C, 0x00, 0x01, 0x61]

/-- Marker, a pair whose tag is the two-byte push `02 AA BB` and whose value is `01 CC`, then
the content `"b"`. -/
def unknownKey : Script :=
  [0x00, 0x63, 0x03, 0x6F, 0x72, 0x64, 0x02, 0xAA, 0xBB, 0x01, 0xCC, 0x00, 0x01, 0x62]

/-- The envelope whose only set fields are those of the content `"b"`. -/
def contentB (d : Collaborators) : Inscription :=
  { File := { Content := [0x62], Size := 1, Hash := d.Sum256 [0x62] } }

/-- The sample collaborators with the real digest: `Sum256` is SHA-256. -/
def shaCollaborators : Collaborators :=
  { sampleCollaborators with Sum256 := sha256.Sum256 }

/-! ### Slices as windows of a backing array

In Go a slice is a window of a backing array, and a slice expression `s[lo:hi]` makes a window
of the same array: no byte is copied. The definitions below repeat `Decode` and `Lock` with
the slices as windows, so that one can say which bytes of the memory a field of a decoded
envelope reads and which bytes `Lock` writes. -/

/-- A Go slice value: the number of its backing array, the offset of the window in the array,
its length and its capacity. The nil slice has length and capacity 0. -/
structure View where
  arr : Nat := 0
  off : Nat := 0
  len : Nat := 0
  cap : Nat := 0
deriving DecidableEq, Repr

/-- The memory: the backing arrays, by number. -/
abbrev Memory := List (List Byte)

/-- The bytes that a slice has in a memory. -/
def View.bytes (m : Memory) (v : View) : List Byte :=
  ((m.getD v.arr []).drop v.off).take v.len

/-- Go slice expression `v[lo:hi]` for `lo ≤ hi ≤ cap(v)`: a window of the same array that
starts `lo` elements later, with capacity `cap(v) - lo`. -/
def View.reslice (v : View) (lo hi : Nat) : View :=
  { arr := v.arr, off := v.off + lo, len := hi - lo, cap := v.cap - lo }

/-- The array `a` with the elements `xs` written from index `pos` on. -/
def writeAt (a : List Byte) (pos : Nat) (xs : List Byte) : List Byte :=
  a.take pos ++ xs ++ a.drop (pos + xs.length)

/-- Go built-in `append(s, xs...)`: when the capacity of `s` suffices, the elements are written
into the backing array of `s` right after its window and the result is the longer window of
the same array; otherwise a new array is allocated that holds the elements of `s` followed by
`xs`. The capacity of a new array is chosen by the run-time system; the model takes its
length, and no array that exists before the call depends on that choice. -/
def goAppend (m : Memory) (s : View) (xs : List Byte) : Memory × View :=
  if s.len + xs.length ≤ s.cap then
    (m.set s.arr (writeAt (m.getD s.arr []) (s.off + s.len) xs),
      { s with len := s.len + xs.length })
  else
    (m ++ [s.bytes m ++ xs],
      { arr := m.length, off := 0, len := s.len + xs.length, cap := s.len + xs.length })

/-- The struct `File` in memory: `Content` is a slice; `Hash` is a slice of a fresh array
(`hash[:]` of a local variable) and `Type` an immutable string, both kept as values. -/
structure FileMem where
  Hash : List Byte := []
  Size : Nat := 0
  Type_ : List Byte := []
  Content : View := {}
deriving DecidableEq, Repr

/-- The struct `Inscription` in memory: `ScriptPrefix`, `ScriptSuffix`, `File.Content` and the
values of the map `Bitcom` are slices. -/
structure InscriptionMem where
  File : FileMem := {}
  Parent : Option overlay.Outpoint := none
  Bitcom : Option (List (List Byte × View)) := none
  ScriptPrefix : View := {}
  ScriptSuffix : View := {}
deriving DecidableEq, Repr

/-- The envelope that is read from an envelope in memory: every slice is replaced by its
bytes. -/
def InscriptionMem.read (m : Memory) (i : InscriptionMem) : Inscription :=
  { File := { Hash := i.File.Hash, Size := i.File.Size, Type_ := i.File.Type_,
              Content := i.File.Content.bytes m }
    Parent := i.Parent
    Bitcom := i.Bitcom.map (fun l => l.map (fun kv => (kv.1, kv.2.bytes m)))
    ScriptPrefix := i.ScriptPrefix.bytes m
    ScriptSuffix := i.ScriptSuffix.bytes m }

/-- The data of a chunk as a slice: the reader of the go-sdk returns the data of a push as the
slice expression `b[pos : pos+l]` of the script, and `pos + l` is the read position `pos1`
after the instruction. -/
def dataView (scr : View) (op : ScriptChunk) (pos1 : Nat) : View :=
  scr.reslice (pos1 - op.Data.length) pos1

/-- Assignment `m[k] = v` on a Go map whose values are slices. -/
def mapSetMem (l : List (List Byte × View)) (k : List Byte) (v : View) :
    List (List Byte × View) :=
  if l.any (fun kv => decide (kv.1 = k)) then
    l.map (fun kv => if kv.1 = k then (k, v) else kv)
  else l ++ [(k, v)]

/-- How one iteration of the loop `ordLoop` ends, for an envelope in memory. -/
inductive StepExitMem where
  | panic : StepExitMem
  | ret (insc : InscriptionMem) : StepExitMem
  | brk (insc : InscriptionMem) (pos : Nat) : StepExitMem
  | next (insc : InscriptionMem) (pos : Nat) : StepExitMem
deriving DecidableEq, Repr

/-- The `switch field` of lines 59-74 in memory: `op2` is the value chunk and `v2` the slice
that is its data; line 61 stores that slice, lines 68 and 72 convert the data to a string and
to an array, which copies it. -/
def dispatchMem (d : Collaborators) (insc : InscriptionMem) (field : Int) (op2 : ScriptChunk)
    (v2 : View) (pos : Nat) : StepExitMem :=
  if field = 0 then
    .brk { insc with File := { insc.File with
      Content := v2, Size := op2.Data.length % 2 ^ 32, Hash := d.Sum256 op2.Data } } pos
  else if field = 1 then
    if op2.Data.length < 256 ∧ utf8.Valid op2.Data = true then
      .next { insc with File := { insc.File with Type_ := op2.Data } } pos
    else .next insc pos
  else if field = 3 then
    if op2.Data.length = 36 then
      match toArray36 op2.Data with
      | .done a => .next { insc with Parent := some (d.NewOutpointFromBytes a) } pos
      | _ => .panic
    else .next insc pos
  else .next insc pos

/-- One iteration of the loop `ordLoop` (lines 38-76) in memory; `b` is the sequence of the
bytes of the script `scr`. -/
def ordStepMem (d : Collaborators) (b : Script) (scr : View) (pos : Nat)
    (insc : InscriptionMem) : StepExitMem :=
  match ReadOp b pos with
  | (none, _) => .ret insc
  | (some op, pos1) =>
    if op.Op.val > Op16.val then .ret insc
    else
      match ReadOp b pos1 with
      | (none, _) => .ret insc
      | (some op2, pos2) =>
        if op2.Op.val > Op16.val then .ret insc
        else if op.Op.val > OpPUSHDATA4.val ∧ op.Op.val ≤ Op16.val then
          dispatchMem d insc ((op.Op.val : Int) - 80) op2 (dataView scr op2 pos2) pos2
        else if op.Data.length = 1 then
          match index op.Data 0 with
          | .done c => dispatchMem d insc (c.val : Int) op2 (dataView scr op2 pos2) pos2
          | _ => .panic
        else if op.Data.length > 1 then
          match d.NewAddressFromString op.Data with
          | some add =>
            .next { insc with
              Bitcom := some (mapSetMem (insc.Bitcom.getD []) add (dataView scr op2 pos2)) } pos2
          | none => .next insc pos2
        else dispatchMem d insc 0 op2 (dataView scr op2 pos2) pos2

/-- How the loop `ordLoop` ends, for an envelope in memory. -/
inductive LoopExitMem where
  | panic : LoopExitMem
  | outOfFuel : LoopExitMem
  | ret (insc : InscriptionMem) : LoopExitMem
  | brk (insc : InscriptionMem) (pos : Nat) : LoopExitMem
deriving DecidableEq, Repr

/-- The loop `ordLoop: for { … }` of lines 37-76 in memory. -/
def ordLoopMem (d : Collaborators) (b : Script) (scr : View) :
    Nat → Nat → InscriptionMem → LoopExitMem
  | 0, _, _ => .outOfFuel
  | fuel + 1, pos, insc =>
    match ordStepMem d b scr pos insc with
    | .panic => .panic
    | .ret i => .ret i
    | .brk i p => .brk i p
    | .next i p => ordLoopMem d b scr fuel p i

/-- The statements after the loop `ordLoop` (lines 77-81) in memory: line 79 stores the slice
expression `(*scr)[pos:]`, a window of the array of the script. -/
def closingMem (b : Script) (scr : View) (pos : Nat) (insc : InscriptionMem) :
    Run (Option InscriptionMem) × Nat :=
  match ReadOp b pos with
  | (none, pos1) =>
    (match sliceFrom b pos1 with
      | .done _ => .done (some { insc with ScriptSuffix := scr.reslice pos1 b.length })
      | _ => .panic, pos1)
  | (some op, pos1) =>
    if op.Op ≠ OpENDIF then
      (match sliceFrom b pos1 with
        | .done _ => .done (some { insc with ScriptSuffix := scr.reslice pos1 b.length })
        | _ => .panic, pos1)
    else (.done none, pos1)

/-- Lines 33-81 in memory: line 34 stores the slice expression `(*scr)[:startI-2]`, a window
of the array of the script that starts where the script starts. -/
def envelopeAtMem (d : Collaborators) (b : Script) (scr : View) (startI pos : Nat) :
    Run (Option InscriptionMem) × Nat :=
  match sliceTo b ((startI : Int) - 2) with
  | .panic => (.panic, pos)
  | .outOfFuel => (.outOfFuel, pos)
  | .done _ =>
    match ordLoopMem d b scr (b.length + 1) pos
        { ScriptPrefix := scr.reslice 0 (startI - 2) } with
    | .panic => (.panic, pos)
    | .outOfFuel => (.outOfFuel, pos)
    | .ret insc => (.done (some insc), pos)
    | .brk insc pos2 => closingMem b scr pos2 insc

/-- The outer loop of lines 28-83 followed by `return nil`, in memory. -/
def scanLoopMem (d : Collaborators) (b : Script) (scr : View) :
    Nat → Nat → Run (Option InscriptionMem)
  | 0, _ => .outOfFuel
  | fuel + 1, pos =>
    if pos < b.length then
      match ReadOp b pos with
      | (none, _) => .done none
      | (some op, pos1) =>
        match isMarker b pos pos1 op with
        | .panic => .panic
        | .outOfFuel => .outOfFuel
        | .done false => scanLoopMem d b scr fuel pos1
        | .done true =>
          match envelopeAtMem d b scr pos pos1 with
          | (.done none, pos3) => scanLoopMem d b scr fuel pos3
          | (r, _) => r
    else .done none

/-- The function `Decode` in memory: the script is the slice `scr` of the memory `m`, which
`Decode` only reads. -/
def DecodeMem (d : Collaborators) (m : Memory) (scr : View) : Run (Option InscriptionMem) :=
  scanLoopMem d (scr.bytes m) scr ((scr.bytes m).length + 1) 0

/-- The method `AppendOpcodes` of the go-sdk in memory: `*s = append(*s, oo...)`, unless one
of the opcodes is a push opcode. -/
def AppendOpcodesMem (m : Memory) (s : View) (oo : List Byte) : Memory × View :=
  if oo.any (fun o => decide (OpDATA1.val ≤ o.val ∧ o.val ≤ OpPUSHDATA4.val)) then (m, s)
  else goAppend m s oo

/-- The method `AppendPushData` of the go-sdk in memory, for the data bytes `dat`: the length
prefix and the data are put together in a new buffer first, and that buffer is appended to the
script by one `append`; nothing is appended when the prefix cannot be built. -/
def AppendPushDataMem (m : Memory) (s : View) (dat : List Byte) : Memory × View :=
  match PushDataPrefix dat with
  | some p => goAppend m s (p ++ dat)
  | none => (m, s)

/-- The method `AppendPushData` of the go-sdk in memory, for data that is the slice `v`: the
bytes of `v` are read, before anything is written, into the buffer that holds the length
prefix and the data, and that buffer is appended by one `append`. -/
def AppendPushDataView (m : Memory) (s : View) (v : View) : Memory × View :=
  AppendPushDataMem m s (v.bytes m)

/-- Lines 93-96 in memory: the parent field, when a parent is present. -/
def lockParent (d : Collaborators) (parent : Option overlay.Outpoint) (m : Memory) (s : View) :
    Memory × View :=
  match parent with
  | some p =>
    match AppendOpcodesMem m s [Op3] with
    | (m1, s1) => AppendPushDataMem m1 s1 (d.OutpointBytes p)
  | none => (m, s)

/-- Lines 97-102 in memory: the pairs of the map `Bitcom`, in the order of the list; the key
is converted to a fresh slice, the value is the slice stored in the map. -/
def lockBitcom : List (List Byte × View) → Memory → View → Memory × View
  | [], m, s => (m, s)
  | kv :: rest, m, s =>
    match AppendPushDataMem m s kv.1 with
    | (m1, s1) =>
      match AppendPushDataView m1 s1 kv.2 with
      | (m2, s2) => lockBitcom rest m2 s2

/-- The method `(*Inscription).Lock` in memory. `script.NewFromBytes(i.ScriptPrefix)` is the
conversion `Script(b)` of the slice, which copies nothing, so the appends start right after
the window of the prefix. The result is the memory after the call and the slice returned. -/
def InscriptionMem.Lock (d : Collaborators) (m : Memory) (i : InscriptionMem) : Memory × View :=
  match AppendOpcodesMem m i.ScriptPrefix [Op0, OpIF] with
  | (m1, s1) =>
    match AppendPushDataMem m1 s1 ord with
    | (m2, s2) =>
      match AppendOpcodesMem m2 s2 [Op1] with
      | (m3, s3) =>
        match AppendPushDataView m3 s3 i.File.Content with
        | (m4, s4) =>
          match lockParent d i.Parent m4 s4 with
          | (m5, s5) =>
            match lockBitcom (i.Bitcom.getD []) m5 s5 with
            | (m6, s6) =>
              match AppendOpcodesMem m6 s6 [Op0] with
              | (m7, s7) =>
                match AppendPushDataView m7 s7 i.File.Content with
                | (m8, s8) =>
                  match AppendOpcodesMem m8 s8 [OpENDIF] with
                  | (m9, s9) => goAppend m9 s9 (i.ScriptSuffix.bytes m9)

/-- A buffer of 12 bytes: `76`, the marker, the content `"b"`, then `51 AC` where the close
`68` is expected. -/
def aliasBuffer : List Byte :=
  [0x76, 0x00, 0x63, 0x03, 0x6F, 0x72, 0x64, 0x00, 0x01, 0x62, 0x51, 0xAC]

/-- A memory whose only array is `aliasBuffer`. -/
def aliasMemory : Memory := [aliasBuffer]

/-- The input script: the whole of array 0, length and capacity 12. -/
def aliasScript : View := { arr := 0, off := 0, len := 12, cap := 12 }

/-- What `Decode` returns for `aliasScript`: the prefix is the window `[0, 1)` of the input
array, the content the window `[9, 10)`, the suffix the window `[11, 12)`. -/
def aliasEnvelope (d : Collaborators) : InscriptionMem :=
  { File := { Hash := d.Sum256 [0x62], Size := 1,
              Content := { arr := 0, off := 9, len := 1, cap := 3 } }
    ScriptPrefix := { arr := 0, off := 0, len := 1, cap := 12 }
    ScriptSuffix := { arr := 0, off := 11, len := 1, cap := 1 } }

/-- A buffer of 11 bytes: the marker, the tag `01 00` (a one-byte push of `00`, field code 0),
the content `"ab"`, and nothing after it. -/
def overlapBuffer : List Byte :=
  [0x00, 0x63, 0x03, 0x6F, 0x72, 0x64, 0x01, 0x00, 0x02, 0x61, 0x62]

/-- A memory whose only array is `overlapBuffer`. -/
def overlapMemory : Memory := [overlapBuffer]

/-- The input script: the whole of array 0, length and capacity 11. -/
def overlapScript : View := { arr := 0, off := 0, len := 11, cap := 11 }

/-- What `Decode` returns for `overlapScript`: the prefix is the empty window at the start of
the input array, with the capacity of the input; the content is the window `[9, 11)`; the
suffix is the empty window at the end. -/
def overlapEnvelope (d : Collaborators) : InscriptionMem :=
  { File := { Hash := d.Sum256 [0x61, 0x62], Size := 2,
              Content := { arr := 0, off := 9, len := 2, cap := 2 } }
    ScriptPrefix := { arr := 0, off := 0, len := 0, cap := 11 }
    ScriptSuffix := { arr := 0, off := 11, len := 0, cap := 0 } }

/-- The outcome of an iteration with every envelope read from the memory. -/
def StepExitMem.read (m : Memory) : StepExitMem → StepExit
  | .panic => .panic
  | .ret i => .ret (i.read m)
  | .brk i p => .brk (i.read m) p
  | .next i p => .next (i.read m) p

/-- The outcome of the field loop with every envelope read from the memory. -/
def LoopExitMem.read (m : Memory) : LoopExitMem → LoopExit
  | .panic => .panic
  | .outOfFuel => .outOfFuel
  | .ret i => .ret (i.read m)
  | .brk i p => .brk (i.read m) p

/-- The result of `Decode` with the envelope read from the memory. -/
def readResult (m : Memory) : Run (Option InscriptionMem) → Run (Option Inscription)
  | .panic => .panic
  | .outOfFuel => .outOfFuel
  | .done none => .done none
  | .done (some i) => .done (some (i.read m))

/-- A slice that reads the same bytes in every memory that extends `m` by new arrays: its
array is an array of `m`, or it is empty. -/
def View.Stable (m : Memory) (v : View) : Prop :=
  v.arr < m.length ∨ v.len = 0

/-- A state of `Lock` in which nothing of the memory `m0` has been written: the memory is
`m0` followed by new arrays, the script slice `st.2` has no spare capacity, and it reads the
bytes `val`. -/
def Fresh (m0 : Memory) (st : Memory × View) (val : List Byte) : Prop :=
  (∃ ex, st.1 = m0 ++ ex) ∧ st.2.cap ≤ st.2.len ∧ st.2.bytes st.1 = val

/-- The envelope `aliasEnvelope` with the capacity of its prefix cut down to its length (the
Go expression `prefix[:1:1]`): the same windows of the input array, no spare capacity. -/
def aliasClipped (d : Collaborators) : InscriptionMem :=
  { aliasEnvelope d with ScriptPrefix := { arr := 0, off := 0, len := 1, cap := 1 } }

/-- The instruction read at position `startI` is the push `03 6F 72 64` of `"ord"`. -/
def ordPushAt (scr : Script) (startI : Nat) : Bool :=
  decide (ReadOp scr startI = (some ⟨OpDATA3, ord⟩, startI + 4))

/-- The push of `"ord"` is the first instruction of the script, or it is the second one and
starts at position 1: the two places where the scan evaluates `(*scr)[startI-2]` with
`startI < 2`. -/
def leadingOrd (scr : Script) : Bool :=
  ordPushAt scr 0 ||
    match ReadOp scr 0 with
    | (some _, pos1) => decide (pos1 = 1) && ordPushAt scr 1
    | (none, _) => false

/-- The outcome of an iteration with its read position moved `n` bytes to the right. -/
def StepExit.shift (n : Nat) : StepExit → StepExit
  | .panic => .panic
  | .ret i => .ret i
  | .brk i p => .brk i (n + p)
  | .next i p => .next i (n + p)

/-- The outcome of the field loop with its read position moved `n` bytes to the right. -/
def LoopExit.shift (n : Nat) : LoopExit → LoopExit
  | .panic => .panic
  | .outOfFuel => .outOfFuel
  | .ret i => .ret i
  | .brk i p => .brk i (n + p)

end inscription

/-! ## Package bsocial: definitions -/

namespace bsocial

open script

/-- The bytes of a string literal of the source (all of them are ASCII). -/
def ascii (s : String) : List Byte := s.toList.map (fun c => byte c.toNat)

def OpFALSE : Byte := 0x00
def OpRETURN : Byte := 0x6a

/-- The constant `AIPPrefix`. -/
def AIPPrefix : List Byte := ascii "15PciHG22SNLQJXMoSUaWVi7WSqc7hCfva"

/-- The constant `AppName`. -/
def AppName : List Byte := ascii "bsocial"

/-- The constant `ContextTx`. -/
def ContextTx : List Byte := ascii "tx"

/-- The struct `Data`. -/
structure Data where
  UTF8 : List Byte := []
  Base64 : List Byte := []
  Hex : List Byte := []
deriving DecidableEq, Repr

/-- The struct `B`. -/
structure B where
  MediaType : List Byte := []
  Encoding : List Byte := []
  Data : Data := {}
deriving DecidableEq, Repr

/-- The struct `Post`; the string types `MediaType`, `Encoding` and `Context` are byte
sequences. -/
structure Post where
  MediaType : List Byte := []
  Encoding : List Byte := []
  Content : List Byte := []
  Context : List Byte := []
  ContextValue : List Byte := []
  Subcontext : List Byte := []
  SubcontextValue : List Byte := []
  Tags : List (List Byte) := []
  Attachments : List B := []
deriving DecidableEq, Repr

/-- The type `transaction.UTXO` of the go-sdk, as far as a caller fills it. -/
structure UTXO where
  TxID : List Byte
  Vout : Nat
  Satoshis : Nat
deriving DecidableEq, Repr

/-- The type `script.Address` of the go-sdk. -/
structure Address where
  AddressString : List Byte
deriving DecidableEq, Repr

/-- The type `ec.PrivateKey` of the go-sdk: the secret scalar. -/
structure PrivateKey where
  D : Nat
deriving DecidableEq, Repr

/-- The type `transaction.TransactionOutput` of the go-sdk. -/
structure TransactionOutput where
  LockingScript : Script
  Satoshis : Nat
deriving DecidableEq, Repr

/-- The type `transaction.Transaction` of the go-sdk: version, lock time, and the outputs
(these functions add no input). -/
structure Transaction where
  Version : Nat
  LockTime : Nat
  Outputs : List TransactionOutput
deriving DecidableEq, Repr

/-- The function `transaction.NewTransaction` of the go-sdk: version 1, lock time 0, no
inputs, no outputs. -/
def NewTransaction : Transaction := { Version := 1, LockTime := 0, Outputs := [] }

/-- The method `(*Transaction).AddOutput` of the go-sdk. -/
def Transaction.AddOutput (tx : Transaction) (o : TransactionOutput) : Transaction :=
  { tx with Outputs := tx.Outputs ++ [o] }

/-- What the package takes from outside the sources at hand: the constant `bitcom.MapPrefix`
of the sibling package `template/bitcom`, and the compressed public key of a private key
(`privateKey.PubKey().Compressed()` of the go-sdk). -/
structure Collaborators where
  MapPrefix : List Byte
  PubKeyCompressed : PrivateKey → List Byte

/-- The function `CreatePost`; the returned error is always nil. -/
def CreatePost (c : Collaborators) (post : Post) (_utxos : List UTXO)
    (_changeAddress : Option Address) (privateKey : PrivateKey) : Transaction :=
  let tx := NewTransaction
  let s : Script := []
  let s := AppendOpcodes s [OpFALSE, OpRETURN]
  let s := AppendPushData s (ascii "B")
  let s := AppendPushData s post.Content
  let s := AppendPushData s post.MediaType
  let s := AppendPushData s post.Encoding
  let s := AppendPushData s (ascii "UTF8")
  let tx := tx.AddOutput { LockingScript := s, Satoshis := 0 }
  let mapScript : Script := []
  let mapScript := AppendOpcodes mapScript [OpFALSE, OpRETURN]
  let mapScript := AppendPushData mapScript c.MapPrefix
  let mapScript := AppendPushData mapScript (ascii "SET")
  let mapScript := AppendPushData mapScript (ascii "app")
  let mapScript := AppendPushData mapScript AppName
  let mapScript := AppendPushData mapScript (ascii "type")
  let mapScript := AppendPushData mapScript (ascii "post")
  let mapScript :=
    if post.Context ≠ [] then
      AppendPushData (AppendPushData mapScript (ascii "context_" ++ post.Context))
        post.ContextValue
    else mapScript
  let mapScript :=
    if post.Subcontext ≠ [] then
      AppendPushData (AppendPushData mapScript (ascii "subcontext_" ++ post.Subcontext))
        post.SubcontextValue
    else mapScript
  let mapScript := AppendPushData mapScript (ascii "|")
  let mapScript := AppendPushData mapScript AIPPrefix
  let mapScript := AppendPushData mapScript (ascii "BITCOIN_ECDSA")
  let pubKey := c.PubKeyCompressed privateKey
  let mapScript := AppendPushData mapScript pubKey
  let tx := tx.AddOutput { LockingScript := mapScript, Satoshis := 0 }
  if post.Tags.length > 0 then
    let tagsScript : Script := []
    let tagsScript := AppendOpcodes tagsScript [OpFALSE, OpRETURN]
    let tagsScript := AppendPushData tagsScript c.MapPrefix
    let tagsScript := AppendPushData tagsScript (ascii "SET")
    let tagsScript := AppendPushData tagsScript (ascii "app")
    let tagsScript := AppendPushData tagsScript AppName
    let tagsScript := AppendPushData tagsScript (ascii "type")
    let tagsScript := AppendPushData tagsScript (ascii "post")
    let tagsScript := AppendPushData tagsScript (ascii "tags")
    let tagsScript := post.Tags.foldl (fun t tag => AppendPushData t tag) tagsScript
    tx.AddOutput { LockingScript := tagsScript, Satoshis := 0 }
  else tx

/-- The function `CreateReply`; the returned error is always nil. -/
def CreateReply (c : Collaborators) (reply : Post) (replyTxID : List Byte)
    (_utxos : List UTXO) (_changeAddress : Option Address) (privateKey : PrivateKey) :
    Transaction :=
  let tx := NewTransaction
  let s : Script := []
  let s := AppendOpcodes s [OpFALSE, OpRETURN]
  let s := AppendPushData s (ascii "B")
  let s := AppendPushData s reply.Content
  let s := AppendPushData s reply.MediaType
  let s := AppendPushData s reply.Encoding
  let s := AppendPushData s (ascii "UTF8")
  let tx := tx.AddOutput { LockingScript := s, Satoshis := 0 }
  let mapScript : Script := []
  let mapScript := AppendOpcodes mapScript [OpFALSE, OpRETURN]
  let mapScript := AppendPushData mapScript c.MapPrefix
  let mapScript := AppendPushData mapScript (ascii "SET")
  let mapScript := AppendPushData mapScript (ascii "app")
  let mapScript := AppendPushData mapScript AppName
  let mapScript := AppendPushData mapScript (ascii "type")
  let mapScript := AppendPushData mapScript (ascii "post")
  let mapScript := AppendPushData mapScript (ascii "context_tx")
  let mapScript := AppendPushData mapScript replyTxID
  let mapScript := AppendPushData mapScript (ascii "|")
  let mapScript := AppendPushData mapScript AIPPrefix
  let mapScript := AppendPushData mapScript (ascii "BITCOIN_ECDSA")
  let pubKey := c.PubKeyCompressed privateKey
  let mapScript := AppendPushData mapScript pubKey
  tx.AddOutput { LockingScript := mapScript, Satoshis := 0 }

/-- The post that the reply `r` to the transaction `x` amounts to: the media type, encoding
and content of `r`, the context `"tx"` with value `x`, no subcontext, no tags. -/
def replyAsPost (r : Post) (x : List Byte) (subcontextValue : List Byte)
    (attachments : List B) : Post :=
  { MediaType := r.MediaType, Encoding := r.Encoding, Content := r.Content
    Context := ContextTx, ContextValue := x
    Subcontext := [], SubcontextValue := subcontextValue
    Tags := [], Attachments := attachments }

/-- Sample collaborators: the value of `bitcom.MapPrefix` that the comment in the source
gives, and a function from keys to 33 bytes in the place of the public-key computation. -/
def sampleCollaborators : Collaborators where
  MapPrefix := ascii "1PuQa7K62MiKCtssSLKy1kh56WWU7MtUR5"
  PubKeyCompressed := fun k => 0x02 :: List.replicate 32 (byte k.D)

end bsocial

/-! ## Package bsv21: definitions -/

namespace bsv21

open script inscription

/-- The bytes of a string literal of the source (all of them are ASCII). -/
def ascii (s : String) : List Byte := s.toList.map (fun c => byte c.toNat)

/-- The struct `Bsv21`; `Decimals` is a `uint8`, `Amt` a `uint64`, `Symbol` and `Icon` are
string pointers. -/
structure Bsv21 where
  Id : List Byte := []
  Op : List Byte := []
  Symbol : Option (List Byte) := none
  Decimals : Nat := 0
  Icon : Option (List Byte) := none
  Amt : Nat := 0
deriving DecidableEq, Repr

/-- What `bsv21.Decode` calls outside the repository: `json.Unmarshal` into a
`map[string]string` (the map as an association list, `none` for an error), `strings.ToLower`,
and `overlay.NewOutpointFromString` (`none` for an error). -/
structure Collaborators where
  Unmarshal : List Byte → Option (List (List Byte × List Byte))
  ToLower : List Byte → List Byte
  NewOutpointFromString : List Byte → Option overlay.Outpoint

/-- The standard library function `strconv.ParseUint(s, 10, bitSize)`: a non-empty string of
decimal digits whose value is below `2^bitSize`; `none` for an error. -/
def ParseUint (s : List Byte) (bitSize : Nat) : Option Nat :=
  if s = [] then none
  else if s.all (fun b => decide (0x30 ≤ b.val ∧ b.val ≤ 0x39)) then
    let v := s.foldl (fun acc b => 10 * acc + (b.val - 0x30)) 0
    if v < 2 ^ bitSize then some v else none
  else none

/-- Lines 41-45: the amount, `0` when the key `"amt"` is absent; `none` stands for
`return nil`. -/
def parseAmt (data : List (List Byte × List Byte)) : Option Nat :=
  match data.lookup (ascii "amt") with
  | some amt => ParseUint amt 64
  | none => some 0

/-- Lines 47-53: the decimals, `0` when the key `"dec"` is absent; `none` stands for
`return nil`. -/
def parseDec (data : List (List Byte × List Byte)) : Option Nat :=
  match data.lookup (ascii "dec") with
  | some dec =>
    match ParseUint dec 8 with
    | some val => if val > 18 then none else some val
    | none => none
  | none => some 0

/-- Lines 33-75: the record built from the payload map, `none` for `return nil`. -/
def fromPayload (j : Collaborators) (data : List (List Byte × List Byte)) : Option Bsv21 :=
  match data.lookup (ascii "op") with
  | none => none
  | some op =>
    match parseAmt data with
    | none => none
    | some amt =>
      match parseDec data with
      | none => none
      | some dec =>
        let bsv21 : Bsv21 := { Op := j.ToLower op, Amt := amt, Decimals := dec }
        if bsv21.Op = ascii "deploy+mint" then
          some { bsv21 with Symbol := data.lookup (ascii "sym"),
                            Icon := data.lookup (ascii "icon") }
        else if bsv21.Op = ascii "transfer" ∨ bsv21.Op = ascii "burn" then
          match data.lookup (ascii "id") with
          | none => none
          | some id =>
            match j.NewOutpointFromString id with
            | none => none
            | some _ => some { bsv21 with Id := id }
        else none

/-- The function `bsv21.Decode`; a panic of `inscription.Decode` goes through. -/
def Decode (d : inscription.Collaborators) (j : Collaborators) (scr : Script) :
    Run (Option Bsv21) :=
  match inscription.Decode d scr with
  | .panic => .panic
  | .outOfFuel => .outOfFuel
  | .done none => .done none
  | .done (some insc) =>
    if insc.File.Type_ ≠ ascii "application/bsv-20" then .done none
    else
      match j.Unmarshal insc.File.Content with
      | none => .done none
      | some data =>
        match data.lookup (ascii "p") with
        | none => .done none
        | some p => if p ≠ ascii "bsv21" then .done none else .done (fromPayload j data)

/-- The cases of the claim in which no record is returned, for the result `r` of
`inscription.Decode`: no envelope; another type; invalid JSON; a `"p"` that is missing or not
`"bsv21"`; a missing or other `"op"`; an unparsable `"amt"`; a `"dec"` that is unparsable or
above 18; for `transfer` and `burn` a missing or invalid `"id"`. -/
def Rejected (j : Collaborators) (r : Option Inscription) : Prop :=
  match r with
  | none => True
  | some insc =>
    insc.File.Type_ ≠ ascii "application/bsv-20"
      ∨ match j.Unmarshal insc.File.Content with
        | none => True
        | some data =>
          data.lookup (ascii "p") ≠ some (ascii "bsv21")
            ∨ (match data.lookup (ascii "op") with
                | none => True
                | some op =>
                  (j.ToLower op ≠ ascii "deploy+mint" ∧ j.ToLower op ≠ ascii "transfer"
                      ∧ j.ToLower op ≠ ascii "burn")
                    ∨ ((j.ToLower op = ascii "transfer" ∨ j.ToLower op = ascii "burn")
                      ∧ ∀ id, data.lookup (ascii "id") = some id →
                          j.NewOutpointFromString id = none))
            ∨ (∃ amt, data.lookup (ascii "amt") = some amt ∧ ParseUint amt 64 = none)
            ∨ (∃ dec, data.lookup (ascii "dec") = some dec
                ∧ ∀ val, ParseUint dec 8 = some val → 18 < val)

/-- The text of a JSON object whose members are the given string pairs, without white space
or escapes: `{"k1":"v1","k2":"v2"}`. -/
def renderObject (members : List (List Byte × List Byte)) : List Byte :=
  [0x7b] ++ List.intercalate [0x2c]
      (members.map (fun kv => [0x22] ++ kv.1 ++ [0x22, 0x3a, 0x22] ++ kv.2 ++ [0x22]))
    ++ [0x7d]

/-- A string in double quotes without a backslash at the head of `s`: the string and the
bytes after it. -/
def takeString : List Byte → Option (List Byte × List Byte)
  | [] => none
  | q :: rest =>
    if q.val = 0x22 then
      match rest.span (fun b => decide (b.val ≠ 0x22)) with
      | (str, c :: after) =>
        if c.val = 0x22 ∧ str.all (fun b => decide (b.val ≠ 0x5c)) = true then some (str, after)
        else none
      | _ => none
    else none

/-- The members `"k":"v"` of an object, separated by commas and closed by `}`. -/
def takeMembers : Nat → List Byte → Option (List (List Byte × List Byte))
  | 0, _ => none
  | fuel + 1, s =>
    match takeString s with
    | some (key, colon :: r) =>
      if colon.val = 0x3a then
        match takeString r with
        | some (value, sep :: r2) =>
          if sep.val = 0x2c then (takeMembers fuel r2).map (fun m => (key, value) :: m)
          else if sep.val = 0x7d ∧ r2 = [] then some [(key, value)]
          else none
        | _ => none
      else none
    | _ => none

/-- A sample `Unmarshal`: it reads the objects that `renderObject` writes and rejects every
other text (the real `json.Unmarshal` accepts more). -/
def sampleUnmarshal (s : List Byte) : Option (List (List Byte × List Byte)) :=
  match s with
  | [] => none
  | b :: r =>
    if b.val = 0x7b then
      if r = [0x7d] then some [] else takeMembers s.length r
    else none

/-- A sample `ToLower`: the letters `A` to `Z` become `a` to `z` (what `strings.ToLower` does
on ASCII text). -/
def sampleToLower (s : List Byte) : List Byte :=
  s.map (fun b => if 0x41 ≤ b.val ∧ b.val ≤ 0x5a then byte (b.val + 32) else b)

/-- A sample `NewOutpointFromString`: 64 hexadecimal digits, one separator byte, and a
decimal output index below 2^32. -/
def sampleNewOutpointFromString (s : List Byte) : Option overlay.Outpoint :=
  if 66 ≤ s.length ∧ (s.take 64).all (fun b => decide
      ((0x30 ≤ b.val ∧ b.val ≤ 0x39) ∨ (0x61 ≤ b.val ∧ b.val ≤ 0x66)
        ∨ (0x41 ≤ b.val ∧ b.val ≤ 0x46))) = true then
    (ParseUint (s.drop 65) 32).map (fun v => ⟨s.take 64, v⟩)
  else none

/-- Sample collaborators of `bsv21.Decode`. -/
def sampleCollaborators : Collaborators where
  Unmarshal := sampleUnmarshal
  ToLower := sampleToLower
  NewOutpointFromString := sampleNewOutpointFromString

/-- An outpoint string: 64 digits `a`, the separator `_`, the index `0`. -/
def sampleId : List Byte := List.replicate 64 0x61 ++ ascii "_0"

/-- The payload `{"p":"bsv21","op":"Transfer","id":"aa…a_0","amt":"5","dec":"8"}`. -/
def transferPayload : List Byte :=
  renderObject [(ascii "p", ascii "bsv21"), (ascii "op", ascii "Transfer"), (ascii "id", sampleId),
    (ascii "amt", ascii "5"), (ascii "dec", ascii "8")]

/-- The same payload with 19 decimals. -/
def badDecPayload : List Byte :=
  renderObject [(ascii "p", ascii "bsv21"), (ascii "op", ascii "Transfer"), (ascii "id", sampleId),
    (ascii "amt", ascii "5"), (ascii "dec", ascii "19")]

/-- An unclosed envelope of type `application/bsv-20` with the given content. -/
def tokenScript (content : List Byte) : Script :=
  MARK ++ [0x51] ++ pushData (ascii "application/bsv-20") ++ [0x00] ++ pushData content

end bsv21

namespace inscription

open script

/-! ## The instruction reader -/

theorem subslice_append (a d r : List Byte) :
    subslice (a ++ (d ++ r)) a.length d.length = d := by
  simp [subslice]

theorem getElem?_append_cons (a r : List Byte) (o : Byte) :
    (a ++ o :: r)[a.length]? = some o := by
  rw [List.getElem?_append_right (le_refl _)]
  simp

theorem ReadOp_end (s : Script) : ReadOp s s.length = (none, s.length) := by
  simp [ReadOp]

theorem ReadOp_op (a r : List Byte) (o : Byte) (h : o.val = 0 ∨ 0x4e < o.val) :
    ReadOp (a ++ o :: r) a.length = (some ⟨o, []⟩, a.length + 1) := by
  have h1 : o ≠ OpPUSHDATA1 := by
    intro e; rw [e] at h; revert h; decide
  have h2 : o ≠ OpPUSHDATA2 := by
    intro e; rw [e] at h; revert h; decide
  have h4 : o ≠ OpPUSHDATA4 := by
    intro e; rw [e] at h; revert h; decide
  have h5 : ¬ (1 ≤ o.val ∧ o.val < OpPUSHDATA1.val) := by
    have : OpPUSHDATA1.val = 0x4c := rfl
    omega
  rw [ReadOp, getElem?_append_cons]
  simp only [if_neg h1, if_neg h2, if_neg h4, if_neg h5]

theorem getD_append_mid (a x r : List Byte) (i : Nat) (h : i < x.length) :
    (a ++ (x ++ r)).getD (a.length + i) 0 = x.getD i 0 := by
  simp only [List.getD_eq_getElem?_getD]
  rw [List.getElem?_append_right (Nat.le_add_right _ _), Nat.add_sub_cancel_left,
    List.getElem?_append_left h]

theorem leUint_append_mid (a x r : List Byte) (n : Nat) :
    ∀ i, i + n ≤ x.length → leUint (a ++ (x ++ r)) (a.length + i) n = leUint x i n := by
  induction n with
  | zero => intro i _; rfl
  | succ n ih =>
    intro i h
    simp only [leUint]
    rw [getD_append_mid a x r i (by omega), Nat.add_assoc, ih (i + 1) (by omega)]

theorem subslice_append_mid (a x d r : List Byte) (n l : Nat) (hn : n = a.length + x.length)
    (hl : l = d.length) : subslice (a ++ (x ++ (d ++ r))) n l = d := by
  subst hn hl
  have := subslice_append (a ++ x) d r
  simpa using this

theorem length_append_mid (a x d r : List Byte) :
    (a ++ (x ++ (d ++ r))).length = a.length + x.length + d.length + r.length := by
  simp [Nat.add_assoc]

theorem ReadOp_push (a d r : List Byte) (h : d.length < 2 ^ 32) :
    ReadOp (a ++ (pushData d ++ r)) a.length
      = (some ⟨pushOp d, d⟩, a.length + (pushData d).length) := by
  by_cases h0 : d.length ≤ 75
  · have hp : pushData d = [byte d.length] ++ d := by simp [pushData, PushDataPrefix, h0]
    have ho : pushOp d = byte d.length := by simp [pushOp, h0]
    have hv : (byte d.length).val = d.length := by simp [byte]; omega
    rw [hp, ho]
    by_cases hz : d.length = 0
    · have hd : d = [] := List.length_eq_zero.mp hz
      subst hd
      exact ReadOp_op a r (byte 0) (Or.inl rfl)
    · have hs : a ++ ([byte d.length] ++ d ++ r) = a ++ byte d.length :: (d ++ r) := by simp
      have hs2 : a ++ byte d.length :: (d ++ r) = a ++ ([byte d.length] ++ (d ++ r)) := by simp
      rw [hs, ReadOp, getElem?_append_cons]
      have h1 : byte d.length ≠ OpPUSHDATA1 := by
        intro e; have := congrArg Fin.val e; rw [hv] at this; simp [OpPUSHDATA1] at this; omega
      have h2 : byte d.length ≠ OpPUSHDATA2 := by
        intro e; have := congrArg Fin.val e; rw [hv] at this; simp [OpPUSHDATA2] at this; omega
      have h4 : byte d.length ≠ OpPUSHDATA4 := by
        intro e; have := congrArg Fin.val e; rw [hv] at this; simp [OpPUSHDATA4] at this; omega
      have h5 : 1 ≤ (byte d.length).val ∧ (byte d.length).val < OpPUSHDATA1.val := by
        rw [hv]; simp [OpPUSHDATA1]; omega
      have h6 : ¬ (a ++ byte d.length :: (d ++ r)).length < a.length + (1 + (byte d.length).val) := by
        rw [hv]; simp; omega
      simp only [if_neg h1, if_neg h2, if_neg h4, if_pos h5, if_neg h6]
      rw [hv, hs2, subslice_append_mid a [byte d.length] d r (a.length + 1) d.length rfl rfl]
      simp; omega
  · by_cases h1 : d.length ≤ 0xFF
    · have hp : pushData d = [OpPUSHDATA1, byte d.length] ++ d := by
        simp [pushData, PushDataPrefix, h0, h1]
      have ho : pushOp d = OpPUSHDATA1 := by simp [pushOp, h0, h1]
      have hs : a ++ ([OpPUSHDATA1, byte d.length] ++ d ++ r)
          = a ++ OpPUSHDATA1 :: ([byte d.length] ++ (d ++ r)) := by simp
      have hs2 : a ++ OpPUSHDATA1 :: ([byte d.length] ++ (d ++ r))
          = a ++ ([OpPUSHDATA1, byte d.length] ++ (d ++ r)) := by simp
      rw [hp, ho, hs, ReadOp, getElem?_append_cons, hs2]
      have hl : leUint (a ++ ([OpPUSHDATA1, byte d.length] ++ (d ++ r))) (a.length + 1) 1
          = d.length := by
        rw [leUint_append_mid a _ _ 1 1 (by simp)]
        simp [leUint, byte]; omega
      have hlen := length_append_mid a [OpPUSHDATA1, byte d.length] d r
      simp only [List.length_cons, List.length_nil] at hlen
      simp only [if_true, hl, hlen]
      rw [if_neg (by omega), if_neg (by omega),
        subslice_append_mid a [OpPUSHDATA1, byte d.length] d r (a.length + 2) d.length rfl rfl]
      simp; omega
    · by_cases h2 : d.length ≤ 0xFFFF
      · have hp : pushData d = [OpPUSHDATA2, byte d.length, byte (d.length / 256)] ++ d := by
          simp [pushData, PushDataPrefix, h0, h1, h2]
        have ho : pushOp d = OpPUSHDATA2 := by simp [pushOp, h0, h1, h2]
        have hs : a ++ ([OpPUSHDATA2, byte d.length, byte (d.length / 256)] ++ d ++ r)
            = a ++ OpPUSHDATA2 :: ([byte d.length, byte (d.length / 256)] ++ (d ++ r)) := by simp
        have hs2 : a ++ OpPUSHDATA2 :: ([byte d.length, byte (d.length / 256)] ++ (d ++ r))
            = a ++ ([OpPUSHDATA2, byte d.length, byte (d.length / 256)] ++ (d ++ r)) := by simp
        rw [hp, ho, hs, ReadOp, getElem?_append_cons, hs2]
        have hl : leUint (a ++ ([OpPUSHDATA2, byte d.length, byte (d.length / 256)] ++ (d ++ r)))
            (a.length + 1) 2 = d.length := by
          rw [leUint_append_mid a _ _ 2 1 (by simp)]
          simp [leUint, byte]; omega
        have hlen := length_append_mid a [OpPUSHDATA2, byte d.length, byte (d.length / 256)] d r
        simp only [List.length_cons, List.length_nil] at hlen
        simp only [if_true, hl, hlen, if_neg (by decide : OpPUSHDATA2 ≠ OpPUSHDATA1)]
        rw [if_neg (by omega), if_neg (by omega),
          subslice_append_mid a [OpPUSHDATA2, byte d.length, byte (d.length / 256)] d r
            (a.length + 3) d.length rfl rfl]
        simp; omega
      · have hp : pushData d = [OpPUSHDATA4, byte d.length, byte (d.length / 256),
            byte (d.length / 65536), byte (d.length / 16777216)] ++ d := by
          have : d.length ≤ 4294967295 := by omega
          simp [pushData, PushDataPrefix, h0, h1, h2, this]
        have ho : pushOp d = OpPUSHDATA4 := by simp [pushOp, h0, h1, h2]
        have hs : a ++ ([OpPUSHDATA4, byte d.length, byte (d.length / 256),
              byte (d.length / 65536), byte (d.length / 16777216)] ++ d ++ r)
            = a ++ OpPUSHDATA4 :: ([byte d.length, byte (d.length / 256),
              byte (d.length / 65536), byte (d.length / 16777216)] ++ (d ++ r)) := by simp
        have hs2 : a ++ OpPUSHDATA4 :: ([byte d.length, byte (d.length / 256),
              byte (d.length / 65536), byte (d.length / 16777216)] ++ (d ++ r))
            = a ++ ([OpPUSHDATA4, byte d.length, byte (d.length / 256),
              byte (d.length / 65536), byte (d.length / 16777216)] ++ (d ++ r)) := by simp
        rw [hp, ho, hs, ReadOp, getElem?_append_cons, hs2]
        have hl : leUint (a ++ ([OpPUSHDATA4, byte d.length, byte (d.length / 256),
              byte (d.length / 65536), byte (d.length / 16777216)] ++ (d ++ r)))
            (a.length + 1) 4 = d.length := by
          rw [leUint_append_mid a _ _ 4 1 (by simp)]
          simp [leUint, byte]; omega
        have hlen := length_append_mid a [OpPUSHDATA4, byte d.length, byte (d.length / 256),
              byte (d.length / 65536), byte (d.length / 16777216)] d r
        simp only [List.length_cons, List.length_nil] at hlen
        simp only [if_true, hl, hlen, if_neg (by decide : OpPUSHDATA4 ≠ OpPUSHDATA1),
          if_neg (by decide : OpPUSHDATA4 ≠ OpPUSHDATA2)]
        rw [if_neg (by omega), if_neg (by omega),
          subslice_append_mid a [OpPUSHDATA4, byte d.length, byte (d.length / 256),
              byte (d.length / 65536), byte (d.length / 16777216)] d r
            (a.length + 5) d.length rfl rfl]
        simp; omega

theorem ReadOp_some_bounds {s : Script} {pos p1 : Nat} {op : ScriptChunk}
    (h : ReadOp s pos = (some op, p1)) : pos < p1 ∧ p1 ≤ s.length := by
  unfold ReadOp at h
  split at h
  · simp at h
  · rename_i c hc
    have hlt : pos < s.length := by
      rcases Nat.lt_or_ge pos s.length with h1 | h1
      · exact h1
      · rw [List.getElem?_eq_none h1] at hc; cases hc
    split_ifs at h <;> simp only [Prod.mk.injEq, Option.some.injEq] at h <;>
      first
        | (exfalso; exact Option.noConfusion h.1)
        | (obtain ⟨_, h2⟩ := h; omega)

theorem ReadOp_some_op {s : Script} {pos p1 : Nat} {op : ScriptChunk}
    (h : ReadOp s pos = (some op, p1)) : s[pos]? = some op.Op := by
  unfold ReadOp at h
  split at h
  · simp at h
  · rename_i c hc
    split_ifs at h with c1 _ _ c2 _ _ c4 <;>
      simp only [Prod.mk.injEq, Option.some.injEq] at h
    all_goals first
      | (exfalso; exact Option.noConfusion h.1)
      | (obtain ⟨h1, _⟩ := h; subst h1; first | exact hc | (rw [hc]; congr 1))

theorem ReadOp_data3 {s : Script} {pos p1 : Nat} {op : ScriptChunk}
    (h : ReadOp s pos = (some op, p1)) (h3 : op.Op = OpDATA3) :
    op.Data = subslice s (pos + 1) 3 ∧ p1 = pos + 4 ∧ pos + 4 ≤ s.length := by
  have hc := ReadOp_some_op h
  rw [h3] at hc
  rw [ReadOp, hc] at h
  have hv : OpDATA3.val = 3 := rfl
  simp only [if_neg (by decide : OpDATA3 ≠ OpPUSHDATA1), if_neg (by decide : OpDATA3 ≠ OpPUSHDATA2),
    if_neg (by decide : OpDATA3 ≠ OpPUSHDATA4),
    if_pos (by decide : 1 ≤ OpDATA3.val ∧ OpDATA3.val < OpPUSHDATA1.val)] at h
  rw [hv] at h
  split_ifs at h with c1
  · exact Option.noConfusion (congrArg Prod.fst h)
  · simp only [Prod.mk.injEq, Option.some.injEq] at h
    obtain ⟨h1, h2⟩ := h
    refine ⟨by rw [← h1], by omega, by omega⟩

/-! ## The field loop -/

theorem SameContent.refl (i : Inscription) : SameContent i i := ⟨rfl, rfl, rfl, rfl, rfl⟩

theorem SameContent.trans {i j k : Inscription} (h1 : SameContent i j) (h2 : SameContent j k) :
    SameContent i k := by
  obtain ⟨a1, a2, a3, a4, a5⟩ := h1
  obtain ⟨b1, b2, b3, b4, b5⟩ := h2
  exact ⟨b1.trans a1, b2.trans a2, b3.trans a3, b4.trans a4, b5.trans a5⟩

theorem dispatch_cases (d : Collaborators) (i : Inscription) (field : Int) (op2 : ScriptChunk)
    (p : Nat) :
    (field = 0 ∧ ∃ i1, dispatch d i field op2 p = .brk i1 p ∧ IsContent d op2.Data i i1)
      ∨ (field ≠ 0 ∧ ∃ i1, dispatch d i field op2 p = .next i1 p ∧ SameContent i i1) := by
  unfold dispatch
  by_cases h0 : field = 0
  · left
    refine ⟨h0, _, if_pos h0, rfl, rfl, rfl, rfl, rfl⟩
  · right
    refine ⟨h0, ?_⟩
    rw [if_neg h0]
    split_ifs with h1 h2 h3 h4
    · exact ⟨_, rfl, rfl, rfl, rfl, rfl, rfl⟩
    · exact ⟨_, rfl, SameContent.refl i⟩
    · have : toArray36 op2.Data = .done (op2.Data.take 36) := by
        unfold toArray36; rw [if_pos (by omega)]
      rw [this]
      exact ⟨_, rfl, rfl, rfl, rfl, rfl, rfl⟩
    · exact ⟨_, rfl, SameContent.refl i⟩
    · exact ⟨_, rfl, SameContent.refl i⟩

/-- Inversion of one iteration of the field loop. -/
theorem ordStep_cases (d : Collaborators) (s : Script) (pos : Nat) (i : Inscription) :
    ordStep d s pos i = .ret i
      ∨ ordStep d s pos i = .panic
      ∨ ∃ op p1 op2 p2, ReadOp s pos = (some op, p1) ∧ ReadOp s p1 = (some op2, p2)
          ∧ op.Op.val ≤ Op16.val ∧ op2.Op.val ≤ Op16.val
          ∧ ((∃ i1, ordStep d s pos i = .brk i1 p2 ∧ IsContent d op2.Data i i1)
            ∨ (∃ i1, ordStep d s pos i = .next i1 p2 ∧ SameContent i i1)) := by
  rcases h1 : ReadOp s pos with ⟨_ | op, p1⟩
  · left; simp only [ordStep, h1]
  by_cases c1 : op.Op.val > Op16.val
  · left; simp only [ordStep, h1, if_pos c1]
  rcases h2 : ReadOp s p1 with ⟨_ | op2, p2⟩
  · left; simp only [ordStep, h1, h2, if_neg c1]
  by_cases c2 : op2.Op.val > Op16.val
  · left; simp only [ordStep, h1, h2, if_neg c1, if_pos c2]
  have key : ordStep d s pos i =
      if op.Op.val > OpPUSHDATA4.val ∧ op.Op.val ≤ Op16.val then
        dispatch d i ((op.Op.val : Int) - 80) op2 p2
      else if op.Data.length = 1 then
        match index op.Data 0 with
        | .done b => dispatch d i (b.val : Int) op2 p2
        | _ => .panic
      else if op.Data.length > 1 then
        match d.NewAddressFromString op.Data with
        | some add =>
          .next { i with Bitcom := some (mapSet (i.Bitcom.getD []) add op2.Data) } p2
        | none => .next i p2
      else dispatch d i 0 op2 p2 := by
    simp only [ordStep, h1, h2, if_neg c1, if_neg c2]
  rw [key]
  have hd : ∀ field : Int,
      (∃ i1, dispatch d i field op2 p2 = .brk i1 p2 ∧ IsContent d op2.Data i i1)
        ∨ (∃ i1, dispatch d i field op2 p2 = .next i1 p2 ∧ SameContent i i1) := by
    intro field
    rcases dispatch_cases d i field op2 p2 with ⟨_, h⟩ | ⟨_, h⟩
    · exact Or.inl h
    · exact Or.inr h
  by_cases c3 : op.Op.val > OpPUSHDATA4.val ∧ op.Op.val ≤ Op16.val
  · rw [if_pos c3]
    exact Or.inr (Or.inr ⟨op, p1, op2, p2, rfl, h2, by omega, by omega, hd _⟩)
  rw [if_neg c3]
  by_cases c4 : op.Data.length = 1
  · rw [if_pos c4]
    rcases hi : index op.Data 0 with _ | _ | b
    · exact Or.inr (Or.inl rfl)
    · exact Or.inr (Or.inl rfl)
    · exact Or.inr (Or.inr ⟨op, p1, op2, p2, rfl, h2, by omega, by omega, hd _⟩)
  rw [if_neg c4]
  by_cases c5 : op.Data.length > 1
  · rw [if_pos c5]
    refine Or.inr (Or.inr ⟨op, p1, op2, p2, rfl, h2, by omega, by omega, Or.inr ?_⟩)
    rcases d.NewAddressFromString op.Data with _ | add
    · exact ⟨_, rfl, SameContent.refl i⟩
    · exact ⟨_, rfl, rfl, rfl, rfl, rfl, rfl⟩
  rw [if_neg c5]
  exact Or.inr (Or.inr ⟨op, p1, op2, p2, rfl, h2, by omega, by omega, hd _⟩)

theorem ordStep_ret {d : Collaborators} {s : Script} {pos : Nat} {i i1 : Inscription}
    (h : ordStep d s pos i = .ret i1) : i1 = i := by
  rcases ordStep_cases d s pos i with h1 | h1 | ⟨_, _, _, _, _, _, _, _, ⟨_, h1, _⟩ | ⟨_, h1, _⟩⟩
  all_goals rw [h1] at h
  · injection h with h; exact h.symm
  all_goals cases h

theorem ordStep_next {d : Collaborators} {s : Script} {pos p : Nat} {i i1 : Inscription}
    (h : ordStep d s pos i = .next i1 p) : SameContent i i1 ∧ pos + 2 ≤ p ∧ p ≤ s.length := by
  rcases ordStep_cases d s pos i with h1 | h1 |
    ⟨_, _, _, _, r1, r2, _, _, ⟨_, h1, _⟩ | ⟨_, h1, hs⟩⟩
  all_goals rw [h1] at h
  · cases h
  · cases h
  · cases h
  · injection h with ha hb
    subst ha hb
    have b1 := ReadOp_some_bounds r1
    have b2 := ReadOp_some_bounds r2
    exact ⟨hs, by omega, b2.2⟩

theorem ordStep_brk {d : Collaborators} {s : Script} {pos p : Nat} {i i1 : Inscription}
    (h : ordStep d s pos i = .brk i1 p) :
    ∃ pv opv, pos < pv ∧ ReadOp s pv = (some opv, p) ∧ IsContent d opv.Data i i1 := by
  rcases ordStep_cases d s pos i with h1 | h1 |
    ⟨_, p1, op2, _, r1, r2, _, _, ⟨_, h1, hs⟩ | ⟨_, h1, _⟩⟩
  all_goals rw [h1] at h
  · cases h
  · cases h
  · injection h with ha hb
    subst ha hb
    exact ⟨p1, op2, (ReadOp_some_bounds r1).1, r2, hs⟩
  · cases h

/-- The envelopes that the field loop can hand back keep the prefix and the suffix of the
envelope the loop was started with. -/
theorem ordLoop_frame (d : Collaborators) (s : Script) :
    ∀ (fuel pos : Nat) (i : Inscription),
      (∀ i1, ordLoop d s fuel pos i = .ret i1 → SameContent i i1)
        ∧ (∀ i1 p, ordLoop d s fuel pos i = .brk i1 p →
            i1.ScriptPrefix = i.ScriptPrefix ∧ i1.ScriptSuffix = i.ScriptSuffix) := by
  intro fuel
  induction fuel with
  | zero =>
    intro pos i
    constructor
    · intro i1 h; cases h
    · intro i1 p h; cases h
  | succ n ih =>
    intro pos i
    rcases hs : ordStep d s pos i with _ | j | ⟨j, q⟩ | ⟨j, q⟩
    · constructor
      · intro i1 h; simp only [ordLoop, hs] at h; cases h
      · intro i1 p h; simp only [ordLoop, hs] at h; cases h
    · constructor
      · intro i1 h
        simp only [ordLoop, hs] at h
        injection h with h
        subst h
        rw [ordStep_ret hs]
        exact SameContent.refl i
      · intro i1 p h; simp only [ordLoop, hs] at h; cases h
    · constructor
      · intro i1 h; simp only [ordLoop, hs] at h; cases h
      · intro i1 p h
        simp only [ordLoop, hs] at h
        injection h with ha hb
        subst ha hb
        obtain ⟨_, _, _, _, h1, h2, _⟩ := ordStep_brk hs
        exact ⟨h1, h2⟩
    · have hn := (ordStep_next hs).1
      constructor
      · intro i1 h
        simp only [ordLoop, hs] at h
        exact hn.trans ((ih q j).1 i1 h)
      · intro i1 p h
        simp only [ordLoop, hs] at h
        have := (ih q j).2 i1 p h
        exact ⟨this.1.trans hn.1, this.2.trans hn.2.1⟩

/-! ## The marker -/

theorem index_done {s : List Byte} {i : Int} {b : Byte} (h : index s i = .done b) :
    0 ≤ i ∧ s[i.toNat]? = some b := by
  unfold index at h
  split_ifs at h with h0
  split at h
  · rename_i c hc
    injection h with h
    subst h
    exact ⟨h0, hc⟩
  · cases h

theorem isMarker_true {s : Script} {startI pos : Nat} {op : ScriptChunk}
    (h : isMarker s startI pos op = .done true) :
    2 ≤ startI ∧ s[startI - 2]? = some 0 ∧ s[startI - 1]? = some OpIF
      ∧ op.Op = OpDATA3 ∧ op.Data = ord := by
  unfold isMarker at h
  by_cases h0 : pos > 2 ∧ op.Op = OpDATA3 ∧ op.Data = ord
  swap
  · rw [if_neg h0] at h; simp at h
  rw [if_pos h0] at h
  rcases h1 : index s ((startI : Int) - 2) with _ | _ | b0
  · rw [h1] at h; cases h
  · rw [h1] at h; cases h
  rw [h1] at h
  simp only at h
  by_cases hb0 : b0.val = 0
  swap
  · rw [if_neg hb0] at h; simp at h
  rw [if_pos hb0] at h
  rcases h2 : index s ((startI : Int) - 1) with _ | _ | b1
  · rw [h2] at h; cases h
  · rw [h2] at h; cases h
  rw [h2] at h
  simp only [Run.done.injEq, decide_eq_true_eq] at h
  obtain ⟨g1, g2⟩ := index_done h1
  obtain ⟨_, g3⟩ := index_done h2
  have e1 : ((startI : Int) - 2).toNat = startI - 2 := by omega
  have e2 : ((startI : Int) - 1).toNat = startI - 1 := by omega
  rw [e1] at g2
  rw [e2] at g3
  have hb : b0 = 0 := Fin.ext hb0
  subst hb h
  exact ⟨by omega, g2, g3, h0.2.1, h0.2.2⟩

theorem drop_of_getElem? {s : List Byte} {k : Nat} {b : Byte} (h : s[k]? = some b) :
    s.drop k = b :: s.drop (k + 1) := by
  obtain ⟨hlt, hget⟩ := List.getElem?_eq_some.mp h
  rw [List.drop_eq_getElem_cons hlt, hget]

/-- A script whose bytes at `k, k+1, k+2` are `00 63 03` and whose next three bytes are
`"ord"` splits around the open marker. -/
theorem marker_split {s : Script} {k : Nat} (h0 : s[k]? = some 0) (h1 : s[k + 1]? = some OpIF)
    (h2 : s[k + 2]? = some OpDATA3) (h3 : subslice s (k + 3) 3 = ord) :
    s = s.take k ++ MARK ++ s.drop (k + 6) := by
  have e : s.drop k = MARK ++ s.drop (k + 6) := by
    rw [drop_of_getElem? h0, drop_of_getElem? h1, drop_of_getElem? h2]
    have : s.drop (k + 3) = (s.drop (k + 3)).take 3 ++ (s.drop (k + 3)).drop 3 :=
      (List.take_append_drop 3 _).symm
    unfold subslice at h3
    rw [h3, List.drop_drop] at this
    rw [this]
    rfl
  calc s = s.take k ++ s.drop k := (List.take_append_drop k s).symm
    _ = s.take k ++ (MARK ++ s.drop (k + 6)) := by rw [e]
    _ = s.take k ++ MARK ++ s.drop (k + 6) := by rw [List.append_assoc]

/-- The instruction at `startI` satisfies the marker condition: the script splits there. -/
theorem marker_at {s : Script} {startI pos1 : Nat} {op : ScriptChunk}
    (hr : ReadOp s startI = (some op, pos1)) (hm : isMarker s startI pos1 op = .done true) :
    2 ≤ startI ∧ pos1 = startI + 4
      ∧ s = s.take (startI - 2) ++ MARK ++ s.drop (startI + 4) := by
  obtain ⟨g0, g1, g2, g3, g4⟩ := isMarker_true hm
  obtain ⟨d1, d2, _⟩ := ReadOp_data3 hr g3
  have g5 := ReadOp_some_op hr
  rw [g3] at g5
  rw [g4] at d1
  obtain ⟨k, rfl⟩ : ∃ k, startI = k + 2 := ⟨startI - 2, by omega⟩
  have e1 : k + 2 - 2 = k := by omega
  have e2 : k + 2 - 1 = k + 1 := by omega
  rw [e1] at g1
  rw [e2] at g2
  refine ⟨g0, d2, ?_⟩
  rw [e1]
  exact marker_split g1 g2 g5 d1.symm

theorem sliceTo_done {s pre : List Byte} {hi : Int} (h : sliceTo s hi = .done pre) :
    pre = s.take hi.toNat := by
  unfold sliceTo at h
  split_ifs at h
  injection h with h
  exact h.symm

theorem closing_some {s : Script} {pos p : Nat} {i e : Inscription}
    (h : closing s pos i = (.done (some e), p)) :
    e = { i with ScriptSuffix := s.drop p } := by
  unfold closing at h
  rcases hr : ReadOp s pos with ⟨_ | op, p1⟩
  · rw [hr] at h
    simp only [sliceFrom] at h
    split_ifs at h <;> simp only [Prod.mk.injEq, Run.done.injEq, Option.some.injEq] at h
    · obtain ⟨h1, h2⟩ := h
      subst h1 h2
      rfl
    · exact absurd h.1 (by simp)
  · rw [hr] at h
    simp only [sliceFrom] at h
    split_ifs at h <;> simp only [Prod.mk.injEq, Run.done.injEq, Option.some.injEq] at h
    · obtain ⟨h1, h2⟩ := h
      subst h1 h2
      rfl
    · exact absurd h.1 (by simp)
    · exact absurd h.1 (by simp)

/-- Whatever envelope comes out of lines 33-81 has the bytes before `startI - 2` as prefix. -/
theorem envelopeAt_prefix {d : Collaborators} {s : Script} {startI pos p : Nat}
    {e : Inscription} (h : envelopeAt d s startI pos = (.done (some e), p)) :
    e.ScriptPrefix = s.take ((startI : Int) - 2).toNat := by
  unfold envelopeAt at h
  rcases hs : sliceTo s ((startI : Int) - 2) with _ | _ | pre
  · rw [hs] at h; cases h
  · rw [hs] at h; cases h
  rw [hs] at h
  simp only at h
  have hpre := sliceTo_done hs
  rcases hl : ordLoop d s (s.length + 1) pos { ScriptPrefix := pre } with _ | _ | i1 | ⟨i1, p2⟩
  · rw [hl] at h; cases h
  · rw [hl] at h; cases h
  · rw [hl] at h
    simp only [Prod.mk.injEq, Run.done.injEq, Option.some.injEq] at h
    obtain ⟨h1, _⟩ := h
    subst h1
    rw [((ordLoop_frame d s _ _ _).1 _ hl).1, hpre]
  · rw [hl] at h
    simp only at h
    rw [closing_some h]
    simp only
    rw [((ordLoop_frame d s _ _ _).2 _ _ hl).1, hpre]

/-- One iteration of the outer loop, by cases on what the instruction at `pos` is. -/
theorem scanLoop_succ (d : Collaborators) (s : Script) (fuel pos : Nat) :
    scanLoop d s (fuel + 1) pos =
      if pos < s.length then
        match ReadOp s pos with
        | (none, _) => .done none
        | (some op, pos1) =>
          match isMarker s pos pos1 op with
          | .panic => .panic
          | .outOfFuel => .outOfFuel
          | .done false => scanLoop d s fuel pos1
          | .done true =>
            match envelopeAt d s pos pos1 with
            | (.done none, pos3) => scanLoop d s fuel pos3
            | (r, _) => r
      else .done none := rfl

theorem scanLoop_marker (d : Collaborators) (s : Script) :
    ∀ (fuel pos : Nat) (e : Inscription), scanLoop d s fuel pos = .done (some e) →
      ∃ startI pos1 op p, ReadOp s startI = (some op, pos1)
        ∧ isMarker s startI pos1 op = .done true
        ∧ envelopeAt d s startI pos1 = (.done (some e), p) := by
  intro fuel
  induction fuel with
  | zero => intro pos e h; cases h
  | succ n ih =>
    intro pos e h
    rw [scanLoop_succ] at h
    by_cases hlt : pos < s.length
    swap
    · rw [if_neg hlt] at h; cases h
    rw [if_pos hlt] at h
    rcases hr : ReadOp s pos with ⟨_ | op, pos1⟩
    · rw [hr] at h; cases h
    rw [hr] at h
    simp only at h
    rcases hm : isMarker s pos pos1 op with _ | _ | b
    · rw [hm] at h; cases h
    · rw [hm] at h; cases h
    rw [hm] at h
    cases b with
    | false => exact ih pos1 e h
    | true =>
      simp only at h
      rcases he : envelopeAt d s pos pos1 with ⟨r, p3⟩
      rw [he] at h
      rcases r with _ | _ | o
      · cases h
      · cases h
      · cases o with
        | none => exact ih p3 e h
        | some e1 =>
          simp only [Run.done.injEq, Option.some.injEq] at h
          subst h
          exact ⟨pos, pos1, op, p3, hr, hm, he⟩

theorem ordStep_truncated (d : Collaborators) (s : Script) (pos : Nat) (i : Inscription)
    (h : truncatedAt s pos = true) : ordStep d s pos i = .ret i := by
  unfold truncatedAt at h
  rcases h1 : ReadOp s pos with ⟨_ | op, p1⟩
  · simp only [ordStep, h1]
  rw [h1] at h
  simp only [Bool.or_eq_true, decide_eq_true_eq] at h
  by_cases c1 : op.Op.val > Op16.val
  · simp only [ordStep, h1, if_pos c1]
  rcases h with h | h
  · exact absurd h c1
  rcases h2 : ReadOp s p1 with ⟨_ | op2, p2⟩
  · simp only [ordStep, h1, h2, if_neg c1]
  rw [h2] at h
  simp only [decide_eq_true_eq] at h
  simp only [ordStep, h1, h2, if_neg c1, if_pos h]

theorem runPairs_bounds (d : Collaborators) (s : Script) :
    ∀ (n pos : Nat) (i : Inscription) (p : Nat) (e : Inscription),
      runPairs d s n pos i = some (p, e) → pos ≤ s.length →
        pos + 2 * n ≤ p ∧ p ≤ s.length ∧ SameContent i e := by
  intro n
  induction n with
  | zero =>
    intro pos i p e h hl
    simp only [runPairs, Option.some.injEq, Prod.mk.injEq] at h
    obtain ⟨h1, h2⟩ := h
    subst h1 h2
    exact ⟨by omega, hl, SameContent.refl _⟩
  | succ n ih =>
    intro pos i p e h hl
    rcases hs : ordStep d s pos i with _ | j | ⟨j, q⟩ | ⟨j, q⟩
    all_goals simp only [runPairs, hs] at h
    all_goals first | (exact absurd h (by simp)) | skip
    obtain ⟨g1, g2, g3⟩ := ordStep_next hs
    obtain ⟨k1, k2, k3⟩ := ih q j p e h g3
    exact ⟨by omega, k2, g1.trans k3⟩

/-- The field loop follows the iterations counted by `runPairs` and ends the way the next
iteration ends. -/
theorem ordLoop_runPairs (d : Collaborators) (s : Script) :
    ∀ (n fuel pos : Nat) (i : Inscription) (p : Nat) (j : Inscription),
      runPairs d s n pos i = some (p, j) → n < fuel →
        ordLoop d s fuel pos i = ordLoop d s (fuel - n) p j := by
  intro n
  induction n with
  | zero =>
    intro fuel pos i p j h _
    simp only [runPairs, Option.some.injEq, Prod.mk.injEq] at h
    obtain ⟨h1, h2⟩ := h
    subst h1 h2
    rfl
  | succ n ih =>
    intro fuel pos i p j h hf
    obtain ⟨f, rfl⟩ : ∃ f, fuel = f + 1 := ⟨fuel - 1, by omega⟩
    rcases hs : ordStep d s pos i with _ | k | ⟨k, q⟩ | ⟨k, q⟩
    all_goals simp only [runPairs, hs] at h
    all_goals first | (exact absurd h (by simp)) | skip
    simp only [ordLoop, hs]
    rw [ih f q k p j h (by omega)]
    congr 1
    omega

theorem ordLoop_step_ret {d : Collaborators} {s : Script} {pos : Nat} {i e : Inscription}
    (h : ordStep d s pos i = .ret e) (fuel : Nat) (hf : 0 < fuel) :
    ordLoop d s fuel pos i = .ret e := by
  obtain ⟨f, rfl⟩ : ∃ f, fuel = f + 1 := ⟨fuel - 1, by omega⟩
  simp only [ordLoop, h]

theorem ordLoop_step_brk {d : Collaborators} {s : Script} {pos p : Nat} {i e : Inscription}
    (h : ordStep d s pos i = .brk e p) (fuel : Nat) (hf : 0 < fuel) :
    ordLoop d s fuel pos i = .brk e p := by
  obtain ⟨f, rfl⟩ : ∃ f, fuel = f + 1 := ⟨fuel - 1, by omega⟩
  simp only [ordLoop, h]

/-! ## The outer loop up to the first marker -/

theorem firstMarker_some (s : Script) :
    ∀ (fuel pos startI pos1 : Nat), firstMarker s fuel pos = .done (some (startI, pos1)) →
      ∃ op, ReadOp s startI = (some op, pos1) ∧ isMarker s startI pos1 op = .done true := by
  intro fuel
  induction fuel with
  | zero => intro pos startI pos1 h; cases h
  | succ n ih =>
    intro pos startI pos1 h
    simp only [firstMarker] at h
    by_cases hlt : pos < s.length
    swap
    · rw [if_neg hlt] at h; cases h
    rw [if_pos hlt] at h
    rcases hr : ReadOp s pos with ⟨_ | op, q⟩
    · rw [hr] at h; cases h
    rw [hr] at h
    simp only at h
    rcases hm : isMarker s pos q op with _ | _ | b
    · rw [hm] at h; cases h
    · rw [hm] at h; cases h
    rw [hm] at h
    cases b with
    | false => exact ih q startI pos1 h
    | true =>
      simp only [Run.done.injEq, Option.some.injEq, Prod.mk.injEq] at h
      obtain ⟨h1, h2⟩ := h
      subst h1 h2
      exact ⟨op, hr, hm⟩

/-- When the envelope of the first marker is returned, `Decode` returns it. -/
theorem scanLoop_first (d : Collaborators) (s : Script) (startI pos1 : Nat) (e : Inscription)
    (p : Nat) (he : envelopeAt d s startI pos1 = (.done (some e), p)) :
    ∀ (fuel pos : Nat), firstMarker s fuel pos = .done (some (startI, pos1)) →
      scanLoop d s fuel pos = .done (some e) := by
  intro fuel
  induction fuel with
  | zero => intro pos h; cases h
  | succ n ih =>
    intro pos h
    simp only [firstMarker] at h
    rw [scanLoop_succ]
    by_cases hlt : pos < s.length
    swap
    · rw [if_neg hlt] at h; cases h
    rw [if_pos hlt] at h
    rw [if_pos hlt]
    rcases hr : ReadOp s pos with ⟨_ | op, q⟩
    · rw [hr] at h; cases h
    rw [hr] at h
    simp only at h ⊢
    rcases hm : isMarker s pos q op with _ | _ | b
    · rw [hm] at h; cases h
    · rw [hm] at h; cases h
    rw [hm] at h
    cases b with
    | false => exact ih q h
    | true =>
      simp only [Run.done.injEq, Option.some.injEq, Prod.mk.injEq] at h
      obtain ⟨h1, h2⟩ := h
      subst h1 h2
      simp only [he]
theorem envelopeAt_loop (d : Collaborators) (s : Script) (startI pos1 : Nat)
    (h2 : 2 ≤ startI) (hl : startI ≤ s.length) :
    envelopeAt d s startI pos1 =
      match ordLoop d s (s.length + 1) pos1 { ScriptPrefix := s.take (startI - 2) } with
      | .panic => (.panic, pos1)
      | .outOfFuel => (.outOfFuel, pos1)
      | .ret insc => (.done (some insc), pos1)
      | .brk insc pos2 => closing s pos2 insc := by
  have hs : sliceTo s ((startI : Int) - 2) = .done (s.take (startI - 2)) := by
    unfold sliceTo
    rw [if_pos (by omega)]
    congr 2
    omega
  simp only [envelopeAt, hs]

theorem closing_mismatch {s : Script} {pos pos3 : Nat} {op : ScriptChunk} (i : Inscription)
    (hr : ReadOp s pos = (some op, pos3)) (hne : op.Op ≠ OpENDIF) :
    closing s pos i = (.done (some { i with ScriptSuffix := s.drop pos3 }), pos3) := by
  have hb := (ReadOp_some_bounds hr).2
  simp only [closing, hr, if_pos hne, sliceFrom, if_pos hb]

theorem closing_end (s : Script) (i : Inscription) :
    closing s s.length i = (.done (some { i with ScriptSuffix := [] }), s.length) := by
  simp only [closing, ReadOp_end, sliceFrom, if_pos (le_refl _), List.drop_length]

/-! ## Scripts that start with the marker -/

theorem ReadOp_MARK_0 (tail : List Byte) : ReadOp (MARK ++ tail) 0 = (some ⟨0, []⟩, 1) :=
  ReadOp_op [] _ 0 (Or.inl rfl)

theorem ReadOp_MARK_1 (tail : List Byte) : ReadOp (MARK ++ tail) 1 = (some ⟨OpIF, []⟩, 2) :=
  ReadOp_op [0] _ OpIF (Or.inr (by decide))

theorem ReadOp_MARK_2 (tail : List Byte) : ReadOp (MARK ++ tail) 2 = (some ⟨OpDATA3, ord⟩, 6) :=
  ReadOp_push [0, OpIF] ord tail (by decide)

theorem firstMarker_succ (s : Script) (fuel pos : Nat) :
    firstMarker s (fuel + 1) pos =
      if pos < s.length then
        match ReadOp s pos with
        | (none, _) => .done none
        | (some op, pos1) =>
          match isMarker s pos pos1 op with
          | .panic => .panic
          | .outOfFuel => .outOfFuel
          | .done false => firstMarker s fuel pos1
          | .done true => .done (some (pos, pos1))
      else .done none := rfl

/-- In a script that starts with the marker, the scan finds it at once: the marker
instruction starts at position 2 and ends at position 6. -/
theorem firstMarker_MARK (tail : List Byte) :
    firstMarker (MARK ++ tail) ((MARK ++ tail).length + 1) 0 = .done (some (2, 6)) := by
  have hlen : (MARK ++ tail).length = tail.length + 6 := by simp [MARK]
  have m0 : isMarker (MARK ++ tail) 0 1 ⟨0, []⟩ = .done false := rfl
  have m1 : isMarker (MARK ++ tail) 1 2 ⟨OpIF, []⟩ = .done false := rfl
  have m2 : isMarker (MARK ++ tail) 2 6 ⟨OpDATA3, ord⟩ = .done true := rfl
  rw [hlen, firstMarker_succ, if_pos (by omega), ReadOp_MARK_0]
  simp only [m0]
  rw [firstMarker_succ, if_pos (by omega), ReadOp_MARK_1]
  simp only [m1]
  rw [firstMarker_succ, if_pos (by omega), ReadOp_MARK_2]
  simp only [m2]

theorem pushOp_le (d : List Byte) : (pushOp d).val ≤ OpPUSHDATA4.val := by
  unfold pushOp
  split_ifs with h0 h1 h2
  · have : (byte d.length).val = d.length := by simp [byte]; omega
    rw [this]
    exact le_trans h0 (by decide)
  · decide
  · decide
  · decide

/-- The pair `OP_1, push(t)` with `t` valid UTF-8 shorter than 256 bytes sets the type. -/
theorem ordStep_type (d : Collaborators) (a t r : List Byte) (i : Inscription)
    (ht : t.length < 256) (hv : utf8.Valid t = true) :
    ordStep d (a ++ Op1 :: (pushData t ++ r)) a.length i
      = .next { i with File := { i.File with Type_ := t } }
          (a.length + 1 + (pushData t).length) := by
  have h1 : ReadOp (a ++ Op1 :: (pushData t ++ r)) a.length = (some ⟨Op1, []⟩, a.length + 1) :=
    ReadOp_op a _ Op1 (Or.inr (by decide))
  have h2 : ReadOp (a ++ Op1 :: (pushData t ++ r)) (a.length + 1)
      = (some ⟨pushOp t, t⟩, a.length + 1 + (pushData t).length) := by
    have := ReadOp_push (a ++ [Op1]) t r (by omega)
    simpa using this
  have c1 : ¬ Op1.val > Op16.val := by decide
  have c2 : ¬ (pushOp t).val > Op16.val := by
    have := pushOp_le t
    have : OpPUSHDATA4.val ≤ Op16.val := by decide
    omega
  have c3 : Op1.val > OpPUSHDATA4.val ∧ Op1.val ≤ Op16.val := by decide
  have c4 : ((Op1.val : Int) - 80) = 1 := by decide
  simp only [ordStep, h1, h2, if_neg c1, if_neg c2, if_pos c3, c4]
  simp [dispatch, ht, hv]

/-- The pair `OP_0, push(c)` is the content field. -/
theorem ordStep_content (d : Collaborators) (a c r : List Byte) (i : Inscription)
    (hc : c.length < 2 ^ 32) :
    ordStep d (a ++ Op0 :: (pushData c ++ r)) a.length i
      = .brk { i with File := { i.File with
            Content := c, Size := c.length % 2 ^ 32, Hash := d.Sum256 c } }
          (a.length + 1 + (pushData c).length) := by
  have h1 : ReadOp (a ++ Op0 :: (pushData c ++ r)) a.length = (some ⟨Op0, []⟩, a.length + 1) :=
    ReadOp_op a _ Op0 (Or.inl rfl)
  have h2 : ReadOp (a ++ Op0 :: (pushData c ++ r)) (a.length + 1)
      = (some ⟨pushOp c, c⟩, a.length + 1 + (pushData c).length) := by
    have := ReadOp_push (a ++ [Op0]) c r hc
    simpa using this
  have c1 : ¬ Op0.val > Op16.val := by decide
  have c2 : ¬ (pushOp c).val > Op16.val := by
    have := pushOp_le c
    have : OpPUSHDATA4.val ≤ Op16.val := by decide
    omega
  have c3 : ¬ (Op0.val > OpPUSHDATA4.val ∧ Op0.val ≤ Op16.val) := by decide
  simp only [ordStep, h1, h2, if_neg c1, if_neg c2, if_neg c3]
  simp [dispatch]

/-- The field loop on `MARK ++ OP_1 push(t) ++ OP_0 push(c) ++ r`: the type is set, the
content is consumed, and the loop is left at the position right after the content value. -/
theorem ordLoop_type_content (d : Collaborators) (t c r : List Byte) (ht : t.length < 256)
    (hv : utf8.Valid t = true) (hc : c.length < 2 ^ 32) (fuel : Nat) (hf : 2 ≤ fuel) :
    ordLoop d (MARK ++ Op1 :: (pushData t ++ Op0 :: (pushData c ++ r))) fuel 6 {}
      = .brk { File := { Hash := d.Sum256 c, Size := c.length, Type_ := t, Content := c } }
          (6 + 1 + (pushData t).length + 1 + (pushData c).length) := by
  have step1 := ordStep_type d MARK t (Op0 :: (pushData c ++ r)) {} ht hv
  have step2 := ordStep_content d (MARK ++ Op1 :: pushData t) c r
    { File := { Type_ := t } } hc
  have ea : (MARK ++ Op1 :: pushData t) ++ Op0 :: (pushData c ++ r)
      = MARK ++ Op1 :: (pushData t ++ Op0 :: (pushData c ++ r)) := by simp
  have el : (MARK ++ Op1 :: pushData t).length = 6 + 1 + (pushData t).length := by
    simp [MARK]; omega
  have e6 : MARK.length = 6 := rfl
  rw [ea, el] at step2
  rw [e6] at step1
  obtain ⟨f, rfl⟩ : ∃ f, fuel = f + 2 := ⟨fuel - 2, by omega⟩
  have hm : c.length % 2 ^ 32 = c.length := Nat.mod_eq_of_lt hc
  simp only [ordLoop, step1, step2, hm]

/-- The pair `OP_1, push(t)` goes on to the next pair, whatever `t` is. -/
theorem ordStep_field1 (d : Collaborators) (a t r : List Byte) (i : Inscription)
    (ht : t.length < 2 ^ 32) :
    ∃ i1, ordStep d (a ++ Op1 :: (pushData t ++ r)) a.length i
      = .next i1 (a.length + 1 + (pushData t).length) := by
  have h1 : ReadOp (a ++ Op1 :: (pushData t ++ r)) a.length = (some ⟨Op1, []⟩, a.length + 1) :=
    ReadOp_op a _ Op1 (Or.inr (by decide))
  have h2 : ReadOp (a ++ Op1 :: (pushData t ++ r)) (a.length + 1)
      = (some ⟨pushOp t, t⟩, a.length + 1 + (pushData t).length) := by
    have := ReadOp_push (a ++ [Op1]) t r ht
    simpa using this
  have c1 : ¬ Op1.val > Op16.val := by decide
  have c2 : ¬ (pushOp t).val > Op16.val := by
    have := pushOp_le t
    have : OpPUSHDATA4.val ≤ Op16.val := by decide
    omega
  have c3 : Op1.val > OpPUSHDATA4.val ∧ Op1.val ≤ Op16.val := by decide
  have c4 : ((Op1.val : Int) - 80) = 1 := by decide
  simp only [ordStep, h1, h2, if_neg c1, if_neg c2, if_pos c3, c4]
  rcases dispatch_cases d i 1 ⟨pushOp t, t⟩ (a.length + 1 + (pushData t).length)
    with ⟨h0, _⟩ | ⟨_, i1, hi, _⟩
  · exact absurd h0 (by decide)
  · exact ⟨i1, hi⟩

theorem closing_endif (a : List Byte) (i : Inscription) :
    closing (a ++ [OpENDIF]) a.length i = (.done none, a.length + 1) := by
  have hr : ReadOp (a ++ [OpENDIF]) a.length = (some ⟨OpENDIF, []⟩, a.length + 1) :=
    ReadOp_op a [] OpENDIF (Or.inr (by decide))
  simp only [closing, hr]
  rfl

/-- The systematic form of the failing inputs of C1 and C2: every script `MARK ++ 51 ++
push(t) ++ 00 ++ push(c) ++ 68`, the shape that `Lock` writes, decodes to `nil`. -/
theorem Decode_closed_nil (d : Collaborators) (t c : List Byte) (ht : t.length < 2 ^ 32)
    (hc : c.length < 2 ^ 32) :
    Decode d (MARK ++ [0x51] ++ pushData t ++ [0x00] ++ pushData c ++ [0x68]) = .done none := by
  have es : MARK ++ [0x51] ++ pushData t ++ [0x00] ++ pushData c ++ [0x68]
      = MARK ++ Op1 :: (pushData t ++ Op0 :: (pushData c ++ [OpENDIF])) := by
    simp [Op1, Op0, OpENDIF]
  rw [es]
  generalize hs : MARK ++ Op1 :: (pushData t ++ Op0 :: (pushData c ++ [OpENDIF])) = s
  have hlen : s.length = 6 + 1 + (pushData t).length + 1 + (pushData c).length + 1 := by
    rw [← hs]; simp [MARK]; omega
  have e6 : MARK.length = 6 := rfl
  -- the field loop: one type pair, then the content
  obtain ⟨i1, step1⟩ := ordStep_field1 d MARK t (Op0 :: (pushData c ++ [OpENDIF])) {} ht
  have step2 := ordStep_content d (MARK ++ Op1 :: pushData t) c [OpENDIF] i1 hc
  have ea : (MARK ++ Op1 :: pushData t) ++ Op0 :: (pushData c ++ [OpENDIF]) = s := by
    rw [← hs]; simp
  have el : (MARK ++ Op1 :: pushData t).length = 6 + 1 + (pushData t).length := by
    simp [MARK]; omega
  rw [hs, e6] at step1
  rw [ea, el] at step2
  have hloop : ∃ e, ordLoop d s (s.length + 1) 6 {}
      = .brk e (6 + 1 + (pushData t).length + 1 + (pushData c).length) := by
    obtain ⟨f, hf⟩ : ∃ f, s.length + 1 = f + 2 := ⟨s.length - 1, by omega⟩
    rw [hf]
    simp only [ordLoop, step1, step2]
    exact ⟨_, rfl⟩
  obtain ⟨e, hloop⟩ := hloop
  have hclose : closing s (6 + 1 + (pushData t).length + 1 + (pushData c).length) e
      = (.done none, s.length) := by
    have := closing_endif (MARK ++ Op1 :: (pushData t ++ Op0 :: pushData c)) e
    have ea2 : (MARK ++ Op1 :: (pushData t ++ Op0 :: pushData c)) ++ [OpENDIF] = s := by
      rw [← hs]; simp
    have el2 : (MARK ++ Op1 :: (pushData t ++ Op0 :: pushData c)).length
        = 6 + 1 + (pushData t).length + 1 + (pushData c).length := by
      simp [MARK]; omega
    rw [ea2, el2] at this
    rw [this, hlen]
  have henv : envelopeAt d s 2 6 = (.done none, s.length) := by
    rw [envelopeAt_loop d s 2 6 (le_refl _) (by omega)]
    have e0 : List.take (2 - 2) s = [] := rfl
    rw [e0, hloop]
    exact hclose
  -- the outer loop: three instructions up to the marker, then the end of the script
  have r0 : ReadOp s 0 = (some ⟨0, []⟩, 1) := by rw [← hs]; exact ReadOp_MARK_0 _
  have r1 : ReadOp s 1 = (some ⟨OpIF, []⟩, 2) := by rw [← hs]; exact ReadOp_MARK_1 _
  have r2 : ReadOp s 2 = (some ⟨OpDATA3, ord⟩, 6) := by rw [← hs]; exact ReadOp_MARK_2 _
  have m0 : isMarker s 0 1 ⟨0, []⟩ = .done false := rfl
  have m1 : isMarker s 1 2 ⟨OpIF, []⟩ = .done false := rfl
  have m2 : isMarker s 2 6 ⟨OpDATA3, ord⟩ = .done true := by rw [← hs]; rfl
  obtain ⟨f, hf⟩ : ∃ f, s.length + 1 = f + 4 := ⟨s.length - 3, by omega⟩
  unfold Decode
  rw [hf, scanLoop_succ, if_pos (by omega), r0]
  simp only [m0]
  rw [scanLoop_succ, if_pos (by omega), r1]
  simp only [m1]
  rw [scanLoop_succ, if_pos (by omega), r2]
  simp only [m2, henv]
  rw [scanLoop_succ, if_neg (by omega)]

/-- The bytes that `Lock` writes for an envelope without Bitcom extensions. -/
theorem Lock_layout (d : Collaborators) (e : Inscription)
    (h : e.Bitcom = none ∨ e.Bitcom = some []) :
    e.Lock d = e.ScriptPrefix ++ [0x00, 0x63] ++ [0x03, 0x6F, 0x72, 0x64] ++ [0x51]
        ++ pushData e.File.Content
        ++ (match e.Parent with
            | some p => [0x53] ++ pushData (d.OutpointBytes p)
            | none => [])
        ++ [0x00] ++ pushData e.File.Content ++ [0x68] ++ e.ScriptSuffix := by
  have a1 : ∀ s : Script, AppendOpcodes s [Op0, OpIF] = s ++ [0x00, 0x63] := fun _ => rfl
  have a2 : ∀ s : Script, AppendOpcodes s [Op1] = s ++ [0x51] := fun _ => rfl
  have a3 : ∀ s : Script, AppendOpcodes s [Op3] = s ++ [0x53] := fun _ => rfl
  have a4 : ∀ s : Script, AppendOpcodes s [Op0] = s ++ [0x00] := fun _ => rfl
  have a5 : ∀ s : Script, AppendOpcodes s [OpENDIF] = s ++ [0x68] := fun _ => rfl
  have a6 : pushData ord = [0x03, 0x6F, 0x72, 0x64] := rfl
  rcases h with h | h <;> rcases hp : e.Parent with _ | p <;>
    simp only [Inscription.Lock, h, hp, a1, a2, a3, a4, a5, a6, AppendPushData,
      List.foldl_nil, List.append_assoc, List.append_nil]

/-- The systematic form of the failing input of C2: for every envelope with no parent, no
Bitcom extensions, empty prefix and suffix, and a content that a data push can carry,
`Decode(e.Lock())` is `nil`. -/
theorem Decode_Lock_nil (d : Collaborators) (e : Inscription) (hp : e.Parent = none)
    (hb : e.Bitcom = none ∨ e.Bitcom = some []) (h1 : e.ScriptPrefix = [])
    (h2 : e.ScriptSuffix = []) (hc : e.File.Content.length < 2 ^ 32) :
    Decode d (e.Lock d) = .done none := by
  have hl : e.Lock d = MARK ++ [0x51] ++ pushData e.File.Content ++ [0x00]
      ++ pushData e.File.Content ++ [0x68] := by
    rw [Lock_layout d e hb, hp, h1, h2]
    simp [MARK]
  rw [hl]
  exact Decode_closed_nil d _ _ hc hc

/-- An envelope that the outer loop returns has as prefix the bytes before an occurrence
of the open marker in the script. -/
theorem scanLoop_split (d : Collaborators) (s : Script) (fuel pos : Nat) (e : Inscription)
    (h : scanLoop d s fuel pos = .done (some e)) :
    ∃ rest, s = e.ScriptPrefix ++ MARK ++ rest := by
  obtain ⟨startI, pos1, op, p, hr, hm, he⟩ := scanLoop_marker d s _ _ e h
  obtain ⟨h2, _, hsplit⟩ := marker_at hr hm
  have hp := envelopeAt_prefix he
  have e1 : ((startI : Int) - 2).toNat = startI - 2 := by omega
  rw [e1] at hp
  refine ⟨s.drop (startI + 4), ?_⟩
  rw [hp]
  exact hsplit

/-- On a script that does not contain the open marker `Decode` never returns an envelope
(it returns `nil`, or it panics as on `03 6F 72 64`). -/
theorem Decode_no_marker (d : Collaborators) (s : Script) (h : ¬ MARK <:+: s)
    (e : Inscription) : Decode d s ≠ .done (some e) := by
  intro hd
  obtain ⟨rest, hs⟩ := scanLoop_split d s _ _ e hd
  exact h ⟨e.ScriptPrefix, rest, hs.symm⟩

/-! ## The fuel of the loops is never used up -/

theorem ordLoop_fuel (d : Collaborators) (s : Script) :
    ∀ (fuel pos : Nat) (i : Inscription), pos ≤ s.length → s.length < pos + 2 * fuel →
      ordLoop d s fuel pos i ≠ .outOfFuel
        ∧ ∀ e p, ordLoop d s fuel pos i = .brk e p → pos < p ∧ p ≤ s.length := by
  intro fuel
  induction fuel with
  | zero => intro pos i h1 h2; omega
  | succ n ih =>
    intro pos i h1 h2
    rcases hs : ordStep d s pos i with _ | j | ⟨j, q⟩ | ⟨j, q⟩
    · simp only [ordLoop, hs]
      exact ⟨by simp, by intro e p h; cases h⟩
    · simp only [ordLoop, hs]
      exact ⟨by simp, by intro e p h; cases h⟩
    · simp only [ordLoop, hs]
      refine ⟨by simp, ?_⟩
      intro e p h
      injection h with ha hb
      subst ha hb
      obtain ⟨pv, opv, g1, g2, _⟩ := ordStep_brk hs
      have := ReadOp_some_bounds g2
      omega
    · simp only [ordLoop, hs]
      obtain ⟨_, g1, g2⟩ := ordStep_next hs
      obtain ⟨k1, k2⟩ := ih q j g2 (by omega)
      refine ⟨k1, ?_⟩
      intro e p h
      have := k2 e p h
      omega

theorem closing_bounds {s : Script} {pos p : Nat} {i : Inscription} {r : Run (Option Inscription)}
    (h : closing s pos i = (r, p)) :
    r ≠ .outOfFuel ∧ (r = .done none → pos < p ∧ p ≤ s.length) := by
  unfold closing at h
  rcases hr : ReadOp s pos with ⟨_ | op, p1⟩
  · rw [hr] at h
    simp only [sliceFrom] at h
    split_ifs at h <;> simp only [Prod.mk.injEq] at h <;> obtain ⟨h1, _⟩ := h <;> subst h1 <;>
      exact ⟨by simp, by intro hc; cases hc⟩
  · rw [hr] at h
    have hb := ReadOp_some_bounds hr
    simp only [sliceFrom] at h
    split_ifs at h <;> simp only [Prod.mk.injEq] at h <;> obtain ⟨h1, h2⟩ := h <;> subst h1 h2
    · exact ⟨by simp, by intro hc; cases hc⟩
    · exact ⟨by simp, by intro hc; cases hc⟩
    · exact ⟨by simp, fun _ => hb⟩

theorem envelopeAt_bounds {d : Collaborators} {s : Script} {startI pos p : Nat}
    {r : Run (Option Inscription)} (h : envelopeAt d s startI pos = (r, p))
    (hp : pos ≤ s.length) :
    r ≠ .outOfFuel ∧ (r = .done none → pos < p ∧ p ≤ s.length) := by
  unfold envelopeAt at h
  rcases hs : sliceTo s ((startI : Int) - 2) with _ | _ | pre
  · rw [hs] at h
    simp only [Prod.mk.injEq] at h
    obtain ⟨h1, _⟩ := h
    subst h1
    exact ⟨by simp, by intro hc; cases hc⟩
  · unfold sliceTo at hs
    split_ifs at hs
  rw [hs] at h
  simp only at h
  obtain ⟨f1, f2⟩ := ordLoop_fuel d s (s.length + 1) pos { ScriptPrefix := pre } hp (by omega)
  rcases hl : ordLoop d s (s.length + 1) pos { ScriptPrefix := pre } with _ | _ | i1 | ⟨i1, p2⟩
  · rw [hl] at h
    simp only [Prod.mk.injEq] at h
    obtain ⟨h1, _⟩ := h
    subst h1
    exact ⟨by simp, by intro hc; cases hc⟩
  · exact absurd hl f1
  · rw [hl] at h
    simp only [Prod.mk.injEq] at h
    obtain ⟨h1, _⟩ := h
    subst h1
    exact ⟨by simp, by intro hc; cases hc⟩
  · rw [hl] at h
    simp only at h
    obtain ⟨g1, g2⟩ := f2 i1 p2 hl
    obtain ⟨c1, c2⟩ := closing_bounds h
    refine ⟨c1, ?_⟩
    intro hc
    have := c2 hc
    omega

theorem isMarker_fuel (s : Script) (startI pos : Nat) (op : ScriptChunk) :
    isMarker s startI pos op ≠ .outOfFuel := by
  have hi : ∀ (t : List Byte) (j : Int), index t j ≠ .outOfFuel := by
    intro t j
    unfold index
    split_ifs
    · split <;> simp
    · simp
  unfold isMarker
  split_ifs
  · rcases h1 : index s ((startI : Int) - 2) with _ | _ | b0
    · simp
    · exact absurd h1 (hi _ _)
    · simp only
      split_ifs
      · rcases h2 : index s ((startI : Int) - 1) with _ | _ | b1
        · simp
        · exact absurd h2 (hi _ _)
        · simp
      · simp
  · simp

/-- With fuel `len + 1` the outer loop of `Decode` ends by itself: the model never reports
`outOfFuel`. -/
theorem scanLoop_fuel (d : Collaborators) (s : Script) :
    ∀ (fuel pos : Nat), pos ≤ s.length → s.length < pos + fuel →
      scanLoop d s fuel pos ≠ .outOfFuel := by
  intro fuel
  induction fuel with
  | zero => intro pos h1 h2; omega
  | succ n ih =>
    intro pos h1 h2
    rw [scanLoop_succ]
    by_cases hlt : pos < s.length
    swap
    · rw [if_neg hlt]; simp
    rw [if_pos hlt]
    rcases hr : ReadOp s pos with ⟨_ | op, pos1⟩
    · simp
    simp only
    have hb := ReadOp_some_bounds hr
    rcases hm : isMarker s pos pos1 op with _ | _ | b
    · simp
    · exact absurd hm (isMarker_fuel s pos pos1 op)
    cases b with
    | false => exact ih pos1 hb.2 (by omega)
    | true =>
      simp only
      rcases he : envelopeAt d s pos pos1 with ⟨r, p3⟩
      obtain ⟨e1, e2⟩ := envelopeAt_bounds he hb.2
      rcases r with _ | _ | o
      · simp
      · exact absurd rfl e1
      · cases o with
        | none =>
          have := e2 rfl
          exact ih p3 this.2 (by omega)
        | some e => simp

theorem Decode_fuel (d : Collaborators) (s : Script) : Decode d s ≠ .outOfFuel :=
  scanLoop_fuel d s _ 0 (Nat.zero_le _) (by omega)

/-! ## One readable tag/value pair -/

/-- An iteration of the field loop whose tag and value are both readable with opcodes up to
`OP_16`: the tag is resolved to a field code and dispatched, or tried as an extension key. -/
theorem ordStep_pair (d : Collaborators) {s : Script} {pos p1 p2 : Nat} {op op2 : ScriptChunk}
    (i : Inscription) (h1 : ReadOp s pos = (some op, p1)) (h2 : ReadOp s p1 = (some op2, p2))
    (ho : op.Op.val ≤ Op16.val) (ho2 : op2.Op.val ≤ Op16.val) :
    ordStep d s pos i =
      match tagField op with
      | some field => dispatch d i field op2 p2
      | none =>
        match d.NewAddressFromString op.Data with
        | some add =>
          .next { i with Bitcom := some (mapSet (i.Bitcom.getD []) add op2.Data) } p2
        | none => .next i p2 := by
  have c1 : ¬ op.Op.val > Op16.val := by omega
  have c2 : ¬ op2.Op.val > Op16.val := by omega
  simp only [ordStep, h1, h2, if_neg c1, if_neg c2, tagField]
  by_cases c3 : op.Op.val > OpPUSHDATA4.val ∧ op.Op.val ≤ Op16.val
  · simp only [if_pos c3]
  simp only [if_neg c3]
  by_cases c4 : op.Data.length = 1
  · simp only [if_pos c4]
    obtain ⟨b, hb⟩ : ∃ b, op.Data = [b] := List.length_eq_one.mp c4
    rw [hb]
    rfl
  simp only [if_neg c4]
  by_cases c5 : op.Data.length > 1
  · simp only [if_pos c5]
  · simp only [if_neg c5]

theorem ordLoop_next {d : Collaborators} {s : Script} {pos p : Nat} {i i1 : Inscription}
    (h : ordStep d s pos i = .next i1 p) (fuel : Nat) :
    ordLoop d s (fuel + 1) pos i = ordLoop d s fuel p i1 := by
  simp only [ordLoop, h]

/-- An unclosed script that starts with the marker: when the field loop breaks at the very
end of the script, `Decode` returns the envelope of the loop with an empty suffix. -/
theorem Decode_MARK_unclosed (d : Collaborators) (tail : List Byte) (e : Inscription)
    (h : ordLoop d (MARK ++ tail) ((MARK ++ tail).length + 1) 6 {}
      = .brk e (MARK ++ tail).length) :
    Decode d (MARK ++ tail) = .done (some { e with ScriptSuffix := [] }) := by
  have hm := firstMarker_MARK tail
  have hlen : 6 ≤ (MARK ++ tail).length := by simp [MARK]
  have henv : envelopeAt d (MARK ++ tail) 2 6
      = (.done (some { e with ScriptSuffix := [] }), (MARK ++ tail).length) := by
    rw [envelopeAt_loop d _ 2 6 (le_refl _) (by omega)]
    have e0 : List.take (2 - 2) (MARK ++ tail) = [] := rfl
    rw [e0, h]
    exact closing_end _ _
  exact scanLoop_first d _ 2 6 _ _ henv _ _ hm

/-- The pair `OP_1, push(t)` with `t` of 256 bytes or more leaves the envelope as it is. -/
theorem ordStep_type_long (d : Collaborators) (a t r : List Byte) (i : Inscription)
    (ht : 256 ≤ t.length) (ht2 : t.length < 2 ^ 32) :
    ordStep d (a ++ Op1 :: (pushData t ++ r)) a.length i
      = .next i (a.length + 1 + (pushData t).length) := by
  have h1 : ReadOp (a ++ Op1 :: (pushData t ++ r)) a.length = (some ⟨Op1, []⟩, a.length + 1) :=
    ReadOp_op a _ Op1 (Or.inr (by decide))
  have h2 : ReadOp (a ++ Op1 :: (pushData t ++ r)) (a.length + 1)
      = (some ⟨pushOp t, t⟩, a.length + 1 + (pushData t).length) := by
    have := ReadOp_push (a ++ [Op1]) t r ht2
    simpa using this
  have c2 : (pushOp t).val ≤ Op16.val := by
    have := pushOp_le t
    have : OpPUSHDATA4.val ≤ Op16.val := by decide
    omega
  rw [ordStep_pair d i h1 h2 (by decide) c2]
  have hf : tagField ⟨Op1, []⟩ = some 1 := by decide
  rw [hf]
  have hn : ¬ (t.length < 256 ∧ utf8.Valid t = true) := by omega
  simp [dispatch, hn]

/-- The family `MARK ++ 51 ++ push(v) ++ 00 ++ push(c)` with `v` of 256 bytes or more: the
type stays unset and the content is decoded. -/
theorem Decode_long_type (d : Collaborators) (v c : List Byte) (hv : 256 ≤ v.length)
    (hv2 : v.length < 2 ^ 32) (hc : c.length < 2 ^ 32) :
    Decode d (MARK ++ [0x51] ++ pushData v ++ [0x00] ++ pushData c)
      = .done (some { File := { Hash := d.Sum256 c, Size := c.length, Content := c } }) := by
  have es : MARK ++ [0x51] ++ pushData v ++ [0x00] ++ pushData c
      = MARK ++ Op1 :: (pushData v ++ Op0 :: (pushData c ++ [])) := by
    simp [Op1, Op0]
  rw [es]
  have step1 := ordStep_type_long d MARK v (Op0 :: (pushData c ++ [])) {} hv hv2
  have step2 := ordStep_content d (MARK ++ Op1 :: pushData v) c [] {} hc
  have ea : (MARK ++ Op1 :: pushData v) ++ Op0 :: (pushData c ++ [])
      = MARK ++ Op1 :: (pushData v ++ Op0 :: (pushData c ++ [])) := by simp
  have el : (MARK ++ Op1 :: pushData v).length = 6 + 1 + (pushData v).length := by
    simp [MARK]; omega
  have e6 : MARK.length = 6 := rfl
  rw [ea, el] at step2
  rw [e6] at step1
  have hlen : (MARK ++ Op1 :: (pushData v ++ Op0 :: (pushData c ++ []))).length
      = 6 + 1 + (pushData v).length + 1 + (pushData c).length := by
    simp [MARK]; omega
  have hm : c.length % 2 ^ 32 = c.length := Nat.mod_eq_of_lt hc
  have hloop : ordLoop d (MARK ++ Op1 :: (pushData v ++ Op0 :: (pushData c ++ [])))
      ((MARK ++ Op1 :: (pushData v ++ Op0 :: (pushData c ++ []))).length + 1) 6 {}
      = .brk { File := { Hash := d.Sum256 c, Size := c.length, Content := c } }
          (MARK ++ Op1 :: (pushData v ++ Op0 :: (pushData c ++ []))).length := by
    obtain ⟨f, hf⟩ : ∃ f, (MARK ++ Op1 :: (pushData v ++ Op0 :: (pushData c ++ []))).length + 1
        = f + 2 :=
      ⟨(MARK ++ Op1 :: (pushData v ++ Op0 :: (pushData c ++ []))).length - 1, by omega⟩
    rw [hf, ordLoop_next step1, ordLoop, step2, hlen, hm]
  exact Decode_MARK_unclosed d _ _ hloop

/-- Only a data push carries data: a chunk read with non-empty data has a push opcode. -/
theorem ReadOp_data_push {s : Script} {pos p1 : Nat} {op : ScriptChunk}
    (h : ReadOp s pos = (some op, p1)) (hd : op.Data ≠ []) : op.Op.val ≤ OpPUSHDATA4.val := by
  by_contra hgt
  have hv : OpPUSHDATA4.val = 0x4e := rfl
  have hc := ReadOp_some_op h
  rw [ReadOp, hc] at h
  have n1 : op.Op ≠ OpPUSHDATA1 := by
    intro e; rw [e] at hgt; exact hgt (by decide)
  have n2 : op.Op ≠ OpPUSHDATA2 := by
    intro e; rw [e] at hgt; exact hgt (by decide)
  have n4 : op.Op ≠ OpPUSHDATA4 := by
    intro e; rw [e] at hgt; exact hgt (by decide)
  have n5 : ¬ (1 ≤ op.Op.val ∧ op.Op.val < OpPUSHDATA1.val) := by
    have : OpPUSHDATA1.val = 0x4c := rfl
    omega
  simp only [if_neg n1, if_neg n2, if_neg n4, if_neg n5, Prod.mk.injEq, Option.some.injEq] at h
  obtain ⟨h1, _⟩ := h
  apply hd
  rw [← h1]

/-! ## Content, size and digest of a returned envelope -/

theorem Sum256_length (m : List Byte) : (sha256.Sum256 m).length = 32 := rfl

theorem leUint_lt (b : Script) (n : Nat) : ∀ pos, leUint b pos n < 256 ^ n := by
  induction n with
  | zero => intro pos; simp [leUint]
  | succ n ih =>
    intro pos
    have h1 := ih (pos + 1)
    have h2 : (b.getD pos 0).val < 256 := (b.getD pos 0).isLt
    simp only [leUint, pow_succ]
    omega

theorem subslice_length_le (b : Script) (lo l : Nat) : (subslice b lo l).length ≤ l := by
  simp [subslice]

/-- The data of a chunk is shorter than 2^32 bytes: its length comes from a length prefix of
at most four bytes. -/
theorem ReadOp_data_length {s : Script} {pos p1 : Nat} {op : ScriptChunk}
    (h : ReadOp s pos = (some op, p1)) : op.Data.length < 2 ^ 32 := by
  unfold ReadOp at h
  split at h
  · simp at h
  · rename_i c hc
    have l1 := leUint_lt s 1 (pos + 1)
    have l2 := leUint_lt s 2 (pos + 1)
    have l4 := leUint_lt s 4 (pos + 1)
    have hcv : c.val < 256 := c.isLt
    split_ifs at h <;> simp only [Prod.mk.injEq, Option.some.injEq] at h
    all_goals first
      | (exfalso; exact Option.noConfusion h.1)
      | (obtain ⟨h1, _⟩ := h
         subst h1
         first
          | (have hle := subslice_length_le s (pos + 2) (leUint s (pos + 1) 1)
             simp only at hle ⊢
             omega)
          | (have hle := subslice_length_le s (pos + 3) (leUint s (pos + 1) 2)
             simp only at hle ⊢
             omega)
          | (have hle := subslice_length_le s (pos + 5) (leUint s (pos + 1) 4)
             simp only at hle ⊢
             omega)
          | (have hle := subslice_length_le s (pos + 1) c.val
             simp only at hle ⊢
             omega)
          | simp)

/-- When the field loop breaks, the envelope it hands back is the one after a content field:
its content is the data of a value instruction that was read. -/
theorem ordLoop_brk_content (d : Collaborators) (s : Script) :
    ∀ (fuel pos : Nat) (i e : Inscription) (p : Nat), ordLoop d s fuel pos i = .brk e p →
      ∃ pv opv j, ReadOp s pv = (some opv, p) ∧ IsContent d opv.Data j e := by
  intro fuel
  induction fuel with
  | zero => intro pos i e p h; cases h
  | succ n ih =>
    intro pos i e p h
    rcases hs : ordStep d s pos i with _ | j | ⟨j, q⟩ | ⟨j, q⟩
    all_goals simp only [ordLoop, hs] at h
    · cases h
    · cases h
    · injection h with ha hb
      subst ha hb
      obtain ⟨pv, opv, _, g1, g2⟩ := ordStep_brk hs
      exact ⟨pv, opv, i, g1, g2⟩
    · exact ih q j e p h

/-- An envelope that comes out of lines 33-81 either has the untouched file fields of a new
envelope, or the content, size and digest set by a content field. -/
theorem envelopeAt_content {d : Collaborators} {s : Script} {startI pos p : Nat}
    {e : Inscription} (h : envelopeAt d s startI pos = (.done (some e), p)) :
    (e.File.Content = [] ∧ e.File.Hash = [] ∧ e.File.Size = 0 ∧ e.ScriptSuffix = [])
      ∨ ∃ pv opv q, ReadOp s pv = (some opv, q) ∧ e.File.Content = opv.Data
          ∧ e.File.Hash = d.Sum256 opv.Data ∧ e.File.Size = opv.Data.length % 2 ^ 32 := by
  unfold envelopeAt at h
  rcases hs : sliceTo s ((startI : Int) - 2) with _ | _ | pre
  · rw [hs] at h; cases h
  · rw [hs] at h; cases h
  rw [hs] at h
  simp only at h
  rcases hl : ordLoop d s (s.length + 1) pos { ScriptPrefix := pre } with _ | _ | i1 | ⟨i1, p2⟩
  · rw [hl] at h; cases h
  · rw [hl] at h; cases h
  · rw [hl] at h
    simp only [Prod.mk.injEq, Run.done.injEq, Option.some.injEq] at h
    obtain ⟨h1, _⟩ := h
    subst h1
    obtain ⟨_, c2, c3, c4, c5⟩ := (ordLoop_frame d s _ _ _).1 _ hl
    exact Or.inl ⟨c3, c4, c5, c2⟩
  · rw [hl] at h
    simp only at h
    rw [closing_some h]
    obtain ⟨pv, opv, j, g1, _, _, g2, g3, g4⟩ := ordLoop_brk_content d s _ _ _ _ _ hl
    exact Or.inr ⟨pv, opv, p2, g1, g2, g3, g4⟩

/-- An iteration of the outer loop either ends the run, with a result that does not depend on
the fuel left, or goes on at a greater read position within the script. -/
theorem scanLoop_progress (d : Collaborators) (s : Script) (pos : Nat) (hlt : pos < s.length) :
    (∃ pos1, pos < pos1 ∧ pos1 ≤ s.length
        ∧ ∀ fuel, scanLoop d s (fuel + 1) pos = scanLoop d s fuel pos1)
      ∨ ∃ r, r ≠ .outOfFuel ∧ ∀ fuel, scanLoop d s (fuel + 1) pos = r := by
  rcases hr : ReadOp s pos with ⟨_ | op, pos1⟩
  · right
    refine ⟨.done none, by simp, ?_⟩
    intro fuel
    rw [scanLoop_succ, if_pos hlt, hr]
  have hb := ReadOp_some_bounds hr
  rcases hm : isMarker s pos pos1 op with _ | _ | b
  · right
    refine ⟨.panic, by simp, ?_⟩
    intro fuel
    rw [scanLoop_succ, if_pos hlt, hr]
    simp only [hm]
  · exact absurd hm (isMarker_fuel s pos pos1 op)
  cases b with
  | false =>
    left
    refine ⟨pos1, hb.1, hb.2, ?_⟩
    intro fuel
    rw [scanLoop_succ, if_pos hlt, hr]
    simp only [hm]
  | true =>
    rcases he : envelopeAt d s pos pos1 with ⟨r, p3⟩
    obtain ⟨e1, e2⟩ := envelopeAt_bounds he hb.2
    rcases r with _ | _ | o
    · right
      refine ⟨.panic, by simp, ?_⟩
      intro fuel
      rw [scanLoop_succ, if_pos hlt, hr]
      simp only [hm, he]
    · exact absurd rfl e1
    · cases o with
      | none =>
        left
        have := e2 rfl
        refine ⟨p3, by omega, this.2, ?_⟩
        intro fuel
        rw [scanLoop_succ, if_pos hlt, hr]
        simp only [hm, he]
      | some e =>
        right
        refine ⟨.done (some e), by simp, ?_⟩
        intro fuel
        rw [scanLoop_succ, if_pos hlt, hr]
        simp only [hm, he]

/-- An iteration of the field loop either ends the loop, with a result that does not depend
on the fuel left, or goes on at a greater read position within the script. -/
theorem ordLoop_progress (d : Collaborators) (s : Script) (pos : Nat) (i : Inscription) :
    (∃ i1 p, pos < p ∧ p ≤ s.length
        ∧ ∀ fuel, ordLoop d s (fuel + 1) pos i = ordLoop d s fuel p i1)
      ∨ ∃ r, r ≠ .outOfFuel ∧ ∀ fuel, ordLoop d s (fuel + 1) pos i = r := by
  rcases hs : ordStep d s pos i with _ | j | ⟨j, q⟩ | ⟨j, q⟩
  · right
    exact ⟨.panic, by simp, fun fuel => by simp only [ordLoop, hs]⟩
  · right
    exact ⟨.ret j, by simp, fun fuel => by simp only [ordLoop, hs]⟩
  · right
    exact ⟨.brk j q, by simp, fun fuel => by simp only [ordLoop, hs]⟩
  · left
    obtain ⟨_, g1, g2⟩ := ordStep_next hs
    exact ⟨j, q, by omega, g2, fun fuel => ordLoop_next hs fuel⟩

/-- A pair whose tag resolves to a field code other than 0, 1 and 3 is skipped: the envelope
accumulated so far is left as it was and the field loop goes on after the pair. -/
theorem ordStep_unknown_field (d : Collaborators) {s : Script} {pos p1 p2 : Nat}
    {op op2 : ScriptChunk} (i : Inscription) {field : Int}
    (h1 : ReadOp s pos = (some op, p1)) (h2 : ReadOp s p1 = (some op2, p2))
    (ho : op.Op.val ≤ Op16.val) (ho2 : op2.Op.val ≤ Op16.val)
    (hf : tagField op = some field) (h0 : field ≠ 0) (h1f : field ≠ 1) (h3 : field ≠ 3) :
    ordStep d s pos i = .next i p2
      ∧ ∀ fuel, ordLoop d s (fuel + 1) pos i = ordLoop d s fuel p2 i := by
  have hs := ordStep_pair d i h1 h2 ho ho2
  rw [hf] at hs
  have hn : ordStep d s pos i = .next i p2 := by
    rw [hs]
    simp only [dispatch, if_neg h0, if_neg h1f, if_neg h3]
  exact ⟨hn, fun fuel => ordLoop_next hn fuel⟩

/-! ## The codec in memory -/

theorem View.bytes_length_le (m : Memory) (v : View) : (v.bytes m).length ≤ v.len := by
  simp [View.bytes]

/-- A window of a window reads the corresponding part of the bytes. -/
theorem View.reslice_bytes (m : Memory) (v : View) (lo hi : Nat) (h : hi ≤ (v.bytes m).length) :
    (v.reslice lo hi).bytes m = ((v.bytes m).drop lo).take (hi - lo) := by
  have hl := View.bytes_length_le m v
  simp only [View.bytes, View.reslice, List.drop_take, List.take_take, List.drop_drop]
  congr 1
  omega

theorem subslice_length {b : Script} {lo l : Nat} (h : lo + l ≤ b.length) :
    (subslice b lo l).length = l := by
  simp only [subslice, List.length_take, List.length_drop]
  omega

/-- The data of a chunk is the part of the script that ends at the read position after the
instruction. -/
theorem ReadOp_data_window {s : Script} {pos p1 : Nat} {op : ScriptChunk}
    (h : ReadOp s pos = (some op, p1)) :
    op.Data = subslice s (p1 - op.Data.length) op.Data.length ∧ op.Data.length ≤ p1 := by
  unfold ReadOp at h
  split at h
  · simp at h
  · rename_i c hc
    split_ifs at h <;> simp only [Prod.mk.injEq, Option.some.injEq] at h
    all_goals first
      | (exfalso; exact Option.noConfusion h.1)
      | (obtain ⟨h1, h2⟩ := h
         subst h1
         subst h2
         first
          | (have hl : (subslice s (pos + 2) (leUint s (pos + 1) 1)).length = leUint s (pos + 1) 1 :=
               subslice_length (by omega)
             simp only [hl]
             refine ⟨?_, by omega⟩
             congr 1
             omega)
          | (have hl : (subslice s (pos + 3) (leUint s (pos + 1) 2)).length = leUint s (pos + 1) 2 :=
               subslice_length (by omega)
             simp only [hl]
             refine ⟨?_, by omega⟩
             congr 1
             omega)
          | (have hl : (subslice s (pos + 5) (leUint s (pos + 1) 4)).length = leUint s (pos + 1) 4 :=
               subslice_length (by omega)
             simp only [hl]
             refine ⟨?_, by omega⟩
             congr 1
             omega)
          | (have hl : (subslice s (pos + 1) c.val).length = c.val :=
               subslice_length (by omega)
             simp only [hl]
             refine ⟨?_, by omega⟩
             congr 1
             omega)
          | simp [subslice])

/-- The slice that `dataView` gives for a chunk reads the data of the chunk. -/
theorem dataView_bytes (m : Memory) (scr : View) {pos p1 : Nat} {op : ScriptChunk}
    (h : ReadOp (scr.bytes m) pos = (some op, p1)) :
    (dataView scr op p1).bytes m = op.Data := by
  have hb := (ReadOp_some_bounds h).2
  obtain ⟨hw, hl⟩ := ReadOp_data_window h
  rw [dataView, View.reslice_bytes m scr _ _ hb]
  have e : p1 - (p1 - op.Data.length) = op.Data.length := by omega
  rw [e]
  exact hw.symm

theorem mapSetMem_read (m : Memory) (l : List (List Byte × View)) (k : List Byte) (v : View) :
    (mapSetMem l k v).map (fun kv => (kv.1, kv.2.bytes m))
      = mapSet (l.map (fun kv => (kv.1, kv.2.bytes m))) k (v.bytes m) := by
  unfold mapSetMem mapSet
  have hany : (l.map (fun kv => (kv.1, kv.2.bytes m))).any (fun kv => decide (kv.1 = k))
      = l.any (fun kv => decide (kv.1 = k)) := by
    induction l with
    | nil => rfl
    | cons x t ih => simp only [List.map_cons, List.any_cons, ih]
  rw [hany]
  by_cases c : l.any (fun kv => decide (kv.1 = k)) = true
  · rw [if_pos c, if_pos c, List.map_map, List.map_map]
    apply List.map_congr_left
    intro kv _
    simp only [Function.comp]
    by_cases e : kv.1 = k
    · simp only [if_pos e]
    · simp only [if_neg e]
  · rw [if_neg c, if_neg c, List.map_append]
    rfl

/-- The `switch` in memory does what the `switch` on values does. -/
theorem dispatchMem_read (d : Collaborators) (m : Memory) (im : InscriptionMem) (field : Int)
    (op2 : ScriptChunk) (v2 : View) (pos : Nat) (hv : v2.bytes m = op2.Data) :
    (dispatchMem d im field op2 v2 pos).read m = dispatch d (im.read m) field op2 pos := by
  unfold dispatchMem dispatch
  by_cases c0 : field = 0
  · simp only [if_pos c0, StepExitMem.read, InscriptionMem.read, hv]
  simp only [if_neg c0]
  by_cases c1 : field = 1
  · simp only [if_pos c1]
    by_cases c : op2.Data.length < 256 ∧ utf8.Valid op2.Data = true
    · simp only [if_pos c, StepExitMem.read, InscriptionMem.read]
    · simp only [if_neg c, StepExitMem.read]
  simp only [if_neg c1]
  by_cases c3 : field = 3
  · simp only [if_pos c3]
    by_cases c : op2.Data.length = 36
    · simp only [if_pos c]
      rcases toArray36 op2.Data with _ | _ | a
      · rfl
      · rfl
      · simp only [StepExitMem.read, InscriptionMem.read]
    · simp only [if_neg c, StepExitMem.read]
  simp only [if_neg c3, StepExitMem.read]

/-- An iteration of the field loop in memory does what the iteration on values does. -/
theorem ordStepMem_read (d : Collaborators) (m : Memory) (scr : View) (pos : Nat)
    (im : InscriptionMem) :
    (ordStepMem d (scr.bytes m) scr pos im).read m
      = ordStep d (scr.bytes m) pos (im.read m) := by
  unfold ordStepMem ordStep
  rcases h1 : ReadOp (scr.bytes m) pos with ⟨_ | op, p1⟩
  · rfl
  simp only
  by_cases c1 : op.Op.val > Op16.val
  · simp only [if_pos c1, StepExitMem.read]
  simp only [if_neg c1]
  rcases h2 : ReadOp (scr.bytes m) p1 with ⟨_ | op2, p2⟩
  · rfl
  simp only
  by_cases c2 : op2.Op.val > Op16.val
  · simp only [if_pos c2, StepExitMem.read]
  simp only [if_neg c2]
  have hv := dataView_bytes m scr h2
  by_cases c3 : op.Op.val > OpPUSHDATA4.val ∧ op.Op.val ≤ Op16.val
  · simp only [if_pos c3]
    exact dispatchMem_read d m im _ op2 _ p2 hv
  simp only [if_neg c3]
  by_cases c4 : op.Data.length = 1
  · simp only [if_pos c4]
    rcases index op.Data 0 with _ | _ | c
    · rfl
    · rfl
    · exact dispatchMem_read d m im _ op2 _ p2 hv
  simp only [if_neg c4]
  by_cases c5 : op.Data.length > 1
  · simp only [if_pos c5]
    rcases d.NewAddressFromString op.Data with _ | add
    · rfl
    · simp only [StepExitMem.read, InscriptionMem.read, Option.map_some', mapSetMem_read, hv]
      rcases im.Bitcom with _ | l
      · rfl
      · rfl
  simp only [if_neg c5]
  exact dispatchMem_read d m im _ op2 _ p2 hv

/-- The field loop in memory does what the field loop on values does. -/
theorem ordLoopMem_read (d : Collaborators) (m : Memory) (scr : View) :
    ∀ (fuel pos : Nat) (im : InscriptionMem),
      (ordLoopMem d (scr.bytes m) scr fuel pos im).read m
        = ordLoop d (scr.bytes m) fuel pos (im.read m) := by
  intro fuel
  induction fuel with
  | zero => intro pos im; rfl
  | succ n ih =>
    intro pos im
    have hs := ordStepMem_read d m scr pos im
    unfold ordLoopMem ordLoop
    rw [← hs]
    rcases ordStepMem d (scr.bytes m) scr pos im with _ | i | ⟨i, p⟩ | ⟨i, p⟩
    · rfl
    · rfl
    · rfl
    · exact ih p i

/-- The slice expression `(*scr)[pos:]` reads the bytes of the script from `pos` on. -/
theorem View.reslice_from_bytes (m : Memory) (scr : View) (pos : Nat) :
    (scr.reslice pos (scr.bytes m).length).bytes m = (scr.bytes m).drop pos := by
  rw [View.reslice_bytes m scr _ _ (le_refl _)]
  apply List.take_of_length_le
  simp

/-- The slice expression `(*scr)[:hi]` reads the first `hi` bytes of the script. -/
theorem View.reslice_to_bytes (m : Memory) (scr : View) (hi : Nat)
    (h : hi ≤ (scr.bytes m).length) :
    (scr.reslice 0 hi).bytes m = (scr.bytes m).take hi := by
  rw [View.reslice_bytes m scr _ _ h]
  simp

/-- The closing step in memory does what the closing step on values does. -/
theorem closingMem_read (m : Memory) (scr : View) (pos : Nat) (im : InscriptionMem) :
    (readResult m (closingMem (scr.bytes m) scr pos im).1,
        (closingMem (scr.bytes m) scr pos im).2)
      = closing (scr.bytes m) pos (im.read m) := by
  unfold closingMem closing
  have key : ∀ p1 : Nat,
      readResult m (match sliceFrom (scr.bytes m) p1 with
        | .done _ => .done (some { im with ScriptSuffix := scr.reslice p1 (scr.bytes m).length })
        | _ => .panic)
      = (match sliceFrom (scr.bytes m) p1 with
        | .done suf => .done (some { im.read m with ScriptSuffix := suf })
        | _ => .panic) := by
    intro p1
    unfold sliceFrom
    by_cases c : p1 ≤ (scr.bytes m).length
    · simp only [if_pos c, readResult, InscriptionMem.read, View.reslice_from_bytes]
    · simp only [if_neg c, readResult]
  rcases ReadOp (scr.bytes m) pos with ⟨_ | op, p1⟩
  · simp only [key]
  · simp only
    by_cases c : op.Op ≠ OpENDIF
    · simp only [if_pos c, key]
    · simp only [if_neg c, readResult]

/-- The envelope block in memory does what the envelope block on values does. -/
theorem envelopeAtMem_read (d : Collaborators) (m : Memory) (scr : View) (startI pos : Nat) :
    (readResult m (envelopeAtMem d (scr.bytes m) scr startI pos).1,
        (envelopeAtMem d (scr.bytes m) scr startI pos).2)
      = envelopeAt d (scr.bytes m) startI pos := by
  unfold envelopeAtMem envelopeAt
  unfold sliceTo
  by_cases c : 0 ≤ (startI : Int) - 2 ∧ (startI : Int) - 2 ≤ ((scr.bytes m).length : Int)
  swap
  · simp only [if_neg c, readResult]
  simp only [if_pos c]
  have e : ((startI : Int) - 2).toNat = startI - 2 := by omega
  have hle : startI - 2 ≤ (scr.bytes m).length := by omega
  have hpre : ({ ScriptPrefix := scr.reslice 0 (startI - 2) } : InscriptionMem).read m
      = { ScriptPrefix := (scr.bytes m).take ((startI : Int) - 2).toNat } := by
    rw [e]
    simp only [InscriptionMem.read, View.reslice_to_bytes m scr _ hle]
    rfl
  have hl := ordLoopMem_read d m scr ((scr.bytes m).length + 1) pos
    { ScriptPrefix := scr.reslice 0 (startI - 2) }
  rw [hpre] at hl
  rw [← hl]
  rcases ordLoopMem d (scr.bytes m) scr ((scr.bytes m).length + 1) pos
      { ScriptPrefix := scr.reslice 0 (startI - 2) } with _ | _ | i | ⟨i, p⟩
  · rfl
  · rfl
  · rfl
  · exact closingMem_read m scr p i

/-- The outer loop in memory does what the outer loop on values does. -/
theorem scanLoopMem_read (d : Collaborators) (m : Memory) (scr : View) :
    ∀ (fuel pos : Nat),
      readResult m (scanLoopMem d (scr.bytes m) scr fuel pos)
        = scanLoop d (scr.bytes m) fuel pos := by
  intro fuel
  induction fuel with
  | zero => intro pos; rfl
  | succ n ih =>
    intro pos
    unfold scanLoopMem scanLoop
    by_cases c : pos < (scr.bytes m).length
    swap
    · simp only [if_neg c, readResult]
    simp only [if_pos c]
    rcases ReadOp (scr.bytes m) pos with ⟨_ | op, p1⟩
    · rfl
    simp only
    rcases isMarker (scr.bytes m) pos p1 op with _ | _ | b
    · rfl
    · rfl
    cases b
    · exact ih p1
    simp only
    have he := envelopeAtMem_read d m scr pos p1
    rw [← he]
    rcases envelopeAtMem d (scr.bytes m) scr pos p1 with ⟨r, p3⟩
    rcases r with _ | _ | r
    · rfl
    · rfl
    rcases r with _ | i
    · exact ih p3
    · rfl

/-- The function `Decode` in memory returns what `Decode` returns on the bytes of the script:
the envelope of the same fields, each slice reading the bytes of the value. -/
theorem DecodeMem_read (d : Collaborators) (m : Memory) (scr : View) :
    readResult m (DecodeMem d m scr) = Decode d (scr.bytes m) :=
  scanLoopMem_read d m scr _ _

/-- The `switch` in memory leaves the prefix and the suffix of the envelope as they are. -/
theorem dispatchMem_frame (d : Collaborators) (im : InscriptionMem) (field : Int)
    (op2 : ScriptChunk) (v2 : View) (pos : Nat) :
    match dispatchMem d im field op2 v2 pos with
    | .panic => True
    | .ret i => i.ScriptPrefix = im.ScriptPrefix ∧ i.ScriptSuffix = im.ScriptSuffix
    | .brk i _ => i.ScriptPrefix = im.ScriptPrefix ∧ i.ScriptSuffix = im.ScriptSuffix
    | .next i _ => i.ScriptPrefix = im.ScriptPrefix ∧ i.ScriptSuffix = im.ScriptSuffix := by
  unfold dispatchMem
  split_ifs
  · exact ⟨rfl, rfl⟩
  · exact ⟨rfl, rfl⟩
  · exact ⟨rfl, rfl⟩
  · rcases toArray36 op2.Data with _ | _ | a
    · trivial
    · trivial
    · exact ⟨rfl, rfl⟩
  · exact ⟨rfl, rfl⟩
  · exact ⟨rfl, rfl⟩

/-- An iteration of the field loop in memory leaves the prefix and the suffix as they are. -/
theorem ordStepMem_frame (d : Collaborators) (b : Script) (scr : View) (pos : Nat)
    (im : InscriptionMem) :
    match ordStepMem d b scr pos im with
    | .panic => True
    | .ret i => i.ScriptPrefix = im.ScriptPrefix ∧ i.ScriptSuffix = im.ScriptSuffix
    | .brk i _ => i.ScriptPrefix = im.ScriptPrefix ∧ i.ScriptSuffix = im.ScriptSuffix
    | .next i _ => i.ScriptPrefix = im.ScriptPrefix ∧ i.ScriptSuffix = im.ScriptSuffix := by
  unfold ordStepMem
  rcases ReadOp b pos with ⟨_ | op, p1⟩
  · exact ⟨rfl, rfl⟩
  simp only
  by_cases c1 : op.Op.val > Op16.val
  · rw [if_pos c1]; exact ⟨rfl, rfl⟩
  simp only [if_neg c1]
  rcases ReadOp b p1 with ⟨_ | op2, p2⟩
  · exact ⟨rfl, rfl⟩
  simp only
  by_cases c2 : op2.Op.val > Op16.val
  · rw [if_pos c2]; exact ⟨rfl, rfl⟩
  simp only [if_neg c2]
  by_cases c3 : op.Op.val > OpPUSHDATA4.val ∧ op.Op.val ≤ Op16.val
  · simp only [if_pos c3]
    exact dispatchMem_frame d im _ op2 _ p2
  simp only [if_neg c3]
  by_cases c4 : op.Data.length = 1
  · simp only [if_pos c4]
    rcases index op.Data 0 with _ | _ | c
    · trivial
    · trivial
    · exact dispatchMem_frame d im _ op2 _ p2
  simp only [if_neg c4]
  by_cases c5 : op.Data.length > 1
  · simp only [if_pos c5]
    rcases d.NewAddressFromString op.Data with _ | add
    · exact ⟨rfl, rfl⟩
    · exact ⟨rfl, rfl⟩
  simp only [if_neg c5]
  exact dispatchMem_frame d im 0 op2 (dataView scr op2 p2) p2

/-- The field loop in memory leaves the prefix and the suffix as they are. -/
theorem ordLoopMem_frame (d : Collaborators) (b : Script) (scr : View) :
    ∀ (fuel pos : Nat) (im : InscriptionMem),
      match ordLoopMem d b scr fuel pos im with
      | .panic => True
      | .outOfFuel => True
      | .ret i => i.ScriptPrefix = im.ScriptPrefix ∧ i.ScriptSuffix = im.ScriptSuffix
      | .brk i _ => i.ScriptPrefix = im.ScriptPrefix ∧ i.ScriptSuffix = im.ScriptSuffix := by
  intro fuel
  induction fuel with
  | zero => intro pos im; trivial
  | succ n ih =>
    intro pos im
    have hs := ordStepMem_frame d b scr pos im
    unfold ordLoopMem
    rcases hstep : ordStepMem d b scr pos im with _ | i | ⟨i, p⟩ | ⟨i, p⟩
    · trivial
    · rw [hstep] at hs; exact hs
    · rw [hstep] at hs; exact hs
    · rw [hstep] at hs
      simp only
      have h2 := ih p i
      rcases hl : ordLoopMem d b scr n p i with _ | _ | j | ⟨j, q⟩
      · trivial
      · trivial
      · rw [hl] at h2
        exact ⟨h2.1.trans hs.1, h2.2.trans hs.2⟩
      · rw [hl] at h2
        exact ⟨h2.1.trans hs.1, h2.2.trans hs.2⟩

/-- An envelope that the envelope block returns has as prefix a window that starts where the
script starts and has the capacity of the script, and as suffix the nil slice or a window of
the script up to its end. -/
theorem envelopeAtMem_views (d : Collaborators) (b : Script) (scr : View) (startI pos p : Nat)
    (e : InscriptionMem) (h : envelopeAtMem d b scr startI pos = (.done (some e), p)) :
    e.ScriptPrefix = scr.reslice 0 (startI - 2)
      ∧ (e.ScriptSuffix = {} ∨ ∃ q, e.ScriptSuffix = scr.reslice q b.length) := by
  unfold envelopeAtMem at h
  rcases hs : sliceTo b ((startI : Int) - 2) with _ | _ | pre
  · rw [hs] at h; simp at h
  · rw [hs] at h; simp at h
  rw [hs] at h
  simp only at h
  have hf := ordLoopMem_frame d b scr (b.length + 1) pos
    { ScriptPrefix := scr.reslice 0 (startI - 2) }
  rcases hl : ordLoopMem d b scr (b.length + 1) pos
      { ScriptPrefix := scr.reslice 0 (startI - 2) } with _ | _ | i | ⟨i, p2⟩
  · rw [hl] at h; simp at h
  · rw [hl] at h; simp at h
  · rw [hl] at h hf
    simp only [Prod.mk.injEq, Run.done.injEq, Option.some.injEq] at h
    obtain ⟨h1, _⟩ := h
    subst h1
    exact ⟨hf.1, Or.inl hf.2⟩
  · rw [hl] at h hf
    simp only at h hf
    unfold closingMem at h
    have key : ∀ p1 : Nat,
        (match sliceFrom b p1 with
          | .done _ => Run.done (some { i with ScriptSuffix := scr.reslice p1 b.length })
          | _ => Run.panic) = .done (some e) →
        e.ScriptPrefix = i.ScriptPrefix ∧ e.ScriptSuffix = scr.reslice p1 b.length := by
      intro p1
      rcases sliceFrom b p1 with _ | _ | suf
      · intro hk; cases hk
      · intro hk; cases hk
      · intro hk
        simp only [Run.done.injEq, Option.some.injEq] at hk
        subst hk
        exact ⟨rfl, rfl⟩
    rcases hr : ReadOp b p2 with ⟨_ | op, p1⟩
    · rw [hr] at h
      simp only [Prod.mk.injEq] at h
      obtain ⟨k1, k2⟩ := key p1 h.1
      exact ⟨k1.trans hf.1, Or.inr ⟨p1, k2⟩⟩
    · rw [hr] at h
      simp only at h
      by_cases c : op.Op ≠ OpENDIF
      · rw [if_pos c] at h
        simp only [Prod.mk.injEq] at h
        obtain ⟨k1, k2⟩ := key p1 h.1
        exact ⟨k1.trans hf.1, Or.inr ⟨p1, k2⟩⟩
      · rw [if_neg c] at h
        simp at h

/-- The prefix and the suffix of every envelope that `Decode` returns are windows of the
backing array of the input script: the prefix starts where the script starts and keeps the
capacity of the script, the suffix (when it is set) ends where the script ends. -/
theorem scanLoopMem_views (d : Collaborators) (b : Script) (scr : View) :
    ∀ (fuel pos : Nat) (e : InscriptionMem), scanLoopMem d b scr fuel pos = .done (some e) →
      (∃ k, e.ScriptPrefix = scr.reslice 0 k)
        ∧ (e.ScriptSuffix = {} ∨ ∃ q, e.ScriptSuffix = scr.reslice q b.length) := by
  intro fuel
  induction fuel with
  | zero => intro pos e h; cases h
  | succ n ih =>
    intro pos e h
    unfold scanLoopMem at h
    by_cases c : pos < b.length
    swap
    · rw [if_neg c] at h; cases h
    rw [if_pos c] at h
    rcases hr : ReadOp b pos with ⟨_ | op, p1⟩
    · rw [hr] at h; cases h
    rw [hr] at h
    simp only at h
    rcases hm : isMarker b pos p1 op with _ | _ | t
    · rw [hm] at h; cases h
    · rw [hm] at h; cases h
    rw [hm] at h
    cases t
    · exact ih p1 e h
    simp only at h
    rcases he : envelopeAtMem d b scr pos p1 with ⟨r, p3⟩
    rw [he] at h
    rcases r with _ | _ | r
    · cases h
    · cases h
    rcases r with _ | i
    · exact ih p3 e h
    · simp only [Run.done.injEq, Option.some.injEq] at h
      subst h
      obtain ⟨k1, k2⟩ := envelopeAtMem_views d b scr pos p1 p3 i he
      exact ⟨⟨_, k1⟩, k2⟩

/-- The prefix and the suffix of every envelope that `Decode` returns are windows of the
backing array of the input script, not copies: the prefix is the slice `scr[0:k]` with the
capacity of the whole script, the suffix is nil or a slice `scr[q:]`. -/
theorem DecodeMem_views (d : Collaborators) (m : Memory) (scr : View) (e : InscriptionMem)
    (h : DecodeMem d m scr = .done (some e)) :
    (∃ k, e.ScriptPrefix = scr.reslice 0 k)
      ∧ (e.ScriptSuffix = {} ∨ ∃ q, e.ScriptSuffix = scr.reslice q (scr.bytes m).length) :=
  scanLoopMem_views d (scr.bytes m) scr _ _ e h

/-- The run of `Lock` on the envelope decoded from `aliasScript`: the memory afterwards (the
input buffer, with the bytes 7 and 10 overwritten in place, and the three arrays that the
appends allocate once the capacity of the input is used up) and the slice returned. -/
theorem Lock_alias (d : Collaborators) :
    InscriptionMem.Lock d aliasMemory (aliasEnvelope d)
      = ([[0x76, 0x00, 0x63, 0x03, 0x6F, 0x72, 0x64, 0x51, 0x01, 0x62, 0x00, 0xAC],
          [0x76, 0x00, 0x63, 0x03, 0x6F, 0x72, 0x64, 0x51, 0x01, 0x62, 0x00, 0x01, 0x62],
          [0x76, 0x00, 0x63, 0x03, 0x6F, 0x72, 0x64, 0x51, 0x01, 0x62, 0x00, 0x01, 0x62, 0x68],
          [0x76, 0x00, 0x63, 0x03, 0x6F, 0x72, 0x64, 0x51, 0x01, 0x62, 0x00, 0x01, 0x62, 0x68,
           0xAC]],
         { arr := 3, off := 0, len := 15, cap := 15 }) := by
  have h1 : AppendOpcodesMem aliasMemory (aliasEnvelope d).ScriptPrefix [Op0, OpIF]
      = ([aliasBuffer], ⟨0, 0, 3, 12⟩) := rfl
  have h2 : AppendPushDataMem [aliasBuffer] ⟨0, 0, 3, 12⟩ ord
      = ([aliasBuffer], ⟨0, 0, 7, 12⟩) := rfl
  have h3 : AppendOpcodesMem [aliasBuffer] ⟨0, 0, 7, 12⟩ [Op1]
      = ([[0x76, 0x00, 0x63, 0x03, 0x6F, 0x72, 0x64, 0x51, 0x01, 0x62, 0x51, 0xAC]],
          ⟨0, 0, 8, 12⟩) := rfl
  have h4 : AppendPushDataView
        [[0x76, 0x00, 0x63, 0x03, 0x6F, 0x72, 0x64, 0x51, 0x01, 0x62, 0x51, 0xAC]]
        ⟨0, 0, 8, 12⟩ (aliasEnvelope d).File.Content
      = ([[0x76, 0x00, 0x63, 0x03, 0x6F, 0x72, 0x64, 0x51, 0x01, 0x62, 0x51, 0xAC]],
          ⟨0, 0, 10, 12⟩) := rfl
  have h5 : lockParent d (aliasEnvelope d).Parent
        [[0x76, 0x00, 0x63, 0x03, 0x6F, 0x72, 0x64, 0x51, 0x01, 0x62, 0x51, 0xAC]] ⟨0, 0, 10, 12⟩
      = ([[0x76, 0x00, 0x63, 0x03, 0x6F, 0x72, 0x64, 0x51, 0x01, 0x62, 0x51, 0xAC]],
          ⟨0, 0, 10, 12⟩) := rfl
  have h6 : lockBitcom ((aliasEnvelope d).Bitcom.getD [])
        [[0x76, 0x00, 0x63, 0x03, 0x6F, 0x72, 0x64, 0x51, 0x01, 0x62, 0x51, 0xAC]] ⟨0, 0, 10, 12⟩
      = ([[0x76, 0x00, 0x63, 0x03, 0x6F, 0x72, 0x64, 0x51, 0x01, 0x62, 0x51, 0xAC]],
          ⟨0, 0, 10, 12⟩) := rfl
  have h7 : AppendOpcodesMem
        [[0x76, 0x00, 0x63, 0x03, 0x6F, 0x72, 0x64, 0x51, 0x01, 0x62, 0x51, 0xAC]]
        ⟨0, 0, 10, 12⟩ [Op0]
      = ([[0x76, 0x00, 0x63, 0x03, 0x6F, 0x72, 0x64, 0x51, 0x01, 0x62, 0x00, 0xAC]],
          ⟨0, 0, 11, 12⟩) := rfl
  have h8 : AppendPushDataView
        [[0x76, 0x00, 0x63, 0x03, 0x6F, 0x72, 0x64, 0x51, 0x01, 0x62, 0x00, 0xAC]]
        ⟨0, 0, 11, 12⟩ (aliasEnvelope d).File.Content
      = ([[0x76, 0x00, 0x63, 0x03, 0x6F, 0x72, 0x64, 0x51, 0x01, 0x62, 0x00, 0xAC],
          [0x76, 0x00, 0x63, 0x03, 0x6F, 0x72, 0x64, 0x51, 0x01, 0x62, 0x00, 0x01, 0x62]],
          ⟨1, 0, 13, 13⟩) := rfl
  have h9 : AppendOpcodesMem
        [[0x76, 0x00, 0x63, 0x03, 0x6F, 0x72, 0x64, 0x51, 0x01, 0x62, 0x00, 0xAC],
         [0x76, 0x00, 0x63, 0x03, 0x6F, 0x72, 0x64, 0x51, 0x01, 0x62, 0x00, 0x01, 0x62]]
        ⟨1, 0, 13, 13⟩ [OpENDIF]
      = ([[0x76, 0x00, 0x63, 0x03, 0x6F, 0x72, 0x64, 0x51, 0x01, 0x62, 0x00, 0xAC],
          [0x76, 0x00, 0x63, 0x03, 0x6F, 0x72, 0x64, 0x51, 0x01, 0x62, 0x00, 0x01, 0x62],
          [0x76, 0x00, 0x63, 0x03, 0x6F, 0x72, 0x64, 0x51, 0x01, 0x62, 0x00, 0x01, 0x62, 0x68]],
          ⟨2, 0, 14, 14⟩) := rfl
  simp only [InscriptionMem.Lock, h1, h2, h3, h4, h5, h6, h7, h8, h9]
  rfl

/-- The run of `Lock` on the envelope decoded from `overlapScript`: the first push of the
content writes `02 61 62` over the bytes 7 to 9 of the input, `OP_0` is written over byte 10,
and the second push of the content reads the window `[9, 11)` of the input after these
writes, `62 00`. -/
theorem Lock_overlap (d : Collaborators) :
    InscriptionMem.Lock d overlapMemory (overlapEnvelope d)
      = ([[0x00, 0x63, 0x03, 0x6F, 0x72, 0x64, 0x51, 0x02, 0x61, 0x62, 0x00],
          [0x00, 0x63, 0x03, 0x6F, 0x72, 0x64, 0x51, 0x02, 0x61, 0x62, 0x00, 0x02, 0x62, 0x00],
          [0x00, 0x63, 0x03, 0x6F, 0x72, 0x64, 0x51, 0x02, 0x61, 0x62, 0x00, 0x02, 0x62, 0x00,
           0x68]],
         { arr := 2, off := 0, len := 15, cap := 15 }) := by
  have h1 : AppendOpcodesMem overlapMemory (overlapEnvelope d).ScriptPrefix [Op0, OpIF]
      = ([overlapBuffer], ⟨0, 0, 2, 11⟩) := rfl
  have h2 : AppendPushDataMem [overlapBuffer] ⟨0, 0, 2, 11⟩ ord
      = ([overlapBuffer], ⟨0, 0, 6, 11⟩) := rfl
  have h3 : AppendOpcodesMem [overlapBuffer] ⟨0, 0, 6, 11⟩ [Op1]
      = ([[0x00, 0x63, 0x03, 0x6F, 0x72, 0x64, 0x51, 0x00, 0x02, 0x61, 0x62]],
          ⟨0, 0, 7, 11⟩) := rfl
  have h4 : AppendPushDataView
        [[0x00, 0x63, 0x03, 0x6F, 0x72, 0x64, 0x51, 0x00, 0x02, 0x61, 0x62]]
        ⟨0, 0, 7, 11⟩ (overlapEnvelope d).File.Content
      = ([[0x00, 0x63, 0x03, 0x6F, 0x72, 0x64, 0x51, 0x02, 0x61, 0x62, 0x62]],
          ⟨0, 0, 10, 11⟩) := rfl
  have h5 : lockParent d (overlapEnvelope d).Parent
        [[0x00, 0x63, 0x03, 0x6F, 0x72, 0x64, 0x51, 0x02, 0x61, 0x62, 0x62]] ⟨0, 0, 10, 11⟩
      = ([[0x00, 0x63, 0x03, 0x6F, 0x72, 0x64, 0x51, 0x02, 0x61, 0x62, 0x62]],
          ⟨0, 0, 10, 11⟩) := rfl
  have h6 : lockBitcom ((overlapEnvelope d).Bitcom.getD [])
        [[0x00, 0x63, 0x03, 0x6F, 0x72, 0x64, 0x51, 0x02, 0x61, 0x62, 0x62]] ⟨0, 0, 10, 11⟩
      = ([[0x00, 0x63, 0x03, 0x6F, 0x72, 0x64, 0x51, 0x02, 0x61, 0x62, 0x62]],
          ⟨0, 0, 10, 11⟩) := rfl
  have h7 : AppendOpcodesMem
        [[0x00, 0x63, 0x03, 0x6F, 0x72, 0x64, 0x51, 0x02, 0x61, 0x62, 0x62]]
        ⟨0, 0, 10, 11⟩ [Op0]
      = ([[0x00, 0x63, 0x03, 0x6F, 0x72, 0x64, 0x51, 0x02, 0x61, 0x62, 0x00]],
          ⟨0, 0, 11, 11⟩) := rfl
  have h8 : AppendPushDataView
        [[0x00, 0x63, 0x03, 0x6F, 0x72, 0x64, 0x51, 0x02, 0x61, 0x62, 0x00]]
        ⟨0, 0, 11, 11⟩ (overlapEnvelope d).File.Content
      = ([[0x00, 0x63, 0x03, 0x6F, 0x72, 0x64, 0x51, 0x02, 0x61, 0x62, 0x00],
          [0x00, 0x63, 0x03, 0x6F, 0x72, 0x64, 0x51, 0x02, 0x61, 0x62, 0x00, 0x02, 0x62, 0x00]],
          ⟨1, 0, 14, 14⟩) := rfl
  have h9 : AppendOpcodesMem
        [[0x00, 0x63, 0x03, 0x6F, 0x72, 0x64, 0x51, 0x02, 0x61, 0x62, 0x00],
         [0x00, 0x63, 0x03, 0x6F, 0x72, 0x64, 0x51, 0x02, 0x61, 0x62, 0x00, 0x02, 0x62, 0x00]]
        ⟨1, 0, 14, 14⟩ [OpENDIF]
      = ([[0x00, 0x63, 0x03, 0x6F, 0x72, 0x64, 0x51, 0x02, 0x61, 0x62, 0x00],
          [0x00, 0x63, 0x03, 0x6F, 0x72, 0x64, 0x51, 0x02, 0x61, 0x62, 0x00, 0x02, 0x62, 0x00],
          [0x00, 0x63, 0x03, 0x6F, 0x72, 0x64, 0x51, 0x02, 0x61, 0x62, 0x00, 0x02, 0x62, 0x00,
           0x68]],
          ⟨2, 0, 15, 15⟩) := rfl
  simp only [InscriptionMem.Lock, h1, h2, h3, h4, h5, h6, h7, h8, h9]
  rfl

/-! ## `Lock` on an envelope whose prefix has no spare capacity -/

theorem writeAt_nil (a : List Byte) (pos : Nat) : writeAt a pos [] = a := by
  simp [writeAt]

theorem set_getD_self (m : Memory) (k : Nat) : m.set k (m.getD k []) = m := by
  induction m generalizing k with
  | nil => rfl
  | cons a t ih =>
    cases k with
    | zero => rfl
    | succ n =>
      simp only [List.set_cons_succ, List.getD_cons_succ, ih]

/-- A stable slice reads the same bytes after new arrays were added to the memory. -/
theorem View.Stable.bytes_append {m : Memory} {v : View} (h : v.Stable m) (ex : Memory) :
    v.bytes (m ++ ex) = v.bytes m := by
  rcases h with h | h
  · simp only [View.bytes, List.getD_eq_getElem?_getD, List.getElem?_append_left h]
  · simp only [View.bytes, h, List.take_zero]

/-- An append to a slice without spare capacity writes nothing into the arrays that exist: it
allocates a new array (or, for no elements, does nothing). -/
theorem goAppend_fresh {m0 : Memory} {m : Memory} {s : View} {val : List Byte}
    (h : Fresh m0 (m, s) val) (xs : List Byte) :
    Fresh m0 (goAppend m s xs) (val ++ xs) := by
  obtain ⟨⟨ex, hm⟩, hc, hb⟩ := h
  simp only at hm hc hb
  unfold goAppend
  by_cases c : s.len + xs.length ≤ s.cap
  · rw [if_pos c]
    have hx : xs = [] := by
      apply List.eq_nil_of_length_eq_zero
      omega
    subst hx
    refine ⟨⟨ex, ?_⟩, ?_, ?_⟩
    · simp only [writeAt_nil, set_getD_self, hm]
    · simp only [List.length_nil, Nat.add_zero]; exact hc
    · simp only [writeAt_nil, set_getD_self, List.length_nil, Nat.add_zero, List.append_nil]
      exact hb
  · rw [if_neg c]
    refine ⟨⟨ex ++ [s.bytes m ++ xs], ?_⟩, le_refl _, ?_⟩
    · simp only [hm, List.append_assoc]
    · have hl := View.bytes_length_le m s
      have hg : (m ++ [s.bytes m ++ xs]).getD m.length [] = s.bytes m ++ xs := by
        simp [List.getD_eq_getElem?_getD]
      show ((List.getD (m ++ [s.bytes m ++ xs]) m.length []).drop 0).take (s.len + xs.length)
        = val ++ xs
      rw [hg, List.drop_zero, List.take_of_length_le, hb]
      simp only [List.length_append]
      omega

theorem AppendOpcodesMem_fresh {m0 : Memory} {m : Memory} {s : View} {val : List Byte}
    (h : Fresh m0 (m, s) val) (oo : List Byte) :
    Fresh m0 (AppendOpcodesMem m s oo) (AppendOpcodes val oo) := by
  unfold AppendOpcodesMem AppendOpcodes
  split_ifs
  · exact h
  · exact goAppend_fresh h oo

theorem AppendPushDataMem_fresh {m0 : Memory} {m : Memory} {s : View} {val : List Byte}
    (h : Fresh m0 (m, s) val) (dat : List Byte) :
    Fresh m0 (AppendPushDataMem m s dat) (AppendPushData val dat) := by
  unfold AppendPushDataMem AppendPushData pushData
  rcases PushDataPrefix dat with _ | p
  · simpa using h
  · exact goAppend_fresh h (p ++ dat)

theorem AppendPushDataView_fresh {m0 : Memory} {m : Memory} {s : View} {val : List Byte}
    (h : Fresh m0 (m, s) val) {v : View} (hv : v.Stable m0) :
    Fresh m0 (AppendPushDataView m s v) (AppendPushData val (v.bytes m0)) := by
  obtain ⟨ex, hm⟩ := h.1
  simp only at hm
  have e0 : v.bytes m = v.bytes m0 := by rw [hm]; exact hv.bytes_append ex
  unfold AppendPushDataView
  rw [e0]
  exact AppendPushDataMem_fresh h _

theorem lockParent_fresh (d : Collaborators) {m0 : Memory} {m : Memory} {s : View}
    {val : List Byte} (h : Fresh m0 (m, s) val) (parent : Option overlay.Outpoint) :
    Fresh m0 (lockParent d parent m s)
      (match parent with
        | some p => AppendPushData (AppendOpcodes val [Op3]) (d.OutpointBytes p)
        | none => val) := by
  unfold lockParent
  rcases parent with _ | p
  · exact h
  · simp only
    have h1 := AppendOpcodesMem_fresh h [Op3]
    rcases e1 : AppendOpcodesMem m s [Op3] with ⟨m1, s1⟩
    rw [e1] at h1
    simp only [e1]
    exact AppendPushDataMem_fresh h1 _

theorem lockBitcom_fresh {m0 : Memory} :
    ∀ (l : List (List Byte × View)) (m : Memory) (s : View) (val : List Byte),
      Fresh m0 (m, s) val → (∀ kv ∈ l, kv.2.Stable m0) →
      Fresh m0 (lockBitcom l m s)
        ((l.map (fun kv => (kv.1, kv.2.bytes m0))).foldl
          (fun s kv => AppendPushData (AppendPushData s kv.1) kv.2) val) := by
  intro l
  induction l with
  | nil => intro m s val h _; exact h
  | cons kv rest ih =>
    intro m s val h hst
    have h1 := AppendPushDataMem_fresh h kv.1
    rcases e1 : AppendPushDataMem m s kv.1 with ⟨m1, s1⟩
    rw [e1] at h1
    have h2 := AppendPushDataView_fresh h1 (hst kv (List.mem_cons_self _ _))
    rcases e2 : AppendPushDataView m1 s1 kv.2 with ⟨m2, s2⟩
    rw [e2] at h2
    simp only [lockBitcom, e1, e2, List.map_cons, List.foldl_cons]
    exact ih m2 s2 _ h2 (fun x hx => hst x (List.mem_cons_of_mem _ hx))

theorem lockBitcom_fresh_map {m0 : Memory} (ob : Option (List (List Byte × View)))
    {m : Memory} {s : View} {val : List Byte} (h : Fresh m0 (m, s) val)
    (hst : ∀ kv ∈ ob.getD [], kv.2.Stable m0) :
    Fresh m0 (lockBitcom (ob.getD []) m s)
      (match ob.map (fun l => l.map (fun kv => (kv.1, kv.2.bytes m0))) with
        | some l => l.foldl (fun s kv => AppendPushData (AppendPushData s kv.1) kv.2) val
        | none => val) := by
  rcases ob with _ | l
  · exact h
  · exact lockBitcom_fresh l m s val h hst

/-- `Lock` in memory on an envelope whose `ScriptPrefix` has no spare capacity and whose other
slices are slices of the memory `m0`: every array of `m0` is left as it is (the memory
afterwards is `m0` followed by new arrays), and the script returned reads the bytes that the
encoder gives for the values of the envelope. -/
theorem Lock_fresh (d : Collaborators) (m0 : Memory) (i : InscriptionMem)
    (h0 : i.ScriptPrefix.cap ≤ i.ScriptPrefix.len) (hc : i.File.Content.Stable m0)
    (hs : i.ScriptSuffix.Stable m0) (hb : ∀ kv ∈ i.Bitcom.getD [], kv.2.Stable m0) :
    Fresh m0 (i.Lock d m0) ((i.read m0).Lock d) := by
  have f0 : Fresh m0 (m0, i.ScriptPrefix) (i.ScriptPrefix.bytes m0) :=
    ⟨⟨[], by simp⟩, h0, rfl⟩
  have f1 := AppendOpcodesMem_fresh f0 [Op0, OpIF]
  rcases e1 : AppendOpcodesMem m0 i.ScriptPrefix [Op0, OpIF] with ⟨m1, s1⟩
  rw [e1] at f1
  have f2 := AppendPushDataMem_fresh f1 ord
  rcases e2 : AppendPushDataMem m1 s1 ord with ⟨m2, s2⟩
  rw [e2] at f2
  have f3 := AppendOpcodesMem_fresh f2 [Op1]
  rcases e3 : AppendOpcodesMem m2 s2 [Op1] with ⟨m3, s3⟩
  rw [e3] at f3
  have f4 := AppendPushDataView_fresh f3 hc
  rcases e4 : AppendPushDataView m3 s3 i.File.Content with ⟨m4, s4⟩
  rw [e4] at f4
  have f5 := lockParent_fresh d f4 i.Parent
  rcases e5 : lockParent d i.Parent m4 s4 with ⟨m5, s5⟩
  rw [e5] at f5
  have f6 := lockBitcom_fresh_map i.Bitcom f5 hb
  rcases e6 : lockBitcom (i.Bitcom.getD []) m5 s5 with ⟨m6, s6⟩
  rw [e6] at f6
  have f7 := AppendOpcodesMem_fresh f6 [Op0]
  rcases e7 : AppendOpcodesMem m6 s6 [Op0] with ⟨m7, s7⟩
  rw [e7] at f7
  have f8 := AppendPushDataView_fresh f7 hc
  rcases e8 : AppendPushDataView m7 s7 i.File.Content with ⟨m8, s8⟩
  rw [e8] at f8
  have f9 := AppendOpcodesMem_fresh f8 [OpENDIF]
  rcases e9 : AppendOpcodesMem m8 s8 [OpENDIF] with ⟨m9, s9⟩
  rw [e9] at f9
  have f10 := goAppend_fresh f9 (i.ScriptSuffix.bytes m9)
  obtain ⟨ex9, hm9⟩ := f9.1
  simp only at hm9
  have es : i.ScriptSuffix.bytes m9 = i.ScriptSuffix.bytes m0 := by
    rw [hm9]; exact hs.bytes_append ex9
  rw [es] at f10
  simp only [InscriptionMem.Lock, e1, e2, e3, e4, e5, e6, e7, e8, e9, es]
  exact f10

/-! ## Where `Decode` panics -/

theorem index_some {s : List Byte} {i : Int} (h0 : 0 ≤ i) (h1 : i.toNat < s.length) :
    ∃ b, index s i = .done b := by
  unfold index
  rw [if_pos h0, List.getElem?_eq_getElem h1]
  exact ⟨_, rfl⟩

/-- From position 2 on the marker condition is evaluated without a panic. -/
theorem isMarker_ne_panic {s : Script} {startI : Nat} (pos : Nat) (op : ScriptChunk)
    (h2 : 2 ≤ startI) (hl : startI < s.length) : isMarker s startI pos op ≠ .panic := by
  unfold isMarker
  obtain ⟨b0, e0⟩ := index_some (s := s) (i := (startI : Int) - 2) (by omega) (by omega)
  obtain ⟨b1, e1⟩ := index_some (s := s) (i := (startI : Int) - 1) (by omega) (by omega)
  simp only [e0, e1]
  split_ifs <;> simp

/-- Below position 2 the marker condition panics as soon as the instruction is the push of
`"ord"`. -/
theorem isMarker_low {s : Script} {startI : Nat} (pos : Nat) (op : ScriptChunk)
    (h2 : startI < 2) :
    isMarker s startI pos op
      = if pos > 2 ∧ op.Op = OpDATA3 ∧ op.Data = ord then .panic else .done false := by
  unfold isMarker
  have e : index s ((startI : Int) - 2) = .panic := by
    unfold index
    rw [if_neg (by omega)]
  rw [e]

/-- An iteration of the field loop never panics. -/
theorem ordStep_ne_panic (d : Collaborators) (s : Script) (pos : Nat) (i : Inscription) :
    ordStep d s pos i ≠ .panic := by
  rcases ordStep_cases d s pos i with h | h | ⟨_, _, _, _, _, _, _, _, ⟨_, h, _⟩ | ⟨_, h, _⟩⟩
  · rw [h]; simp
  · exfalso
    revert h
    unfold ordStep
    rcases ReadOp s pos with ⟨_ | op, p1⟩
    · simp
    simp only
    by_cases c1 : op.Op.val > Op16.val
    · rw [if_pos c1]; simp
    rw [if_neg c1]
    rcases ReadOp s p1 with ⟨_ | op2, p2⟩
    · simp
    simp only
    by_cases c2 : op2.Op.val > Op16.val
    · rw [if_pos c2]; simp
    rw [if_neg c2]
    have hd : ∀ field : Int, dispatch d i field op2 p2 ≠ .panic := by
      intro field
      rcases dispatch_cases d i field op2 p2 with ⟨_, _, h, _⟩ | ⟨_, _, h, _⟩ <;> rw [h] <;> simp
    by_cases c3 : op.Op.val > OpPUSHDATA4.val ∧ op.Op.val ≤ Op16.val
    · rw [if_pos c3]; exact hd _
    rw [if_neg c3]
    by_cases c4 : op.Data.length = 1
    · rw [if_pos c4]
      obtain ⟨b, hb⟩ : ∃ b, op.Data = [b] := List.length_eq_one.mp c4
      rw [hb]
      exact hd _
    rw [if_neg c4]
    by_cases c5 : op.Data.length > 1
    · rw [if_pos c5]
      rcases d.NewAddressFromString op.Data with _ | add <;> simp
    rw [if_neg c5]
    exact hd _
  · rw [h]; simp
  · rw [h]; simp

/-- The field loop never panics. -/
theorem ordLoop_ne_panic (d : Collaborators) (s : Script) :
    ∀ (fuel pos : Nat) (i : Inscription), ordLoop d s fuel pos i ≠ .panic := by
  intro fuel
  induction fuel with
  | zero => intro pos i; simp [ordLoop]
  | succ n ih =>
    intro pos i
    have hs := ordStep_ne_panic d s pos i
    unfold ordLoop
    rcases hstep : ordStep d s pos i with _ | j | ⟨j, q⟩ | ⟨j, q⟩
    · exact absurd hstep hs
    · simp
    · simp
    · exact ih q j

/-- A failed read inside the script leaves the read position inside the script. -/
theorem ReadOp_none_bounds {s : Script} {pos p1 : Nat} (h : ReadOp s pos = (none, p1))
    (hp : pos ≤ s.length) : p1 ≤ s.length := by
  unfold ReadOp at h
  split at h
  · simp only [Prod.mk.injEq, true_and] at h
    omega
  · split_ifs at h <;> simp only [Prod.mk.injEq] at h <;>
      first
        | (exfalso; exact Option.noConfusion h.1)
        | (obtain ⟨_, h2⟩ := h; omega)

/-- The closing step, started inside the script, never panics. -/
theorem closing_ne_panic (s : Script) (pos : Nat) (i : Inscription) (hp : pos ≤ s.length) :
    (closing s pos i).1 ≠ .panic := by
  unfold closing
  rcases hr : ReadOp s pos with ⟨_ | op, p1⟩
  · have hb := ReadOp_none_bounds hr hp
    simp only [sliceFrom, if_pos hb]
    simp
  · have hb := (ReadOp_some_bounds hr).2
    simp only [sliceFrom, if_pos hb]
    split_ifs <;> simp

/-- The envelope block, entered at a marker that starts at position 2 or later, never
panics. -/
theorem envelopeAt_ne_panic (d : Collaborators) (s : Script) (startI pos : Nat)
    (h2 : 2 ≤ startI) (hl : startI ≤ s.length) (hp : pos ≤ s.length) :
    (envelopeAt d s startI pos).1 ≠ .panic := by
  unfold envelopeAt
  have e : sliceTo s ((startI : Int) - 2) = .done (s.take ((startI : Int) - 2).toNat) := by
    unfold sliceTo
    rw [if_pos (by omega)]
  rw [e]
  simp only
  have hf := ordLoop_fuel d s (s.length + 1) pos
    { ScriptPrefix := s.take ((startI : Int) - 2).toNat } hp (by omega)
  rcases hloop : ordLoop d s (s.length + 1) pos
      { ScriptPrefix := s.take ((startI : Int) - 2).toNat } with _ | _ | j | ⟨j, q⟩
  · exact absurd hloop (ordLoop_ne_panic d s _ _ _)
  · simp
  · simp
  · simp only
    have := (hf.2 j q hloop).2
    exact closing_ne_panic s q j this

/-- From position 2 on the outer loop never panics. -/
theorem scanLoop_ne_panic (d : Collaborators) (s : Script) :
    ∀ (fuel pos : Nat), 2 ≤ pos → scanLoop d s fuel pos ≠ .panic := by
  intro fuel
  induction fuel with
  | zero => intro pos _; simp [scanLoop]
  | succ n ih =>
    intro pos h2
    rw [scanLoop_succ]
    by_cases hlt : pos < s.length
    swap
    · rw [if_neg hlt]; simp
    rw [if_pos hlt]
    rcases hr : ReadOp s pos with ⟨_ | op, pos1⟩
    · simp
    simp only
    have hb := ReadOp_some_bounds hr
    rcases hm : isMarker s pos pos1 op with _ | _ | b
    · exact absurd hm (isMarker_ne_panic pos1 op h2 hlt)
    · simp
    cases b with
    | false => exact ih pos1 (by omega)
    | true =>
      simp only
      have hne := envelopeAt_ne_panic d s pos pos1 h2 (by omega) hb.2
      rcases he : envelopeAt d s pos pos1 with ⟨r, p3⟩
      rw [he] at hne
      obtain ⟨_, e2⟩ := envelopeAt_bounds he hb.2
      rcases r with _ | _ | o
      · exact absurd rfl hne
      · simp
      · cases o with
        | none =>
          have := e2 rfl
          exact ih p3 (by omega)
        | some e => simp

theorem ordPushAt_iff {s : Script} {pos p1 : Nat} {op : ScriptChunk}
    (hr : ReadOp s pos = (some op, p1)) :
    ordPushAt s pos = true ↔ (p1 > 2 ∧ op.Op = OpDATA3 ∧ op.Data = ord) := by
  unfold ordPushAt
  rw [decide_eq_true_iff, hr]
  constructor
  · intro h
    simp only [Prod.mk.injEq, Option.some.injEq] at h
    obtain ⟨h1, h2⟩ := h
    subst h1
    exact ⟨by omega, rfl, rfl⟩
  · rintro ⟨_, h3, h4⟩
    obtain ⟨_, e, _⟩ := ReadOp_data3 hr h3
    rw [e]
    rcases op with ⟨o, dat⟩
    simp only at h3 h4
    rw [h3, h4]

theorem ordPushAt_none {s : Script} {pos p1 : Nat} (hr : ReadOp s pos = (none, p1)) :
    ordPushAt s pos = false := by
  unfold ordPushAt
  rw [decide_eq_false_iff_not, hr]
  simp

/-- The scan from position 1, reached after a first instruction of one byte: it panics exactly
when the instruction at position 1 is the push of `"ord"`. -/
theorem scanLoop_one_panic_iff (d : Collaborators) (s : Script) (n : Nat) :
    scanLoop d s (n + 1) 1 = .panic ↔ ordPushAt s 1 = true := by
  rw [scanLoop_succ]
  by_cases hlt : 1 < s.length
  swap
  · rw [if_neg hlt]
    have hr : ReadOp s 1 = (none, 1) := by
      unfold ReadOp
      rw [List.getElem?_eq_none (by omega)]
    rw [ordPushAt_none hr]
    simp
  rw [if_pos hlt]
  rcases hr : ReadOp s 1 with ⟨_ | op, p2⟩
  · rw [ordPushAt_none hr]
    simp
  simp only
  rw [ordPushAt_iff hr, isMarker_low p2 op (by omega)]
  by_cases c : p2 > 2 ∧ op.Op = OpDATA3 ∧ op.Data = ord
  · rw [if_pos c]
    simp only [c, and_self]
  · rw [if_neg c]
    simp only
    have hb := ReadOp_some_bounds hr
    constructor
    · intro h
      exact absurd h (scanLoop_ne_panic d s n p2 (by omega))
    · intro h
      exact absurd h c

/-- Where `Decode` panics: exactly on the scripts in which the push of `"ord"` is read at
position 0 or at position 1. -/
theorem Decode_panic_iff (d : Collaborators) (s : Script) :
    Decode d s = .panic ↔ leadingOrd s = true := by
  unfold Decode leadingOrd
  rw [scanLoop_succ]
  by_cases hlt : 0 < s.length
  swap
  · rw [if_neg hlt]
    have hr : ReadOp s 0 = (none, 0) := by
      unfold ReadOp
      rw [List.getElem?_eq_none (by omega)]
    rw [ordPushAt_none hr, hr]
    simp
  rw [if_pos hlt]
  rcases hr : ReadOp s 0 with ⟨_ | op, p1⟩
  · rw [ordPushAt_none hr]
    simp
  simp only
  have hb := ReadOp_some_bounds hr
  rw [isMarker_low p1 op (by omega)]
  by_cases c : p1 > 2 ∧ op.Op = OpDATA3 ∧ op.Data = ord
  · rw [if_pos c, (ordPushAt_iff hr).mpr c]
    simp
  · rw [if_neg c]
    have e0 : ordPushAt s 0 = false := by
      rcases h : ordPushAt s 0 with _ | _
      · rfl
      · exact absurd ((ordPushAt_iff hr).mp h) c
    rw [e0]
    simp only [Bool.false_or, Bool.and_eq_true, decide_eq_true_eq]
    by_cases h1 : p1 = 1
    · subst h1
      obtain ⟨n, hn⟩ : ∃ n, s.length = n + 1 := ⟨s.length - 1, by omega⟩
      rw [hn, scanLoop_one_panic_iff]
      simp
    · constructor
      · intro h
        exact absurd h (scanLoop_ne_panic d s _ p1 (by omega))
      · rintro ⟨h, _⟩
        exact absurd h h1

/-- On every script in which the push of `"ord"` is not read at position 0 or 1, `Decode`
returns: the outcome is a result, `nil` or an envelope. -/
theorem Decode_returns (d : Collaborators) (s : Script) (h : leadingOrd s = false) :
    ∃ r, Decode d s = .done r := by
  rcases hd : Decode d s with _ | _ | r
  · have := (Decode_panic_iff d s).mp hd
    rw [h] at this
    cases this
  · exact absurd hd (Decode_fuel d s)
  · exact ⟨r, rfl⟩

/-! ## An instruction depends on its own bytes only -/

theorem getD_shift (x b : List Byte) (k : Nat) :
    (x ++ b).getD (x.length + k) 0 = b.getD k 0 := by
  simp only [List.getD_eq_getElem?_getD]
  rw [List.getElem?_append_right (Nat.le_add_right _ _), Nat.add_sub_cancel_left]

theorem leUint_shift (x b : List Byte) :
    ∀ (n k : Nat), leUint (x ++ b) (x.length + k) n = leUint b k n := by
  intro n
  induction n with
  | zero => intro k; rfl
  | succ n ih =>
    intro k
    simp only [leUint]
    rw [getD_shift, Nat.add_assoc, ih (k + 1)]

theorem subslice_shift (x b : List Byte) (lo l : Nat) :
    subslice (x ++ b) (x.length + lo) l = subslice b lo l := by
  simp only [subslice, List.drop_append]

/-- Reading in `x ++ b` at a position inside `b` is reading in `b`, with the read position
moved by the length of `x`. -/
theorem ReadOp_shift (x b : Script) (k : Nat) :
    ReadOp (x ++ b) (x.length + k) = ((ReadOp b k).1, x.length + (ReadOp b k).2) := by
  unfold ReadOp
  rw [List.getElem?_append_right (Nat.le_add_right _ _), Nat.add_sub_cancel_left]
  rcases b[k]? with _ | c
  · rfl
  simp only [List.length_append]
  have e1 : ∀ n, leUint (x ++ b) (x.length + k + 1) n = leUint b (k + 1) n := by
    intro n
    rw [Nat.add_assoc]
    exact leUint_shift x b n (k + 1)
  have e2 : ∀ j l, subslice (x ++ b) (x.length + k + j) l = subslice b (k + j) l := by
    intro j l
    rw [Nat.add_assoc]
    exact subslice_shift x b (k + j) l
  simp only [e1, e2]
  split_ifs <;> first
    | rfl
    | (exfalso; omega)
    | (simp only [Prod.mk.injEq, true_and]; omega)

theorem getElem?_agree {s t : List Byte} {p1 k : Nat} (ht : t.take p1 = s.take p1)
    (hk : k < p1) : t[k]? = s[k]? := by
  have h := congrArg (fun l => l[k]?) ht
  simp only [List.getElem?_take, if_pos hk] at h
  exact h

theorem leUint_agree {s t : List Byte} {p1 : Nat} (ht : t.take p1 = s.take p1) :
    ∀ (n pos : Nat), pos + n ≤ p1 → leUint t pos n = leUint s pos n := by
  intro n
  induction n with
  | zero => intro pos _; rfl
  | succ n ih =>
    intro pos h
    simp only [leUint, List.getD_eq_getElem?_getD]
    rw [getElem?_agree ht (by omega : pos < p1), ih (pos + 1) (by omega)]

theorem subslice_agree {s t : List Byte} {p1 : Nat} (ht : t.take p1 = s.take p1) (lo l : Nat)
    (h : lo + l ≤ p1) : subslice t lo l = subslice s lo l := by
  have key : ∀ u : List Byte, subslice u lo l = ((u.take p1).drop lo).take l := by
    intro u
    simp only [subslice, List.drop_take, List.take_take]
    congr 1
    omega
  rw [key t, key s, ht]

/-- An instruction that is read in `s` and ends at `p1` is read in every script that has the
same first `p1` bytes. -/
theorem ReadOp_agree {s t : Script} {pos p1 : Nat} {op : ScriptChunk}
    (h : ReadOp s pos = (some op, p1)) (ht : t.take p1 = s.take p1) (hl : p1 ≤ t.length) :
    ReadOp t pos = (some op, p1) := by
  have hb := ReadOp_some_bounds h
  have hc := ReadOp_some_op h
  have hct : t[pos]? = some op.Op := by rw [getElem?_agree ht hb.1, hc]
  rw [ReadOp, hc] at h
  rw [ReadOp, hct]
  simp only at h ⊢
  by_cases c1 : op.Op = OpPUSHDATA1
  · rw [if_pos c1] at h ⊢
    by_cases c2 : s.length < pos + 2
    · rw [if_pos c2] at h; exact absurd (congrArg Prod.fst h) (by simp)
    rw [if_neg c2] at h
    by_cases c3 : s.length < pos + 2 + leUint s (pos + 1) 1
    · rw [if_pos c3] at h; exact absurd (congrArg Prod.fst h) (by simp)
    rw [if_neg c3] at h
    have hp : pos + 2 + leUint s (pos + 1) 1 = p1 := congrArg Prod.snd h
    rw [leUint_agree ht 1 (pos + 1) (by omega), if_neg (by omega), if_neg (by omega),
      subslice_agree ht _ _ (by omega)]
    exact h
  rw [if_neg c1] at h ⊢
  by_cases c1 : op.Op = OpPUSHDATA2
  · rw [if_pos c1] at h ⊢
    by_cases c2 : s.length < pos + 3
    · rw [if_pos c2] at h; exact absurd (congrArg Prod.fst h) (by simp)
    rw [if_neg c2] at h
    by_cases c3 : s.length < pos + 3 + leUint s (pos + 1) 2
    · rw [if_pos c3] at h; exact absurd (congrArg Prod.fst h) (by simp)
    rw [if_neg c3] at h
    have hp : pos + 3 + leUint s (pos + 1) 2 = p1 := congrArg Prod.snd h
    rw [leUint_agree ht 2 (pos + 1) (by omega), if_neg (by omega), if_neg (by omega),
      subslice_agree ht _ _ (by omega)]
    exact h
  rw [if_neg c1] at h ⊢
  by_cases c1 : op.Op = OpPUSHDATA4
  · rw [if_pos c1] at h ⊢
    by_cases c2 : s.length < pos + 5
    · rw [if_pos c2] at h; exact absurd (congrArg Prod.fst h) (by simp)
    rw [if_neg c2] at h
    by_cases c3 : s.length < pos + 5 + leUint s (pos + 1) 4
    · rw [if_pos c3] at h; exact absurd (congrArg Prod.fst h) (by simp)
    rw [if_neg c3] at h
    have hp : pos + 5 + leUint s (pos + 1) 4 = p1 := congrArg Prod.snd h
    rw [leUint_agree ht 4 (pos + 1) (by omega), if_neg (by omega), if_neg (by omega),
      subslice_agree ht _ _ (by omega)]
    exact h
  rw [if_neg c1] at h ⊢
  by_cases c1 : 1 ≤ op.Op.val ∧ op.Op.val < OpPUSHDATA1.val
  · rw [if_pos c1] at h ⊢
    by_cases c2 : s.length < pos + (1 + op.Op.val)
    · rw [if_pos c2] at h; exact absurd (congrArg Prod.fst h) (by simp)
    rw [if_neg c2] at h
    have hp : pos + (1 + op.Op.val) = p1 := congrArg Prod.snd h
    rw [if_neg (by omega), subslice_agree ht _ _ (by omega)]
    exact h
  rw [if_neg c1] at h ⊢
  exact h

/-- Reading in `a ++ y` an instruction that lies inside `a`. -/
theorem ReadOp_local {a b y : Script} {pos p1 : Nat} {op : ScriptChunk}
    (h : ReadOp (a ++ b) pos = (some op, p1)) (hp : p1 ≤ a.length) :
    ReadOp (a ++ y) pos = (some op, p1) := by
  apply ReadOp_agree h
  · rw [List.take_append_of_le_length hp, List.take_append_of_le_length hp]
  · rw [List.length_append]; omega

theorem index_agree {s t : List Byte} {p1 : Nat} (ht : t.take p1 = s.take p1) (j : Int)
    (hj : j < (p1 : Int)) : index t j = index s j := by
  unfold index
  by_cases h0 : 0 ≤ j
  · rw [if_pos h0, if_pos h0, getElem?_agree ht (by omega : j.toNat < p1)]
  · rw [if_neg h0, if_neg h0]

/-- The marker condition at `startI` depends on the bytes before `startI` only. -/
theorem isMarker_agree {s t : Script} {p1 : Nat} (ht : t.take p1 = s.take p1) (startI pos : Nat)
    (op : ScriptChunk) (hs : startI ≤ p1) :
    isMarker t startI pos op = isMarker s startI pos op := by
  unfold isMarker
  rw [index_agree ht ((startI : Int) - 2) (by omega),
    index_agree ht ((startI : Int) - 1) (by omega)]

theorem take_agree {s t : List Byte} {p1 q : Nat} (ht : t.take p1 = s.take p1) (hq : q ≤ p1) :
    t.take q = s.take q := by
  have h := congrArg (List.take q) ht
  simp only [List.take_take] at h
  rw [Nat.min_eq_left hq] at h
  exact h

/-- The first marker lies after the position where the scan starts. -/
theorem firstMarker_bounds (s : Script) :
    ∀ (fuel pos startI pos0 : Nat), firstMarker s fuel pos = .done (some (startI, pos0)) →
      pos ≤ startI ∧ startI < pos0 ∧ pos0 ≤ s.length := by
  intro fuel
  induction fuel with
  | zero => intro pos startI pos0 h; cases h
  | succ n ih =>
    intro pos startI pos0 h
    unfold firstMarker at h
    by_cases hlt : pos < s.length
    swap
    · rw [if_neg hlt] at h; cases h
    rw [if_pos hlt] at h
    rcases hr : ReadOp s pos with ⟨_ | op, p1⟩
    · rw [hr] at h; cases h
    rw [hr] at h
    simp only at h
    have hb := ReadOp_some_bounds hr
    rcases hm : isMarker s pos p1 op with _ | _ | b
    · rw [hm] at h; cases h
    · rw [hm] at h; cases h
    rw [hm] at h
    cases b with
    | false =>
      have := ih p1 startI pos0 h
      omega
    | true =>
      simp only [Run.done.injEq, Option.some.injEq, Prod.mk.injEq] at h
      obtain ⟨h1, h2⟩ := h
      subst h1 h2
      exact ⟨le_refl _, hb.1, hb.2⟩

/-- The scan up to the first marker depends on the bytes up to the end of the marker only,
and more fuel does not change it. -/
theorem firstMarker_agree {s t : Script} :
    ∀ (fuel pos startI pos0 : Nat), firstMarker s fuel pos = .done (some (startI, pos0)) →
      t.take pos0 = s.take pos0 → pos0 ≤ t.length → ∀ fuel1, fuel ≤ fuel1 →
      firstMarker t fuel1 pos = .done (some (startI, pos0)) := by
  intro fuel
  induction fuel with
  | zero => intro pos startI pos0 h; cases h
  | succ n ih =>
    intro pos startI pos0 h ht hl fuel1 hf
    obtain ⟨m, rfl⟩ : ∃ m, fuel1 = m + 1 := ⟨fuel1 - 1, by omega⟩
    have hbd := firstMarker_bounds s _ _ _ _ h
    unfold firstMarker at h ⊢
    by_cases hlt : pos < s.length
    swap
    · rw [if_neg hlt] at h; cases h
    rw [if_pos hlt] at h
    rw [if_pos (by omega : pos < t.length)]
    rcases hr : ReadOp s pos with ⟨_ | op, p1⟩
    · rw [hr] at h; cases h
    rw [hr] at h
    simp only at h
    have hb := ReadOp_some_bounds hr
    rcases hm : isMarker s pos p1 op with _ | _ | b
    · rw [hm] at h; cases h
    · rw [hm] at h; cases h
    rw [hm] at h
    cases b with
    | false =>
      simp only at h
      have hb2 := firstMarker_bounds s _ _ _ _ h
      have hr2 : ReadOp t pos = (some op, p1) :=
        ReadOp_agree hr (take_agree ht (by omega)) (by omega)
      have hm2 : isMarker t pos p1 op = .done false := by
        rw [isMarker_agree ht pos p1 op (by omega), hm]
      rw [hr2]
      simp only [hm2]
      exact ih p1 startI pos0 h ht hl m (by omega)
    | true =>
      simp only [Run.done.injEq, Option.some.injEq, Prod.mk.injEq] at h
      obtain ⟨h1, h2⟩ := h
      subst h1 h2
      have hr2 : ReadOp t pos = (some op, p1) := ReadOp_agree hr ht hl
      have hm2 : isMarker t pos p1 op = .done true := by
        rw [isMarker_agree ht pos p1 op (by omega), hm]
      rw [hr2]
      simp only [hm2]

/-- An iteration of the field loop that goes on to the next pair depends on the bytes of the
pair only. -/
theorem ordStep_agree (d : Collaborators) {s t : Script} {pos q : Nat} {i i1 : Inscription}
    (h : ordStep d s pos i = .next i1 q) (ht : t.take q = s.take q) (hl : q ≤ t.length) :
    ordStep d t pos i = .next i1 q := by
  rcases ordStep_cases d s pos i with h1 | h1 |
    ⟨op, p1, op2, p2, r1, r2, ho, ho2, ⟨_, h1, _⟩ | ⟨j, h1, _⟩⟩
  · rw [h1] at h; cases h
  · rw [h1] at h; cases h
  · rw [h1] at h; cases h
  · have hq : p2 = q := by
      rw [h1] at h
      injection h
    subst hq
    have b2 := ReadOp_some_bounds r2
    have t1 : ReadOp t pos = (some op, p1) :=
      ReadOp_agree r1 (take_agree ht (by omega)) (by omega)
    have t2 : ReadOp t p1 = (some op2, p2) := ReadOp_agree r2 ht hl
    rw [ordStep_pair d i t1 t2 ho ho2, ← ordStep_pair d i r1 r2 ho ho2]
    exact h

/-- The pairs counted by `runPairs` depend on the bytes up to the end of the last pair
only. -/
theorem runPairs_agree (d : Collaborators) {s t : Script} :
    ∀ (n pos : Nat) (i : Inscription) (p : Nat) (j : Inscription),
      runPairs d s n pos i = some (p, j) → pos ≤ s.length → t.take p = s.take p →
      p ≤ t.length → runPairs d t n pos i = some (p, j) := by
  intro n
  induction n with
  | zero =>
    intro pos i p j h _ _ _
    exact h
  | succ n ih =>
    intro pos i p j h hp ht hl
    unfold runPairs at h ⊢
    rcases hs : ordStep d s pos i with _ | i1 | ⟨i1, q⟩ | ⟨i1, q⟩
    · rw [hs] at h; cases h
    · rw [hs] at h; cases h
    · rw [hs] at h; cases h
    rw [hs] at h
    simp only at h
    obtain ⟨_, g1, g2⟩ := ordStep_next hs
    obtain ⟨k1, k2, _⟩ := runPairs_bounds d s n q i1 p j h g2
    have hs2 := ordStep_agree d hs (take_agree ht (by omega)) (by omega)
    rw [hs2]
    exact ih q i1 p j h g2 ht hl

theorem dispatch_shift (d : Collaborators) (i : Inscription) (field : Int) (op2 : ScriptChunk)
    (n p : Nat) :
    dispatch d i field op2 (n + p) = (dispatch d i field op2 p).shift n := by
  unfold dispatch
  split_ifs
  · rfl
  · rfl
  · rfl
  · rcases toArray36 op2.Data with _ | _ | a <;> rfl
  · rfl
  · rfl

/-- An iteration of the field loop in `x ++ b` at a position inside `b` is the iteration in
`b`, with the read position moved by the length of `x`. -/
theorem ordStep_shift (d : Collaborators) (x b : Script) (k : Nat) (i : Inscription) :
    ordStep d (x ++ b) (x.length + k) i = (ordStep d b k i).shift x.length := by
  unfold ordStep
  rw [ReadOp_shift]
  rcases ReadOp b k with ⟨_ | op, p1⟩
  · rfl
  simp only
  by_cases c1 : op.Op.val > Op16.val
  · rw [if_pos c1, if_pos c1]; rfl
  rw [if_neg c1, if_neg c1, ReadOp_shift]
  rcases ReadOp b p1 with ⟨_ | op2, p2⟩
  · rfl
  simp only
  by_cases c2 : op2.Op.val > Op16.val
  · rw [if_pos c2, if_pos c2]; rfl
  rw [if_neg c2, if_neg c2]
  by_cases c3 : op.Op.val > OpPUSHDATA4.val ∧ op.Op.val ≤ Op16.val
  · rw [if_pos c3, if_pos c3]
    exact dispatch_shift d i _ op2 _ p2
  rw [if_neg c3, if_neg c3]
  by_cases c4 : op.Data.length = 1
  · rw [if_pos c4, if_pos c4]
    rcases index op.Data 0 with _ | _ | c
    · rfl
    · rfl
    · exact dispatch_shift d i _ op2 _ p2
  rw [if_neg c4, if_neg c4]
  by_cases c5 : op.Data.length > 1
  · rw [if_pos c5, if_pos c5]
    rcases d.NewAddressFromString op.Data with _ | add <;> rfl
  rw [if_neg c5, if_neg c5]
  exact dispatch_shift d i 0 op2 _ p2

/-- The field loop in `x ++ b` from a position inside `b` is the field loop in `b`, with the
read position moved by the length of `x`. -/
theorem ordLoop_shift (d : Collaborators) (x b : Script) :
    ∀ (fuel k : Nat) (i : Inscription),
      ordLoop d (x ++ b) fuel (x.length + k) i = (ordLoop d b fuel k i).shift x.length := by
  intro fuel
  induction fuel with
  | zero => intro k i; rfl
  | succ n ih =>
    intro k i
    unfold ordLoop
    rw [ordStep_shift]
    rcases ordStep d b k i with _ | j | ⟨j, q⟩ | ⟨j, q⟩
    · rfl
    · rfl
    · rfl
    · exact ih q j

/-- A run of the field loop that ends is the same with more fuel. -/
theorem ordLoop_fuel_mono (d : Collaborators) (s : Script) :
    ∀ (fuel pos : Nat) (i : Inscription), ordLoop d s fuel pos i ≠ .outOfFuel →
      ∀ k, ordLoop d s (fuel + k) pos i = ordLoop d s fuel pos i := by
  intro fuel
  induction fuel with
  | zero => intro pos i h; exact absurd rfl h
  | succ n ih =>
    intro pos i h k
    have e : n + 1 + k = (n + k) + 1 := by omega
    rw [e]
    unfold ordLoop at h ⊢
    rcases hs : ordStep d s pos i with _ | j | ⟨j, q⟩ | ⟨j, q⟩
    · rfl
    · rfl
    · rfl
    · rw [hs] at h
      exact ih q j h k

/-- The closing step in `x ++ b` at a position inside `b` is the closing step in `b`: the
same result, the suffix included, with the read position moved by the length of `x`. -/
theorem closing_shift (x b : Script) (k : Nat) (i : Inscription) :
    closing (x ++ b) (x.length + k) i = ((closing b k i).1, x.length + (closing b k i).2) := by
  unfold closing
  rw [ReadOp_shift]
  have key : ∀ p1 : Nat, sliceFrom (x ++ b) (x.length + p1) = sliceFrom b p1 := by
    intro p1
    unfold sliceFrom
    rw [List.length_append, List.drop_append]
    by_cases c : p1 ≤ b.length
    · rw [if_pos c, if_pos (by omega)]
    · rw [if_neg c, if_neg (by omega)]
  rcases ReadOp b k with ⟨_ | op, p1⟩
  · simp only [key]
  · simp only [key]
    split_ifs <;> rfl

/-- Inserting a pair with an unknown field code into the field list of the envelope that
`Decode` returns. The script is `a ++ b`: the scan finds its first marker at `startI`, the
field loop of that marker reads `n` pairs and arrives at the end of `a`, and the envelope
block of that marker returns the envelope `e`. The pair `pr` is a tag that resolves to a field
code other than 0, 1 and 3 followed by a value, both readable with opcodes up to `OP_16`. Then
`Decode` returns the same envelope `e`, with the same prefix and suffix, for `a ++ b` and for
`a ++ pr ++ b`. -/
theorem Decode_insert_unknown (d : Collaborators) (a pr b : Script) (startI pos0 n : Nat)
    (j e : Inscription) (p : Nat) (op op2 : ScriptChunk) (t : Nat) (field : Int)
    (hm : firstMarker (a ++ b) ((a ++ b).length + 1) 0 = .done (some (startI, pos0)))
    (hp : runPairs d (a ++ b) n pos0 { ScriptPrefix := (a ++ b).take (startI - 2) }
      = some (a.length, j))
    (he : envelopeAt d (a ++ b) startI pos0 = (.done (some e), p))
    (h1 : ReadOp pr 0 = (some op, t)) (h2 : ReadOp pr t = (some op2, pr.length))
    (ho : op.Op.val ≤ Op16.val) (ho2 : op2.Op.val ≤ Op16.val)
    (hf : tagField op = some field) (f0 : field ≠ 0) (f1 : field ≠ 1) (f3 : field ≠ 3) :
    Decode d (a ++ b) = .done (some e) ∧ Decode d (a ++ pr ++ b) = .done (some e) := by
  have hlen : (a ++ pr ++ b).length = a.length + pr.length + b.length := by
    simp only [List.length_append]
  have hlen0 : (a ++ b).length = a.length + b.length := by
    simp only [List.length_append]
  obtain ⟨opm, _, hmk⟩ := firstMarker_some _ _ _ _ _ hm
  obtain ⟨hs2, _⟩ := isMarker_true hmk
  obtain ⟨_, hb1, hb2⟩ := firstMarker_bounds _ _ _ _ _ hm
  obtain ⟨hn1, _, _⟩ := runPairs_bounds d _ n pos0 _ _ _ hp hb2
  have ht1 := ReadOp_some_bounds h1
  have ht2 := ReadOp_some_bounds h2
  -- the two scripts have the same bytes up to the end of `a`
  have htake : (a ++ pr ++ b).take a.length = (a ++ b).take a.length := by
    rw [List.append_assoc, List.take_append_of_le_length (le_refl _),
      List.take_append_of_le_length (le_refl _)]
  refine ⟨scanLoop_first d _ startI pos0 e p he _ 0 hm, ?_⟩
  -- the scan finds the same marker
  have hm2 : firstMarker (a ++ pr ++ b) ((a ++ pr ++ b).length + 1) 0
      = .done (some (startI, pos0)) :=
    firstMarker_agree _ _ _ _ hm (take_agree htake (by omega)) (by omega) _ (by omega)
  -- the pairs before the inserted pair are read as before
  have hpre : (a ++ pr ++ b).take (startI - 2) = (a ++ b).take (startI - 2) :=
    take_agree htake (by omega)
  have hp2 : runPairs d (a ++ pr ++ b) n pos0 { ScriptPrefix := (a ++ b).take (startI - 2) }
      = some (a.length, j) :=
    runPairs_agree d n pos0 _ _ _ hp hb2 htake (by omega)
  -- the inserted pair is skipped
  have r1 : ReadOp (a ++ pr ++ b) a.length = (some op, a.length + t) := by
    have e1 : ReadOp (pr ++ b) 0 = (some op, t) :=
      ReadOp_agree h1 (by rw [List.take_append_of_le_length (by omega)])
        (by rw [List.length_append]; omega)
    have := ReadOp_shift a (pr ++ b) 0
    rw [e1] at this
    rw [List.append_assoc]
    exact this
  have r2 : ReadOp (a ++ pr ++ b) (a.length + t) = (some op2, a.length + pr.length) := by
    have e2 : ReadOp (pr ++ b) t = (some op2, pr.length) :=
      ReadOp_agree h2 (by rw [List.take_append_of_le_length (le_refl _), List.take_length])
        (by rw [List.length_append]; omega)
    have := ReadOp_shift a (pr ++ b) t
    rw [e2] at this
    rw [List.append_assoc]
    exact this
  have hskip := (ordStep_unknown_field d j r1 r2 ho ho2 hf f0 f1 f3).2
  -- the rest of the field loop is the field loop of `b`
  have hfuel := ordLoop_fuel d b ((a ++ b).length + 1 - n) 0 j (Nat.zero_le _) (by omega)
  have hL1 : ordLoop d (a ++ b) ((a ++ b).length + 1) pos0
        { ScriptPrefix := (a ++ b).take (startI - 2) }
      = (ordLoop d b ((a ++ b).length + 1 - n) 0 j).shift a.length := by
    rw [ordLoop_runPairs d _ n _ pos0 _ _ _ hp (by omega)]
    exact ordLoop_shift d a b _ 0 j
  have hL2 : ordLoop d (a ++ pr ++ b) ((a ++ pr ++ b).length + 1) pos0
        { ScriptPrefix := (a ++ b).take (startI - 2) }
      = (ordLoop d b ((a ++ b).length + 1 - n) 0 j).shift (a ++ pr).length := by
    rw [ordLoop_runPairs d _ n _ pos0 _ _ _ hp2 (by omega)]
    have e1 : (a ++ pr ++ b).length + 1 - n
        = (((a ++ b).length + 1 - n) + (pr.length - 1)) + 1 := by
      rw [hlen, hlen0]; omega
    rw [e1, hskip]
    have e2 : a.length + pr.length = (a ++ pr).length + 0 := by
      rw [List.length_append]; rfl
    rw [e2, ordLoop_shift d (a ++ pr) b _ 0 j, ordLoop_fuel_mono d b _ 0 j hfuel.1]
  -- both envelope blocks return `e`
  have he1 := he
  rw [envelopeAt_loop d _ startI pos0 hs2 (by omega), hL1] at he1
  have he2 : (envelopeAt d (a ++ pr ++ b) startI pos0).1 = .done (some e) := by
    rw [envelopeAt_loop d _ startI pos0 hs2 (by omega), hpre, hL2]
    rcases hL : ordLoop d b ((a ++ b).length + 1 - n) 0 j with _ | _ | e1 | ⟨e1, q⟩
    · rw [hL] at he1
      exact absurd (congrArg Prod.fst he1) (by simp [LoopExit.shift])
    · rw [hL] at he1
      exact absurd (congrArg Prod.fst he1) (by simp [LoopExit.shift])
    · rw [hL] at he1
      exact congrArg Prod.fst he1
    · rw [hL] at he1
      simp only [LoopExit.shift] at he1 ⊢
      rw [closing_shift] at he1 ⊢
      exact congrArg Prod.fst he1
  rcases he3 : envelopeAt d (a ++ pr ++ b) startI pos0 with ⟨r, p2⟩
  rw [he3] at he2
  simp only at he2
  subst he2
  exact scanLoop_first d _ startI pos0 e p2 he3 _ 0 hm2

/-- An instance of `Decode_insert_unknown`: after the marker and the type pair `51 04 "text"`
the pair `52`, `01 AA` (field code 2) is inserted before the content field `00 01 62`; the
envelope decoded is the same, content `"b"` and type `"text"`. -/
theorem Decode_insert_unknown_sample :
    Decode sampleCollaborators (typeOnly ++ [0x00, 0x01, 0x62])
        = .done (some { File := { Hash := sampleCollaborators.Sum256 [0x62], Size := 1,
                                  Type_ := textBytes, Content := [0x62] } })
      ∧ Decode sampleCollaborators (typeOnly ++ [0x52, 0x01, 0xAA] ++ [0x00, 0x01, 0x62])
        = .done (some { File := { Hash := sampleCollaborators.Sum256 [0x62], Size := 1,
                                  Type_ := textBytes, Content := [0x62] } }) :=
  Decode_insert_unknown sampleCollaborators typeOnly [0x52, 0x01, 0xAA] [0x00, 0x01, 0x62]
    2 6 1 { File := { Type_ := textBytes } } _ 15 ⟨0x52, []⟩ ⟨0x01, [0xAA]⟩ 1 2
    rfl rfl rfl rfl rfl (by decide) (by decide) rfl (by decide) (by decide) (by decide)

/-! ## Claims -/

set_option maxRecDepth 8000

/-- Claim C1 (failing input). On the 20-byte scenario script
`00 63 03 6F 72 64 51 04 74 65 78 74 00 05 68 65 6C 6C 6F 68` the code returns `nil`, not the
envelope with content `"hello"` and type `"text"`: after the closing `OP_ENDIF` is read,
control leaves the `else if` block without a `return`, the outer loop ends at the end of the
script and `return nil` is reached. -/
theorem C1_closed_scenario_returns_nil (d : Collaborators) :
    Decode d scenarioClosed = .done none := rfl

/-- Claim C2 (failing input). For the envelope with content `"a"` and nothing else set,
`Lock` gives `MARK ++ 51 01 61 ++ 00 01 61 ++ 68`, and `Decode` of that script returns `nil`:
the round trip through the encoder loses the envelope. -/
theorem C2_round_trip_returns_nil (d : Collaborators) :
    Inscription.Lock d { File := { Content := [0x61] } }
        = [0x00, 0x63, 0x03, 0x6F, 0x72, 0x64, 0x51, 0x01, 0x61, 0x00, 0x01, 0x61, 0x68]
      ∧ Decode d (Inscription.Lock d { File := { Content := [0x61] } }) = .done none := by
  have h : Inscription.Lock d { File := { Content := [0x61] } }
      = [0x00, 0x63, 0x03, 0x6F, 0x72, 0x64, 0x51, 0x01, 0x61, 0x00, 0x01, 0x61, 0x68] := rfl
  refine ⟨h, ?_⟩
  rw [h]
  rfl

/-- Claim C3 (failing input). On the script `03 6F 72 64` (the push of `"ord"` at position 0)
the guard `pos > 2` holds, because `pos` is already the position after the push, and the
index expression `(*scr)[startI-2]` is evaluated with `startI = 0`: `Decode` panics. -/
theorem C3_panics_on_leading_ord (d : Collaborators) :
    Decode d [0x03, 0x6F, 0x72, 0x64] = .panic := rfl

/-- Claim C4 (failing input). The script `00 03 6F 72 64` does not contain the open marker
`00 63 03 6F 72 64`, and `Decode` does not return `nil` on it: it panics at the index
expression `(*scr)[startI-2]` with `startI = 1`. -/
theorem C4_no_marker_panics (d : Collaborators) :
    ¬ (MARK <:+: ([0x00, 0x03, 0x6F, 0x72, 0x64] : List Byte))
      ∧ Decode d [0x00, 0x03, 0x6F, 0x72, 0x64] = .panic := by
  refine ⟨?_, rfl⟩
  intro h
  have := h.length_le
  revert this
  decide

/-- Claim C5 (failing input). On a closed envelope with content `"a"` followed by a second,
unclosed envelope with content `"b"`, `Decode` returns the second envelope: content `"b"`,
and as prefix the ten bytes of the first envelope. -/
theorem C5_later_marker_decoded (d : Collaborators) :
    Decode d ([0x00, 0x63, 0x03, 0x6F, 0x72, 0x64, 0x00, 0x01, 0x61, 0x68]
        ++ [0x00, 0x63, 0x03, 0x6F, 0x72, 0x64, 0x00, 0x01, 0x62])
      = .done (some
          { File := { Hash := d.Sum256 [0x62], Size := 1, Content := [0x62] }
            ScriptPrefix := [0x00, 0x63, 0x03, 0x6F, 0x72, 0x64, 0x00, 0x01, 0x61, 0x68] }) :=
  rfl

/-- Counterexample to C7 as stated: for `MARK ++ 00 01 61 ++ 51 AC` the envelope with content
`"a"` is returned, but its suffix is `AC`, not the bytes `51 AC` that follow the content
value. -/
theorem C7_counterexample :
    ∃ e, Decode sampleCollaborators mismatchedClose = .done (some e)
      ∧ e.File.Content = [0x61] ∧ e.ScriptSuffix = [0xAC]
      ∧ mismatchedClose.drop 9 = [0x51, 0xAC] ∧ e.ScriptSuffix ≠ mismatchedClose.drop 9 :=
  ⟨{ (contentA sampleCollaborators) with ScriptSuffix := [0xAC] }, rfl, rfl, rfl, rfl, by decide⟩

/-- Claim C7, amended (an unclosed envelope keeps the bytes after the mismatched instruction).
Let the scan of `Decode` find its first marker at `startI`, let `n` pairs be processed
without reaching a content field, let the next pair be the terminal content field, consumed
up to read position `pos2` and giving the envelope `e`, and let the instruction read at `pos2`
be some `op` other than `OP_ENDIF`, ending at `pos3`. Then `Decode` returns `e` with its
parsed content (the data of the value instruction that ends at `pos2`), and `ScriptSuffix` is
the bytes of the script from `pos3` on: the mismatched instruction `pos2 .. pos3` has been
consumed and is not part of the suffix. -/
theorem C7_unclosed_suffix (d : Collaborators) (s : Script) (startI pos1 n p : Nat)
    (i e : Inscription) (pos2 : Nat) (op : ScriptChunk) (pos3 : Nat)
    (hm : firstMarker s (s.length + 1) 0 = .done (some (startI, pos1)))
    (hp : runPairs d s n pos1 { ScriptPrefix := s.take (startI - 2) } = some (p, i))
    (hc : ordStep d s p i = .brk e pos2)
    (hr : ReadOp s pos2 = (some op, pos3)) (hne : op.Op ≠ OpENDIF) :
    Decode d s = .done (some { e with ScriptSuffix := s.drop pos3 })
      ∧ pos2 < pos3
      ∧ ∃ pv opv, ReadOp s pv = (some opv, pos2) ∧ e.File.Content = opv.Data := by
  obtain ⟨mop, hmr, hk⟩ := firstMarker_some s _ _ _ _ hm
  obtain ⟨h2, _, _⟩ := marker_at hmr hk
  obtain ⟨b1, b2⟩ := ReadOp_some_bounds hmr
  obtain ⟨c1, c2, _⟩ := runPairs_bounds d s n pos1 _ p i hp b2
  have hloop : ordLoop d s (s.length + 1) pos1 { ScriptPrefix := s.take (startI - 2) }
      = .brk e pos2 := by
    rw [ordLoop_runPairs d s n _ _ _ p i hp (by omega)]
    exact ordLoop_step_brk hc _ (by omega)
  have henv : envelopeAt d s startI pos1
      = (.done (some { e with ScriptSuffix := s.drop pos3 }), pos3) := by
    rw [envelopeAt_loop d s startI pos1 h2 (by omega), hloop]
    exact closing_mismatch e hr hne
  obtain ⟨pv, opv, _, g1, _, _, g2, _⟩ := ordStep_brk hc
  exact ⟨scanLoop_first d s startI pos1 _ pos3 henv _ _ hm, (ReadOp_some_bounds hr).1,
    pv, opv, g1, g2⟩

/-- Witness of C7, amended, at `MARK ++ 00 01 61 ++ 51 AC`: the content field ends at
position 9, the instruction `51` read there ends at 10, and the suffix is `AC`. -/
theorem C7_unclosed_suffix_witness :
    firstMarker mismatchedClose (mismatchedClose.length + 1) 0 = .done (some (2, 6))
      ∧ runPairs sampleCollaborators mismatchedClose 0 6
          { ScriptPrefix := mismatchedClose.take (2 - 2) } = some (6, {})
      ∧ ordStep sampleCollaborators mismatchedClose 6 {} = .brk (contentA sampleCollaborators) 9
      ∧ ReadOp mismatchedClose 9 = (some ⟨0x51, []⟩, 10)
      ∧ (0x51 : Byte) ≠ OpENDIF
      ∧ Decode sampleCollaborators mismatchedClose
          = .done (some { (contentA sampleCollaborators) with ScriptSuffix := [0xAC] }) :=
  ⟨rfl, rfl, rfl, rfl, by decide,
    (C7_unclosed_suffix sampleCollaborators mismatchedClose 2 6 0 6 {}
      (contentA sampleCollaborators) 9 ⟨0x51, []⟩ 10 rfl rfl rfl rfl (by decide)).1⟩

/-- Claim C8 (missing close byte). For every content type `t` (valid UTF-8, shorter than 256
bytes) and every content `c` (of a length a data push can carry), `Decode` of
`MARK ++ [0x51] ++ push(t) ++ [0x00] ++ push(c)`, with nothing after the content value,
returns the envelope with `File.Content = c`, `File.Type = t`, `File.Size = len(c)`, the
digest of `c` as hash, no parent, no extensions, empty prefix and empty suffix. -/
theorem C8_missing_close (d : Collaborators) (t c : List Byte) (ht : t.length < 256)
    (hv : utf8.Valid t = true) (hc : c.length < 2 ^ 32) :
    Decode d (MARK ++ [0x51] ++ pushData t ++ [0x00] ++ pushData c)
      = .done (some
          { File := { Hash := d.Sum256 c, Size := c.length, Type_ := t, Content := c }
            Parent := none
            Bitcom := none
            ScriptPrefix := []
            ScriptSuffix := [] }) := by
  have es : MARK ++ [0x51] ++ pushData t ++ [0x00] ++ pushData c
      = MARK ++ Op1 :: (pushData t ++ Op0 :: (pushData c ++ [])) := by
    simp [Op1, Op0]
  rw [es]
  have hm := firstMarker_MARK (Op1 :: (pushData t ++ Op0 :: (pushData c ++ [])))
  have hlen : (MARK ++ Op1 :: (pushData t ++ Op0 :: (pushData c ++ []))).length
      = 6 + 1 + (pushData t).length + 1 + (pushData c).length := by
    simp [MARK]; omega
  have hloop := ordLoop_type_content d t c [] ht hv hc
    ((MARK ++ Op1 :: (pushData t ++ Op0 :: (pushData c ++ []))).length + 1) (by omega)
  rw [← hlen] at hloop
  have henv : envelopeAt d (MARK ++ Op1 :: (pushData t ++ Op0 :: (pushData c ++ []))) 2 6
      = (.done (some
            { File := { Hash := d.Sum256 c, Size := c.length, Type_ := t, Content := c } }),
          (MARK ++ Op1 :: (pushData t ++ Op0 :: (pushData c ++ []))).length) := by
    rw [envelopeAt_loop d _ 2 6 (le_refl _) (by omega)]
    have e0 : List.take (2 - 2) (MARK ++ Op1 :: (pushData t ++ Op0 :: (pushData c ++ [])))
        = [] := rfl
    rw [e0, hloop]
    exact closing_end _ _
  exact scanLoop_first d _ 2 6 _ _ henv _ _ hm

/-- Witness of C8: the scenario script without its close byte `68` (`t = "text"`,
`c = "hello"`). -/
theorem C8_missing_close_witness :
    textBytes.length < 256 ∧ utf8.Valid textBytes = true ∧ helloBytes.length < 2 ^ 32
      ∧ MARK ++ [0x51] ++ pushData textBytes ++ [0x00] ++ pushData helloBytes = scenarioUnclosed
      ∧ Decode sampleCollaborators
          (MARK ++ [0x51] ++ pushData textBytes ++ [0x00] ++ pushData helloBytes)
        = .done (some (helloText sampleCollaborators)) :=
  ⟨by decide, by decide, by decide, by decide,
    C8_missing_close sampleCollaborators textBytes helloBytes (by decide) (by decide)
      (by decide)⟩

/-- Claim C9 (a truncated field is not fatal and differs from Absent). Let the scan of `Decode`
find its first marker at `startI` (the marker instruction ends at `pos1`), let `n`
tag/value pairs after it be processed without reaching a content field, leaving the read
position `p` and the accumulated envelope `e`, and let the next tag or value instruction be
unreadable or have an opcode above `OP_16`. Then `Decode` returns exactly `e`: a non-nil
envelope with empty content, hash and suffix, size 0, and the bytes before the marker as
prefix. -/
theorem C9_truncated_field (d : Collaborators) (s : Script) (startI pos1 n p : Nat)
    (e : Inscription)
    (hm : firstMarker s (s.length + 1) 0 = .done (some (startI, pos1)))
    (hp : runPairs d s n pos1 { ScriptPrefix := s.take (startI - 2) } = some (p, e))
    (ht : truncatedAt s p = true) :
    Decode d s = .done (some e) ∧ e.File.Content = [] ∧ e.File.Hash = [] ∧ e.File.Size = 0
      ∧ e.ScriptSuffix = [] ∧ e.ScriptPrefix = s.take (startI - 2) := by
  obtain ⟨op, hr, hk⟩ := firstMarker_some s _ _ _ _ hm
  obtain ⟨h2, _, _⟩ := marker_at hr hk
  obtain ⟨b1, b2⟩ := ReadOp_some_bounds hr
  obtain ⟨c1, c2, c3, c4, c5, c6, c7⟩ := runPairs_bounds d s n pos1 _ p e hp b2
  have hloop : ordLoop d s (s.length + 1) pos1 { ScriptPrefix := s.take (startI - 2) }
      = .ret e := by
    rw [ordLoop_runPairs d s n _ _ _ p e hp (by omega)]
    exact ordLoop_step_ret (ordStep_truncated d s p e ht) _ (by omega)
  have henv : envelopeAt d s startI pos1 = (.done (some e), pos1) := by
    rw [envelopeAt_loop d s startI pos1 h2 (by omega), hloop]
  exact ⟨scanLoop_first d s startI pos1 e pos1 henv _ _ hm, c5, c6, c7, c4, c3⟩

/-- Witness of C9: the marker alone decodes to the empty envelope, and the marker followed
by the pair `51 04 "text"` decodes to the envelope whose only field is the type `"text"`. -/
theorem C9_truncated_field_witness :
    (firstMarker MARK (MARK.length + 1) 0 = .done (some (2, 6))
      ∧ runPairs sampleCollaborators MARK 0 6 { ScriptPrefix := MARK.take (2 - 2) }
          = some (6, {})
      ∧ truncatedAt MARK 6 = true
      ∧ Decode sampleCollaborators MARK = .done (some {}))
    ∧ (firstMarker typeOnly (typeOnly.length + 1) 0 = .done (some (2, 6))
      ∧ runPairs sampleCollaborators typeOnly 1 6 { ScriptPrefix := typeOnly.take (2 - 2) }
          = some (12, { File := { Type_ := textBytes } })
      ∧ truncatedAt typeOnly 12 = true
      ∧ Decode sampleCollaborators typeOnly = .done (some { File := { Type_ := textBytes } })) :=
  ⟨⟨rfl, rfl, rfl,
      (C9_truncated_field sampleCollaborators MARK 2 6 0 6 {} rfl rfl rfl).1⟩,
    ⟨rfl, rfl, rfl,
      (C9_truncated_field sampleCollaborators typeOnly 2 6 1 12
        { File := { Type_ := textBytes } } rfl rfl rfl).1⟩⟩

/-- Claim C10 (prefix is exactly what precedes the marker). For every script `s` on which
`Decode` returns an envelope `e`, `s = e.ScriptPrefix ++ 00 63 03 6F 72 64 ++ rest` for some
byte sequence `rest`: the prefix is all the bytes strictly before the two-byte open sequence
of the decoded marker. -/
theorem C10_prefix_precedes_marker (d : Collaborators) (s : Script) (e : Inscription)
    (h : Decode d s = .done (some e)) :
    ∃ rest, s = e.ScriptPrefix ++ [0x00, 0x63, 0x03, 0x6f, 0x72, 0x64] ++ rest :=
  scanLoop_split d s _ _ e h

/-- Witness of C10: the scenario script without its close byte, behind the two bytes
`76 A9`, decodes to an envelope with prefix `76 A9`, and the script is that prefix, the
marker and the rest. -/
theorem C10_prefix_precedes_marker_witness :
    Decode sampleCollaborators ([0x76, 0xA9] ++ scenarioUnclosed)
        = .done (some { (helloText sampleCollaborators) with ScriptPrefix := [0x76, 0xA9] })
      ∧ ∃ rest, [0x76, 0xA9] ++ scenarioUnclosed
          = [0x76, 0xA9] ++ [0x00, 0x63, 0x03, 0x6f, 0x72, 0x64] ++ rest :=
  ⟨rfl, C10_prefix_precedes_marker sampleCollaborators ([0x76, 0xA9] ++ scenarioUnclosed)
    { (helloText sampleCollaborators) with ScriptPrefix := [0x76, 0xA9] } rfl⟩

/-- Claim C11 (content-type length boundary). In an iteration of the field loop whose tag
resolves to field code 1 and whose value is readable: a value of exactly 255 bytes of valid
UTF-8 sets `File.Type` to that value; a value of 256 bytes or more leaves the envelope as it
is; in both cases the loop goes on with the next pair. And `Decode` of
`MARK ++ 51 ++ push(v) ++ 00 ++ push(c)` with `v` of 256 bytes or more returns the envelope
with the type unset and the content `c`. -/
theorem C11_content_type_boundary (d : Collaborators) (s : Script) (pos p1 p2 : Nat)
    (op op2 : ScriptChunk) (i : Inscription)
    (h1 : ReadOp s pos = (some op, p1)) (h2 : ReadOp s p1 = (some op2, p2))
    (ho : op.Op.val ≤ Op16.val) (ho2 : op2.Op.val ≤ Op16.val) (hf : tagField op = some 1) :
    (op2.Data.length = 255 → utf8.Valid op2.Data = true →
        ordStep d s pos i = .next { i with File := { i.File with Type_ := op2.Data } } p2
          ∧ ∀ fuel, ordLoop d s (fuel + 1) pos i
              = ordLoop d s fuel p2 { i with File := { i.File with Type_ := op2.Data } })
      ∧ (256 ≤ op2.Data.length →
          ordStep d s pos i = .next i p2
            ∧ ∀ fuel, ordLoop d s (fuel + 1) pos i = ordLoop d s fuel p2 i)
      ∧ ∀ v c : List Byte, 256 ≤ v.length → v.length < 2 ^ 32 → c.length < 2 ^ 32 →
          Decode d (MARK ++ [0x51] ++ pushData v ++ [0x00] ++ pushData c)
            = .done (some { File := { Hash := d.Sum256 c, Size := c.length, Content := c } }) := by
  have hs := ordStep_pair d i h1 h2 ho ho2
  rw [hf] at hs
  refine ⟨?_, ?_, fun v c hv hv2 hc => Decode_long_type d v c hv hv2 hc⟩
  · intro hl hv
    have hc : op2.Data.length < 256 ∧ utf8.Valid op2.Data = true := ⟨by omega, hv⟩
    have : ordStep d s pos i
        = .next { i with File := { i.File with Type_ := op2.Data } } p2 := by
      rw [hs]; simp [dispatch, hc]
    exact ⟨this, fun fuel => ordLoop_next this fuel⟩
  · intro hl
    have hc : ¬ (op2.Data.length < 256 ∧ utf8.Valid op2.Data = true) := by omega
    have : ordStep d s pos i = .next i p2 := by
      rw [hs]; simp [dispatch, hc]
    exact ⟨this, fun fuel => ordLoop_next this fuel⟩

/-- Witness of C11: after the marker, `51` with a value of 255 bytes `"a"` sets the type and
`Decode` returns type and content; with 256 bytes the type stays unset and the content `"b"`
is still decoded. -/
theorem C11_content_type_boundary_witness :
    (ReadOp type255 6 = (some ⟨0x51, []⟩, 7)
      ∧ ReadOp type255 7 = (some ⟨0x4C, List.replicate 255 0x61⟩, 264)
      ∧ tagField ⟨0x51, []⟩ = some 1
      ∧ ordStep sampleCollaborators type255 6 {}
          = .next { File := { Type_ := List.replicate 255 0x61 } } 264
      ∧ Decode sampleCollaborators type255
          = .done (some { File := { Hash := sampleCollaborators.Sum256 [0x62], Size := 1,
                                    Type_ := List.replicate 255 0x61, Content := [0x62] } }))
    ∧ (ReadOp type256 6 = (some ⟨0x51, []⟩, 7)
      ∧ ReadOp type256 7 = (some ⟨0x4D, List.replicate 256 0x61⟩, 266)
      ∧ ordStep sampleCollaborators type256 6 {} = .next {} 266
      ∧ Decode sampleCollaborators type256 = .done (some (contentB sampleCollaborators))) :=
  ⟨⟨rfl, rfl, rfl,
      ((C11_content_type_boundary sampleCollaborators type255 6 7 264 ⟨0x51, []⟩
        ⟨0x4C, List.replicate 255 0x61⟩ {} rfl rfl (by decide) (by decide) rfl).1 rfl rfl).1,
      rfl⟩,
    ⟨rfl, rfl,
      ((C11_content_type_boundary sampleCollaborators type256 6 7 266 ⟨0x51, []⟩
        ⟨0x4D, List.replicate 256 0x61⟩ {} rfl rfl (by decide) (by decide) rfl).2.1
          (by decide)).1,
      rfl⟩⟩

/-- Claim C12 (parent length boundary). In an iteration of the field loop whose tag resolves
to field code 3 and whose value is readable: a value of exactly 36 bytes sets `Parent` to the
outpoint decoded from the value; a value of any other length leaves the envelope, and so
`Parent`, as it is; in both cases the loop goes on with the next pair. -/
theorem C12_parent_boundary (d : Collaborators) (s : Script) (pos p1 p2 : Nat)
    (op op2 : ScriptChunk) (i : Inscription)
    (h1 : ReadOp s pos = (some op, p1)) (h2 : ReadOp s p1 = (some op2, p2))
    (ho : op.Op.val ≤ Op16.val) (ho2 : op2.Op.val ≤ Op16.val) (hf : tagField op = some 3) :
    (op2.Data.length = 36 →
        ordStep d s pos i
          = .next { i with Parent := some (d.NewOutpointFromBytes op2.Data) } p2)
      ∧ (op2.Data.length ≠ 36 → ordStep d s pos i = .next i p2)
      ∧ ∀ i1 p, ordStep d s pos i = .next i1 p →
          (i1.Parent = some (d.NewOutpointFromBytes op2.Data) ∧ i1.Parent ≠ i.Parent
            → op2.Data.length = 36) := by
  have hs := ordStep_pair d i h1 h2 ho ho2
  rw [hf] at hs
  have h36 : op2.Data.length = 36 → ordStep d s pos i
      = .next { i with Parent := some (d.NewOutpointFromBytes op2.Data) } p2 := by
    intro hl
    have ht : toArray36 op2.Data = .done op2.Data := by
      unfold toArray36
      rw [if_pos (by omega)]
      congr 1
      exact List.take_of_length_le (by omega)
    rw [hs]
    simp [dispatch, hl, ht]
  have hn36 : op2.Data.length ≠ 36 → ordStep d s pos i = .next i p2 := by
    intro hl
    rw [hs]
    simp [dispatch, hl]
  refine ⟨h36, hn36, ?_⟩
  intro i1 p hstep hpar
  by_contra hl
  rw [hn36 hl] at hstep
  injection hstep with ha _
  subst ha
  exact hpar.2 rfl

/-- Witness of C12: a value of 36 bytes under `53` sets the parent, values of 35 and of 37
bytes leave it nil, and the content `"b"` after the pair is decoded in all three scripts. -/
theorem C12_parent_boundary_witness :
    (ReadOp parent36 6 = (some ⟨0x53, []⟩, 7)
      ∧ ReadOp parent36 7 = (some ⟨0x24, List.replicate 36 0x11⟩, 44)
      ∧ tagField ⟨0x53, []⟩ = some 3
      ∧ ordStep sampleCollaborators parent36 6 {}
          = .next { Parent := some (sampleCollaborators.NewOutpointFromBytes
              (List.replicate 36 0x11)) } 44)
    ∧ ordStep sampleCollaborators parent35 6 {} = .next {} 43
    ∧ ordStep sampleCollaborators parent37 6 {} = .next {} 45
    ∧ Decode sampleCollaborators parent35 = .done (some (contentB sampleCollaborators))
    ∧ Decode sampleCollaborators parent37 = .done (some (contentB sampleCollaborators)) :=
  ⟨⟨rfl, rfl, rfl,
      (C12_parent_boundary sampleCollaborators parent36 6 7 44 ⟨0x53, []⟩
        ⟨0x24, List.replicate 36 0x11⟩ {} rfl rfl (by decide) (by decide) rfl).1 rfl⟩,
    (C12_parent_boundary sampleCollaborators parent35 6 7 43 ⟨0x53, []⟩
      ⟨0x23, List.replicate 35 0x11⟩ {} rfl rfl (by decide) (by decide) rfl).2.1 (by decide),
    (C12_parent_boundary sampleCollaborators parent37 6 7 45 ⟨0x53, []⟩
      ⟨0x25, List.replicate 37 0x11⟩ {} rfl rfl (by decide) (by decide) rfl).2.1 (by decide),
    rfl, rfl⟩

/-- Claim C14 (a zero-length tag push is field code 0). In an iteration of the field loop
whose tag is a data push of zero bytes (opcode `00`, or `OP_PUSHDATA1/2/4` with length 0)
and whose value is readable with an opcode up to `OP_16`, the pair is the terminal content
field: `File.Content` becomes the value's data, with its size and digest, and the field loop
stops, whatever envelope the earlier pairs have left. -/
theorem C14_zero_length_tag (d : Collaborators) (s : Script) (pos p1 p2 : Nat)
    (op op2 : ScriptChunk) (i : Inscription)
    (h1 : ReadOp s pos = (some op, p1)) (h2 : ReadOp s p1 = (some op2, p2))
    (hop : op.Op.val ≤ OpPUSHDATA4.val) (hd : op.Data = []) (ho2 : op2.Op.val ≤ Op16.val) :
    tagField op = some 0
      ∧ ordStep d s pos i
        = .brk { i with File := { i.File with
            Content := op2.Data, Size := op2.Data.length % 2 ^ 32, Hash := d.Sum256 op2.Data } } p2
      ∧ ∀ fuel, ordLoop d s (fuel + 1) pos i
        = .brk { i with File := { i.File with
            Content := op2.Data, Size := op2.Data.length % 2 ^ 32, Hash := d.Sum256 op2.Data } }
            p2 := by
  have hv : OpPUSHDATA4.val ≤ Op16.val := by decide
  have hf : tagField op = some 0 := by
    unfold tagField
    rw [if_neg (by omega), hd]
    rfl
  have hs := ordStep_pair d i h1 h2 (by omega) ho2
  rw [hf] at hs
  have hb : ordStep d s pos i
      = .brk { i with File := { i.File with
          Content := op2.Data, Size := op2.Data.length % 2 ^ 32, Hash := d.Sum256 op2.Data } }
          p2 := by
    rw [hs]; simp [dispatch]
  exact ⟨hf, hb, fun fuel => ordLoop_step_brk hb _ (Nat.succ_pos fuel)⟩

/-- Witness of C14: after the type pair `51 04 "text"`, the tag `4C 00` (an extended-length
push of zero bytes) with the value `"a"` is the content field, and `Decode` returns the
envelope with type `"text"` and content `"a"`. -/
theorem C14_zero_length_tag_witness :
    ReadOp emptyTag 12 = (some ⟨0x4C, []⟩, 14)
      ∧ ReadOp emptyTag 14 = (some ⟨0x01, [0x61]⟩, 16)
      ∧ ordStep sampleCollaborators emptyTag 12 { File := { Type_ := textBytes } }
          = .brk { File := { Hash := sampleCollaborators.Sum256 [0x61], Size := 1,
                             Type_ := textBytes, Content := [0x61] } } 16
      ∧ Decode sampleCollaborators emptyTag
          = .done (some { File := { Hash := sampleCollaborators.Sum256 [0x61], Size := 1,
                                    Type_ := textBytes, Content := [0x61] } }) :=
  ⟨rfl, rfl,
    (C14_zero_length_tag sampleCollaborators emptyTag 12 14 16 ⟨0x4C, []⟩ ⟨0x01, [0x61]⟩
      { File := { Type_ := textBytes } } rfl rfl (by decide) rfl (by decide)).2.1,
    rfl⟩

/-- Claim C16 (unrecognised extension keys are discarded silently). In an iteration of the
field loop whose tag is a data push of two or more bytes that the address codec rejects and
whose value is readable with an opcode up to `OP_16`, the envelope is left exactly as it was
(nothing is added to `Bitcom`, no other field changes), and the loop goes on: the rest of the
field loop runs from the position after the pair with the same envelope as before the
pair. So the pairs that follow are processed as if the discarded pair were absent: with the
script split as `a ++ pr ++ b` at the pair `pr`, the field loop ends on `a ++ pr ++ b` as it
ends on `a ++ b`, namely as the field loop of `b` does, with the same envelope and the read
position moved by the bytes in front. -/
theorem C16_rejected_extension_key (d : Collaborators) (s : Script) (pos p1 p2 : Nat)
    (op op2 : ScriptChunk) (i : Inscription)
    (h1 : ReadOp s pos = (some op, p1)) (h2 : ReadOp s p1 = (some op2, p2))
    (hl : 2 ≤ op.Data.length) (ho2 : op2.Op.val ≤ Op16.val)
    (hr : d.NewAddressFromString op.Data = none) :
    ordStep d s pos i = .next i p2
      ∧ (∀ fuel, ordLoop d s (fuel + 1) pos i = ordLoop d s fuel p2 i)
      ∧ ∀ a pr b : Script, s = a ++ pr ++ b → pos = a.length → p2 = a.length + pr.length →
          ∀ fuel,
            ordLoop d (a ++ pr ++ b) (fuel + 1) a.length i
                = (ordLoop d b fuel 0 i).shift (a.length + pr.length)
              ∧ ordLoop d (a ++ b) fuel a.length i = (ordLoop d b fuel 0 i).shift a.length := by
  have hne : op.Data ≠ [] := by
    intro e; rw [e] at hl; simp at hl
  have hop := ReadOp_data_push h1 hne
  have hv : OpPUSHDATA4.val ≤ Op16.val := by decide
  have hf : tagField op = none := by
    unfold tagField
    rw [if_neg (by omega), if_neg (by omega), if_pos (by omega)]
  have hs := ordStep_pair d i h1 h2 (by omega) ho2
  rw [hf] at hs
  have hn : ordStep d s pos i = .next i p2 := by
    rw [hs]; simp only [hr]
  refine ⟨hn, fun fuel => ordLoop_next hn fuel, ?_⟩
  intro a pr b hsplit hpos hp2 fuel
  subst hsplit hpos hp2
  refine ⟨?_, ordLoop_shift d a b fuel 0 i⟩
  rw [ordLoop_next hn fuel]
  have e : a.length + pr.length = (a ++ pr).length + 0 := by
    rw [List.length_append]; rfl
  rw [e]
  exact ordLoop_shift d (a ++ pr) b fuel 0 i

/-- Witness of C16: the pair `02 AA BB`, `01 CC` after the marker is discarded (the sample
address codec rejects the key), and `Decode` returns the content `"b"` that follows, with
nothing else set. -/
theorem C16_rejected_extension_key_witness :
    ReadOp unknownKey 6 = (some ⟨0x02, [0xAA, 0xBB]⟩, 9)
      ∧ ReadOp unknownKey 9 = (some ⟨0x01, [0xCC]⟩, 11)
      ∧ sampleCollaborators.NewAddressFromString [0xAA, 0xBB] = none
      ∧ ordStep sampleCollaborators unknownKey 6 {} = .next {} 11
      ∧ Decode sampleCollaborators unknownKey
          = .done (some (contentB sampleCollaborators)) :=
  ⟨rfl, rfl, rfl,
    (C16_rejected_extension_key sampleCollaborators unknownKey 6 9 11 ⟨0x02, [0xAA, 0xBB]⟩
      ⟨0x01, [0xCC]⟩ {} rfl rfl (by decide) (by decide) rfl).1,
    rfl⟩

/-- Claim C13 (hash and size invariant). Let the digest collaborator return 32 bytes, as
`sha256.Sum256` does. For every script on which `Decode` returns an envelope `e`,
`e.File.Size` equals the length of `e.File.Content`, and either a content field was consumed
(the content is the data of a value instruction of the script) and `e.File.Hash` is the
32-byte digest of `e.File.Content`, or no content field was consumed and content and hash are
empty and the size is 0. -/
theorem C13_hash_size_invariant (d : Collaborators) (s : Script) (e : Inscription)
    (h32 : ∀ m, (d.Sum256 m).length = 32) (h : Decode d s = .done (some e)) :
    e.File.Size = e.File.Content.length
      ∧ ((∃ pv opv q, ReadOp s pv = (some opv, q) ∧ e.File.Content = opv.Data
            ∧ e.File.Hash = d.Sum256 e.File.Content ∧ e.File.Hash.length = 32)
        ∨ (e.File.Content = [] ∧ e.File.Hash = [] ∧ e.File.Size = 0)) := by
  obtain ⟨startI, pos1, op, p, _, _, he⟩ := scanLoop_marker d s _ _ e h
  rcases envelopeAt_content he with ⟨c1, c2, c3, _⟩ | ⟨pv, opv, q, g1, g2, g3, g4⟩
  · refine ⟨?_, Or.inr ⟨c1, c2, c3⟩⟩
    rw [c3, c1]
    rfl
  · have hl := ReadOp_data_length g1
    refine ⟨?_, Or.inl ⟨pv, opv, q, g1, g2, ?_, ?_⟩⟩
    · rw [g4, g2]
      exact Nat.mod_eq_of_lt hl
    · rw [g3, g2]
    · rw [g3]
      exact h32 _

/-- Witness of C13 with SHA-256 as digest: the scenario script without its close byte
decodes to content `"hello"`, size 5, and the SHA-256 digest of `"hello"`. -/
theorem C13_hash_size_invariant_witness :
    (∀ m, (shaCollaborators.Sum256 m).length = 32)
      ∧ Decode shaCollaborators scenarioUnclosed = .done (some (helloText shaCollaborators))
      ∧ (helloText shaCollaborators).File.Hash
          = [0x2c, 0xf2, 0x4d, 0xba, 0x5f, 0xb0, 0xa3, 0x0e, 0x26, 0xe8, 0x3b, 0x2a, 0xc5, 0xb9,
             0xe2, 0x9e, 0x1b, 0x16, 0x1e, 0x5c, 0x1f, 0xa7, 0x42, 0x5e, 0x73, 0x04, 0x33, 0x62,
             0x93, 0x8b, 0x98, 0x24]
      ∧ (helloText shaCollaborators).File.Size = (helloText shaCollaborators).File.Content.length
      ∧ (helloText shaCollaborators).File.Hash.length = 32 :=
  ⟨Sum256_length, rfl, rfl,
    (C13_hash_size_invariant shaCollaborators scenarioUnclosed (helloText shaCollaborators)
      Sum256_length rfl).1,
    rfl⟩

/-- Termination of `Decode`. Every iteration of the marker-scanning loop, started at a position
inside the script, either ends the run (a return, or the panic of an index expression) or goes
on at a strictly greater read position that is at most the script length; the same holds for
every iteration of the field loop; and the run of `Decode` on a script of `n` bytes ends
within the `n + 1` iterations that the model allows each loop: the outcome is never
`outOfFuel`. -/
theorem Decode_terminates (d : Collaborators) (s : Script) :
    Decode d s ≠ .outOfFuel
      ∧ (∀ pos, pos < s.length →
          (∃ pos1, pos < pos1 ∧ pos1 ≤ s.length
              ∧ ∀ fuel, scanLoop d s (fuel + 1) pos = scanLoop d s fuel pos1)
            ∨ ∃ r, r ≠ .outOfFuel ∧ ∀ fuel, scanLoop d s (fuel + 1) pos = r)
      ∧ (∀ pos i,
          (∃ i1 p, pos < p ∧ p ≤ s.length
              ∧ ∀ fuel, ordLoop d s (fuel + 1) pos i = ordLoop d s fuel p i1)
            ∨ ∃ r, r ≠ .outOfFuel ∧ ∀ fuel, ordLoop d s (fuel + 1) pos i = r)
      ∧ (∀ pos, s.length ≤ pos → ∀ fuel, scanLoop d s (fuel + 1) pos = .done none) :=
  ⟨Decode_fuel d s, fun pos hlt => scanLoop_progress d s pos hlt,
    fun pos i => ordLoop_progress d s pos i,
    fun pos hge fuel => by rw [scanLoop_succ, if_neg (by omega)]⟩

/-- Claim C15 (failing input). The script `MARK 00 01 61 68 MARK 00 01 62` (a closed envelope
with content `"a"`, then an unclosed one with content `"b"`) and the same script with the pair
`52`, `01 AA` (field code 2, a one-byte value) inserted before the content field of the first
field list are decoded to different results: the content is `"b"` both times, but the prefix
is the 10 bytes of the first envelope for the one and its 13 bytes, the inserted pair
included, for the other. -/
theorem C15_inserted_pair_changes_result (d : Collaborators) :
    Decode d (MARK ++ [0x00, 0x01, 0x61, 0x68] ++ MARK ++ [0x00, 0x01, 0x62])
        = .done (some { contentB d with
            ScriptPrefix := MARK ++ [0x00, 0x01, 0x61, 0x68] })
      ∧ Decode d (MARK ++ [0x52, 0x01, 0xAA] ++ [0x00, 0x01, 0x61, 0x68] ++ MARK
            ++ [0x00, 0x01, 0x62])
        = .done (some { contentB d with
            ScriptPrefix := MARK ++ [0x52, 0x01, 0xAA] ++ [0x00, 0x01, 0x61, 0x68] })
      ∧ tagField ⟨0x52, []⟩ = some 2
      ∧ Decode d (MARK ++ [0x00, 0x01, 0x61, 0x68] ++ MARK ++ [0x00, 0x01, 0x62])
        ≠ Decode d (MARK ++ [0x52, 0x01, 0xAA] ++ [0x00, 0x01, 0x61, 0x68] ++ MARK
            ++ [0x00, 0x01, 0x62]) := by
  have e1 : Decode d (MARK ++ [0x00, 0x01, 0x61, 0x68] ++ MARK ++ [0x00, 0x01, 0x62])
      = .done (some { contentB d with
          ScriptPrefix := MARK ++ [0x00, 0x01, 0x61, 0x68] }) := rfl
  have e2 : Decode d (MARK ++ [0x52, 0x01, 0xAA] ++ [0x00, 0x01, 0x61, 0x68] ++ MARK
          ++ [0x00, 0x01, 0x62])
      = .done (some { contentB d with
          ScriptPrefix := MARK ++ [0x52, 0x01, 0xAA] ++ [0x00, 0x01, 0x61, 0x68] }) := rfl
  refine ⟨e1, e2, rfl, ?_⟩
  rw [e1, e2]
  intro h
  injection h with h
  injection h with h
  have hp : (MARK ++ [0x00, 0x01, 0x61, 0x68] : List Byte).length
      = (MARK ++ [0x52, 0x01, 0xAA] ++ [0x00, 0x01, 0x61, 0x68] : List Byte).length :=
    congrArg (fun e => e.ScriptPrefix.length) h
  revert hp
  decide

/-- Claim C17 (failing input). On the script `03 6F 72 64` the first iteration of the
marker-scanning loop neither returns nor goes on at a greater read position: the guard
`pos > 2` holds for the position after the push, the index expression `(*scr)[startI-2]` is
evaluated with `startI = 0`, and the run ends in a panic. `Decode` returns no result on this
script, so it is not a total function of the script bytes. -/
theorem C17_scan_iteration_panics (d : Collaborators) :
    (∀ fuel, scanLoop d [0x03, 0x6F, 0x72, 0x64] (fuel + 1) 0 = .panic)
      ∧ Decode d [0x03, 0x6F, 0x72, 0x64] = .panic
      ∧ ¬ ∃ r, Decode d [0x03, 0x6F, 0x72, 0x64] = .done r := by
  have h : Decode d [0x03, 0x6F, 0x72, 0x64] = .panic := rfl
  refine ⟨fun fuel => rfl, h, ?_⟩
  rintro ⟨r, hr⟩
  rw [h] at hr
  cases hr

/-- Counterexample to C19. First input: the 12 bytes `76 00 63 03 6F 72 64 00 01 62 51 AC`
in a slice of length and capacity 12. `Decode` returns an envelope whose `ScriptPrefix` is the
slice `scr[0:1]` and whose `ScriptSuffix` is the slice `scr[11:12]` of the input array: a
byte written to the input buffer afterwards is seen through them. `Lock` on this envelope
appends to the prefix in place and overwrites the bytes 7 and 10 of the input buffer, which
becomes `76 00 63 03 6F 72 64 51 01 62 00 AC`. Second input: the 11 bytes
`00 63 03 6F 72 64 01 00 02 61 62` (length and capacity 11). The content of the decoded
envelope is the window `[9, 11)` of the input and reads `61 62`; `Lock` overwrites the bytes 6
to 10 of the input, after which the content reads `62 00`, and that is what the second push
of the content in the returned script holds. -/
theorem C19_counterexample :
    (DecodeMem sampleCollaborators aliasMemory aliasScript
        = .done (some (aliasEnvelope sampleCollaborators))
      ∧ (aliasEnvelope sampleCollaborators).ScriptPrefix = aliasScript.reslice 0 1
      ∧ (aliasEnvelope sampleCollaborators).ScriptSuffix = aliasScript.reslice 11 12
      ∧ (aliasEnvelope sampleCollaborators).ScriptPrefix.bytes aliasMemory = [0x76]
      ∧ (aliasEnvelope sampleCollaborators).ScriptSuffix.bytes aliasMemory = [0xAC]
      ∧ (aliasEnvelope sampleCollaborators).ScriptPrefix.bytes [writeAt aliasBuffer 0 [0xFF]]
          = [0xFF]
      ∧ (aliasEnvelope sampleCollaborators).ScriptSuffix.bytes [writeAt aliasBuffer 11 [0xFF]]
          = [0xFF]
      ∧ aliasScript.bytes aliasMemory
          = [0x76, 0x00, 0x63, 0x03, 0x6F, 0x72, 0x64, 0x00, 0x01, 0x62, 0x51, 0xAC]
      ∧ aliasScript.bytes
            (InscriptionMem.Lock sampleCollaborators aliasMemory
              (aliasEnvelope sampleCollaborators)).1
          = [0x76, 0x00, 0x63, 0x03, 0x6F, 0x72, 0x64, 0x51, 0x01, 0x62, 0x00, 0xAC])
    ∧ (DecodeMem sampleCollaborators overlapMemory overlapScript
        = .done (some (overlapEnvelope sampleCollaborators))
      ∧ overlapScript.bytes overlapMemory
          = [0x00, 0x63, 0x03, 0x6F, 0x72, 0x64, 0x01, 0x00, 0x02, 0x61, 0x62]
      ∧ (overlapEnvelope sampleCollaborators).File.Content.bytes overlapMemory = [0x61, 0x62]
      ∧ overlapScript.bytes
            (InscriptionMem.Lock sampleCollaborators overlapMemory
              (overlapEnvelope sampleCollaborators)).1
          = [0x00, 0x63, 0x03, 0x6F, 0x72, 0x64, 0x51, 0x02, 0x61, 0x62, 0x00]
      ∧ (overlapEnvelope sampleCollaborators).File.Content.bytes
            (InscriptionMem.Lock sampleCollaborators overlapMemory
              (overlapEnvelope sampleCollaborators)).1
          = [0x62, 0x00]
      ∧ (InscriptionMem.Lock sampleCollaborators overlapMemory
            (overlapEnvelope sampleCollaborators)).2.bytes
            (InscriptionMem.Lock sampleCollaborators overlapMemory
              (overlapEnvelope sampleCollaborators)).1
          = [0x00, 0x63, 0x03, 0x6F, 0x72, 0x64, 0x51, 0x02, 0x61, 0x62, 0x00, 0x02, 0x62, 0x00,
             0x68]) := by
  rw [Lock_alias sampleCollaborators, Lock_overlap sampleCollaborators]
  exact ⟨⟨rfl, rfl, rfl, rfl, rfl, rfl, rfl, rfl, rfl⟩, ⟨rfl, rfl, rfl, rfl, rfl, rfl⟩⟩

/-- Claim C19 as amended (prefix and suffix are views of the input buffer). For every memory
and every input script `scr` on which `Decode` returns an envelope `e`: `e.ScriptPrefix` is the
slice `scr[0:k]` of the input (the same backing array, the same start, the capacity of the
input) and `e.ScriptSuffix` is nil or a slice `scr[q:]` of the input, so neither is a copy;
`Decode` writes nothing, and read in the memory of the call the slices of `e` hold the fields
of the envelope that `Decode` returns on the bytes of the script. `Lock` on an envelope whose
`ScriptPrefix` has no spare capacity and whose other slices lie in the memory leaves every
existing array as it is (the memory afterwards is the old one followed by new arrays) and
returns a script that reads the encoding of the values of the envelope, so that `Content`, the
`Bitcom` values and `ScriptSuffix` are read unmodified. -/
theorem C19_prefix_suffix_are_views (d : Collaborators) (m : Memory) (scr : View)
    (e : InscriptionMem) (h : DecodeMem d m scr = .done (some e)) :
    (∃ k, e.ScriptPrefix = scr.reslice 0 k)
      ∧ (e.ScriptSuffix = {} ∨ ∃ q, e.ScriptSuffix = scr.reslice q (scr.bytes m).length)
      ∧ Decode d (scr.bytes m) = .done (some (e.read m))
      ∧ ∀ i : InscriptionMem, i.ScriptPrefix.cap ≤ i.ScriptPrefix.len →
          i.File.Content.Stable m → i.ScriptSuffix.Stable m →
          (∀ kv ∈ i.Bitcom.getD [], kv.2.Stable m) →
          (∃ ex, (i.Lock d m).1 = m ++ ex)
            ∧ (i.Lock d m).2.bytes (i.Lock d m).1 = (i.read m).Lock d := by
  obtain ⟨v1, v2⟩ := DecodeMem_views d m scr e h
  refine ⟨v1, v2, ?_, ?_⟩
  · have hr := DecodeMem_read d m scr
    rw [h] at hr
    exact hr.symm
  · intro i h0 hc hs hb
    have hf := Lock_fresh d m i h0 hc hs hb
    exact ⟨hf.1, hf.2.2⟩

/-- Witness of the amended C19 on the 12-byte input `76 00 63 03 6F 72 64 00 01 62 51 AC`: the
prefix of the decoded envelope is a slice `scr[0:k]` of the input, and `Lock` on that envelope
with the capacity of the prefix cut down to its length leaves the input array as it is and
returns the script that ends with `68 AC`. -/
theorem C19_prefix_suffix_are_views_witness :
    DecodeMem sampleCollaborators aliasMemory aliasScript
        = .done (some (aliasEnvelope sampleCollaborators))
      ∧ (∃ k, (aliasEnvelope sampleCollaborators).ScriptPrefix = aliasScript.reslice 0 k)
      ∧ Decode sampleCollaborators (aliasScript.bytes aliasMemory)
          = .done (some ((aliasEnvelope sampleCollaborators).read aliasMemory))
      ∧ ((∃ ex, ((aliasClipped sampleCollaborators).Lock sampleCollaborators aliasMemory).1
            = aliasMemory ++ ex)
        ∧ ((aliasClipped sampleCollaborators).Lock sampleCollaborators aliasMemory).2.bytes
            ((aliasClipped sampleCollaborators).Lock sampleCollaborators aliasMemory).1
          = ((aliasClipped sampleCollaborators).read aliasMemory).Lock sampleCollaborators)
      ∧ ((aliasClipped sampleCollaborators).read aliasMemory).Lock sampleCollaborators
          = [0x76, 0x00, 0x63, 0x03, 0x6F, 0x72, 0x64, 0x51, 0x01, 0x62, 0x00, 0x01, 0x62,
             0x68, 0xAC] :=
  ⟨rfl,
    (C19_prefix_suffix_are_views sampleCollaborators aliasMemory aliasScript
      (aliasEnvelope sampleCollaborators) rfl).1,
    (C19_prefix_suffix_are_views sampleCollaborators aliasMemory aliasScript
      (aliasEnvelope sampleCollaborators) rfl).2.2.1,
    (C19_prefix_suffix_are_views sampleCollaborators aliasMemory aliasScript
      (aliasEnvelope sampleCollaborators) rfl).2.2.2 (aliasClipped sampleCollaborators)
      (by decide) (Or.inl (by decide)) (Or.inl (by decide))
      (fun kv hkv => absurd hkv (List.not_mem_nil kv)),
    rfl⟩

end inscription

/-! ## Claims about package bsocial -/

namespace bsocial

open script

theorem context_tx_bytes : ascii "context_" ++ ContextTx = ascii "context_tx" := by decide

theorem ContextTx_ne_nil : ContextTx ≠ [] := by decide

/-- Claim C20 (`CreateReply` is `CreatePost` with a transaction context). For every reply
post `r`, transaction id string `x` and private key `k`, `CreateReply(r, x, utxos, addr, k)`
is the same transaction as `CreatePost` of the post with the media type, encoding and content
of `r`, context `"tx"`, context value `x`, empty subcontext and no tags: two outputs of zero
satoshis with the same locking scripts in the same order. The utxos and the change address of
either call, and any other field of `r`, have no effect. -/
theorem C20_reply_is_post_with_tx_context (c : Collaborators) (r : Post) (x : List Byte)
    (k : PrivateKey) (utxos utxos1 : List UTXO) (addr addr1 : Option Address)
    (subcontextValue : List Byte) (attachments : List B) :
    CreateReply c r x utxos addr k
        = CreatePost c (replyAsPost r x subcontextValue attachments) utxos1 addr1 k
      ∧ (CreateReply c r x utxos addr k).Outputs.map (fun o => o.Satoshis) = [0, 0]
      ∧ ∀ (r1 : Post), r1.MediaType = r.MediaType → r1.Encoding = r.Encoding →
          r1.Content = r.Content →
          CreateReply c r1 x utxos1 addr1 k = CreateReply c r x utxos addr k := by
  refine ⟨?_, rfl, ?_⟩
  · simp only [CreateReply, CreatePost, replyAsPost, if_pos ContextTx_ne_nil, context_tx_bytes,
      ne_eq, not_true_eq_false, if_false, List.length_nil, gt_iff_lt, Nat.lt_irrefl]
  · intro r1 h1 h2 h3
    simp only [CreateReply, h1, h2, h3]

end bsocial

/-! ## Claims about package bsv21 -/

namespace bsv21

open script inscription

set_option maxRecDepth 8000

theorem parseDec_le {data : List (List Byte × List Byte)} {dec : Nat}
    (h : parseDec data = some dec) : dec ≤ 18 := by
  unfold parseDec at h
  rcases hl : data.lookup (ascii "dec") with _ | x
  · rw [hl] at h
    injection h with h
    omega
  · rw [hl] at h
    simp only at h
    rcases hp : ParseUint x 8 with _ | v
    · rw [hp] at h; cases h
    · rw [hp] at h
      simp only at h
      split_ifs at h with hv
      injection h with h
      omega

theorem parseAmt_none (data : List (List Byte × List Byte)) :
    parseAmt data = none ↔ ∃ amt, data.lookup (ascii "amt") = some amt ∧ ParseUint amt 64 = none := by
  unfold parseAmt
  rcases hl : data.lookup (ascii "amt") with _ | x
  · simp
  · simp

theorem parseDec_none (data : List (List Byte × List Byte)) :
    parseDec data = none ↔
      ∃ dec, data.lookup (ascii "dec") = some dec ∧ ∀ val, ParseUint dec 8 = some val → 18 < val := by
  unfold parseDec
  rcases hl : data.lookup (ascii "dec") with _ | x
  · simp
  · rcases hp : ParseUint x 8 with _ | v
    · simp [hp]
    · by_cases hv : v > 18
      · simp [hp, hv]
      · simp only [hp, if_neg hv, Option.some.injEq, exists_eq_left', forall_eq']
        constructor
        · intro h; cases h
        · intro h; exact absurd h (by omega)

/-- What a returned record says about the payload map. -/
theorem fromPayload_some {j : Collaborators} {data : List (List Byte × List Byte)} {t : Bsv21}
    (h : fromPayload j data = some t) :
    ∃ op, data.lookup (ascii "op") = some op ∧ t.Op = j.ToLower op
      ∧ (t.Op = ascii "deploy+mint" ∨ t.Op = ascii "transfer" ∨ t.Op = ascii "burn")
      ∧ t.Decimals ≤ 18
      ∧ ((t.Op = ascii "transfer" ∨ t.Op = ascii "burn") →
          data.lookup (ascii "id") = some t.Id ∧ (j.NewOutpointFromString t.Id).isSome = true) := by
  unfold fromPayload at h
  rcases ho : data.lookup (ascii "op") with _ | op
  · rw [ho] at h; cases h
  rw [ho] at h
  simp only at h
  rcases ha : parseAmt data with _ | amt
  · rw [ha] at h; cases h
  rw [ha] at h
  simp only at h
  rcases hd : parseDec data with _ | dec
  · rw [hd] at h; cases h
  rw [hd] at h
  simp only at h
  have hdec := parseDec_le hd
  refine ⟨op, rfl, ?_⟩
  by_cases c1 : j.ToLower op = ascii "deploy+mint"
  · rw [if_pos c1] at h
    injection h with h
    subst h
    refine ⟨rfl, Or.inl c1, hdec, ?_⟩
    intro hc
    simp only at hc
    rw [c1] at hc
    exact absurd hc (by decide)
  rw [if_neg c1] at h
  by_cases c2 : j.ToLower op = ascii "transfer" ∨ j.ToLower op = ascii "burn"
  · rw [if_pos c2] at h
    rcases hi : data.lookup (ascii "id") with _ | id
    · rw [hi] at h; cases h
    rw [hi] at h
    simp only at h
    rcases hn : j.NewOutpointFromString id with _ | o
    · rw [hn] at h; cases h
    rw [hn] at h
    injection h with h
    subst h
    refine ⟨rfl, Or.inr c2, hdec, ?_⟩
    intro _
    simp only [hn, Option.isSome_some, and_self]
  · rw [if_neg c2] at h
    cases h

/-- The payload maps from which no record is built. -/
theorem fromPayload_none (j : Collaborators) (data : List (List Byte × List Byte)) :
    fromPayload j data = none ↔
      (match data.lookup (ascii "op") with
        | none => True
        | some op =>
          (j.ToLower op ≠ ascii "deploy+mint" ∧ j.ToLower op ≠ ascii "transfer"
              ∧ j.ToLower op ≠ ascii "burn")
            ∨ ((j.ToLower op = ascii "transfer" ∨ j.ToLower op = ascii "burn")
              ∧ ∀ id, data.lookup (ascii "id") = some id → j.NewOutpointFromString id = none))
      ∨ (∃ amt, data.lookup (ascii "amt") = some amt ∧ ParseUint amt 64 = none)
      ∨ (∃ dec, data.lookup (ascii "dec") = some dec
          ∧ ∀ val, ParseUint dec 8 = some val → 18 < val) := by
  rw [← parseAmt_none, ← parseDec_none]
  unfold fromPayload
  rcases ho : data.lookup (ascii "op") with _ | op
  · simp
  simp only
  rcases ha : parseAmt data with _ | amt
  · simp
  rcases hd : parseDec data with _ | dec
  · simp
  simp only [reduceCtorEq, or_false]
  by_cases c1 : j.ToLower op = ascii "deploy+mint"
  · rw [if_pos c1]
    have n1 : ascii "deploy+mint" ≠ ascii "transfer" := by decide
    have n2 : ascii "deploy+mint" ≠ ascii "burn" := by decide
    simp [c1, n1, n2]
  rw [if_neg c1]
  by_cases c2 : j.ToLower op = ascii "transfer" ∨ j.ToLower op = ascii "burn"
  · rw [if_pos c2]
    have n3 : ¬ (j.ToLower op ≠ ascii "deploy+mint" ∧ j.ToLower op ≠ ascii "transfer"
        ∧ j.ToLower op ≠ ascii "burn") := by
      intro h
      rcases c2 with c | c
      · exact h.2.1 c
      · exact h.2.2 c
    rcases hi : data.lookup (ascii "id") with _ | id
    · simp [c2, n3]
    · rcases hn : j.NewOutpointFromString id with _ | o
      · simp [c2, n3, hn]
      · simp [c2, n3, hn]
  · rw [if_neg c2]
    have : j.ToLower op ≠ ascii "deploy+mint" ∧ j.ToLower op ≠ ascii "transfer"
        ∧ j.ToLower op ≠ ascii "burn" := ⟨c1, fun h => c2 (Or.inl h), fun h => c2 (Or.inr h)⟩
    simp [this]

/-- A returned record comes from an envelope that passed every check of lines 25-31. -/
theorem Decode_some {d : inscription.Collaborators} {j : Collaborators} {scr : Script} {t : Bsv21}
    (h : Decode d j scr = .done (some t)) :
    ∃ insc data, inscription.Decode d scr = .done (some insc)
      ∧ insc.File.Type_ = ascii "application/bsv-20"
      ∧ j.Unmarshal insc.File.Content = some data
      ∧ data.lookup (ascii "p") = some (ascii "bsv21")
      ∧ fromPayload j data = some t := by
  unfold Decode at h
  rcases hd : inscription.Decode d scr with _ | _ | r
  · rw [hd] at h; cases h
  · rw [hd] at h; cases h
  rcases r with _ | insc
  · rw [hd] at h; cases h
  rw [hd] at h
  simp only at h
  by_cases ht : insc.File.Type_ = ascii "application/bsv-20"
  swap
  · rw [if_pos ht] at h; cases h
  rw [if_neg (not_not.mpr ht)] at h
  rcases hu : j.Unmarshal insc.File.Content with _ | data
  · rw [hu] at h; cases h
  rw [hu] at h
  simp only at h
  rcases hp : data.lookup (ascii "p") with _ | p
  · rw [hp] at h; cases h
  rw [hp] at h
  simp only at h
  by_cases hpp : p = ascii "bsv21"
  swap
  · rw [if_pos hpp] at h; cases h
  rw [if_neg (not_not.mpr hpp)] at h
  injection h with h
  exact ⟨insc, data, rfl, ht, hu, by rw [hp, hpp], h⟩

/-- When `inscription.Decode` returns `r`, `bsv21.Decode` returns nil exactly in the rejected
cases. -/
theorem Decode_none_iff (d : inscription.Collaborators) (j : Collaborators) (scr : Script)
    (r : Option Inscription) (hd : inscription.Decode d scr = .done r) :
    Decode d j scr = .done none ↔ Rejected j r := by
  unfold Decode Rejected
  rw [hd]
  rcases r with _ | insc
  · simp
  simp only
  by_cases ht : insc.File.Type_ = ascii "application/bsv-20"
  swap
  · rw [if_pos ht]; simp [ht]
  rw [if_neg (not_not.mpr ht)]
  rcases hu : j.Unmarshal insc.File.Content with _ | data
  · simp
  simp only
  rcases hp : data.lookup (ascii "p") with _ | p
  · simp
  simp only
  by_cases hpp : p = ascii "bsv21"
  swap
  · rw [if_pos hpp]; simp [hpp]
  rw [if_neg (not_not.mpr hpp)]
  have := fromPayload_none j data
  simp only [Run.done.injEq, this, ht, hpp, ne_eq, not_true_eq_false, false_or]

/-- The validation of the token payload, for the runs in which `inscription.Decode` returns.
For every script: (1) when `bsv21.Decode` returns a record `t`, `inscription.Decode` returned
an envelope whose type is `application/bsv-20` and whose content is JSON with `"p"` equal to
`"bsv21"`; `t.Op` is the lower-cased `"op"` value and is one of `deploy+mint`, `transfer`,
`burn`; `t.Decimals` is at most 18; and for `transfer` and `burn`, `t.Id` is the `"id"` value
and parses as an outpoint string. (2) Whenever `inscription.Decode` returns, `bsv21.Decode`
returns too, and it returns nil exactly in the rejected cases: no envelope, another type,
invalid JSON, a missing or other `"p"` or `"op"`, an unparsable `"amt"`, a `"dec"` that is
unparsable or above 18, a missing or invalid `"id"`. -/
theorem Decode_validation (d : inscription.Collaborators) (j : Collaborators)
    (scr : Script) :
    (∀ t, Decode d j scr = .done (some t) →
      ∃ insc data op, inscription.Decode d scr = .done (some insc)
        ∧ insc.File.Type_ = ascii "application/bsv-20"
        ∧ j.Unmarshal insc.File.Content = some data
        ∧ data.lookup (ascii "p") = some (ascii "bsv21")
        ∧ data.lookup (ascii "op") = some op ∧ t.Op = j.ToLower op
        ∧ (t.Op = ascii "deploy+mint" ∨ t.Op = ascii "transfer" ∨ t.Op = ascii "burn")
        ∧ t.Decimals ≤ 18
        ∧ ((t.Op = ascii "transfer" ∨ t.Op = ascii "burn") →
            data.lookup (ascii "id") = some t.Id
              ∧ (j.NewOutpointFromString t.Id).isSome = true))
    ∧ (∀ r, inscription.Decode d scr = .done r →
        (∃ x, Decode d j scr = .done x) ∧ (Decode d j scr = .done none ↔ Rejected j r)) := by
  refine ⟨?_, ?_⟩
  · intro t h
    obtain ⟨insc, data, h1, h2, h3, h4, h5⟩ := Decode_some h
    obtain ⟨op, h6, h7, h8, h9, h10⟩ := fromPayload_some h5
    exact ⟨insc, data, op, h1, h2, h3, h4, h6, h7, h8, h9, h10⟩
  · intro r hd
    refine ⟨?_, Decode_none_iff d j scr r hd⟩
    rcases hx : Decode d j scr with _ | _ | x
    · exfalso
      unfold Decode at hx
      rw [hd] at hx
      rcases r with _ | insc
      · cases hx
      · simp only at hx
        split at hx
        · cases hx
        · split at hx
          · cases hx
          · split at hx
            · cases hx
            · split at hx <;> cases hx
    · exfalso
      unfold Decode at hx
      rw [hd] at hx
      rcases r with _ | insc
      · cases hx
      · simp only at hx
        split at hx
        · cases hx
        · split at hx
          · cases hx
          · split at hx
            · cases hx
            · split at hx <;> cases hx
    · exact ⟨x, rfl⟩

/-- The sample transfer payload in an unclosed envelope is decoded to a record with the
lower-cased operation, and the same payload with 19 decimals is rejected. -/
theorem Decode_transfer_sample :
    Decode inscription.sampleCollaborators sampleCollaborators (tokenScript transferPayload)
        = .done (some { Id := sampleId, Op := ascii "transfer", Decimals := 8, Amt := 5 })
      ∧ Decode inscription.sampleCollaborators sampleCollaborators (tokenScript badDecPayload)
        = .done none := by
  constructor
  · rfl
  · rfl

/-- On every script in which the push of `"ord"` is not read at position 0 or 1,
`inscription.Decode` returns, `bsv21.Decode` returns, and it returns nil exactly in the
rejected cases. -/
theorem Decode_validation_returns (d : inscription.Collaborators) (j : Collaborators)
    (scr : Script) (h : leadingOrd scr = false) :
    ∃ r, inscription.Decode d scr = .done r
      ∧ (∃ x, Decode d j scr = .done x) ∧ (Decode d j scr = .done none ↔ Rejected j r) := by
  obtain ⟨r, hr⟩ := inscription.Decode_returns d scr h
  exact ⟨r, hr, (Decode_validation d j scr).2 r hr⟩

/-- Claim C18 (failing input). The script `03 6F 72 64` holds no envelope (it does not contain
the marker), and `bsv21.Decode` does not return nil on it: the call of `inscription.Decode`
on line 23 panics at `(*scr)[startI-2]` with `startI = 0`, and nothing recovers the panic. -/
theorem C18_panics_on_leading_ord (d : inscription.Collaborators) (j : Collaborators) :
    ¬ (MARK <:+: ([0x03, 0x6F, 0x72, 0x64] : List Byte))
      ∧ inscription.Decode d [0x03, 0x6F, 0x72, 0x64] = .panic
      ∧ Decode d j [0x03, 0x6F, 0x72, 0x64] = .panic
      ∧ Decode d j [0x03, 0x6F, 0x72, 0x64] ≠ .done none := by
  have hp : Decode d j [0x03, 0x6F, 0x72, 0x64] = .panic := rfl
  refine ⟨?_, rfl, hp, ?_⟩
  · intro h
    have := h.length_le
    revert this
    decide
  · rw [hp]
    simp

end bsv21



